import Mathlib

set_option maxHeartbeats 1000000

/-!
Verification development for a comparative DHT testbed consisting of a
Chord-style ring (dht_node.py), a socket-based Pastry overlay
(pastry_node.py), an in-process B+ tree local index (local_index.py) and a
benchmark harness (run_comparison.py).

Python dicts are modelled as insertion-ordered association lists, object
references as node ids looked up in an explicit state, SHA-1 hashing as an
abstract function parameter, and recursion through the object graph as
fuel-bounded recursion (with fuel-sufficiency proved where needed).
Python exceptions are modelled with Except; model-level failures
(insufficient fuel, dangling references) with Option.
-/

namespace DHTSpec

/-! ### Python dict as an insertion-ordered association list -/

/-- Python `d[k] = v`: overwrite in place if present, else append. -/
def dinsert {V : Type} (l : List (Nat × V)) (k : Nat) (v : V) : List (Nat × V) :=
  if l.any (fun p => p.1 == k) then l.map (fun p => if p.1 == k then (k, v) else p)
  else l ++ [(k, v)]

/-- Python `d.get(k)`. -/
def dget {V : Type} (l : List (Nat × V)) (k : Nat) : Option V :=
  (l.find? (fun p => p.1 == k)).map (fun p => p.2)

/-- Python `del d[k]` (no error reported when absent; callers guard). -/
def derase {V : Type} (l : List (Nat × V)) (k : Nat) : List (Nat × V) :=
  l.filter (fun p => p.1 != k)

/-- The list-level effect of one iteration of the key-move loop of
Node.join: copy the pair for k from the source dict, then delete it
there. -/
def move_step {V : Type} (ab : List (Nat × V) × List (Nat × V)) (k : Nat) :
    List (Nat × V) × List (Nat × V) :=
  match dget ab.2 k with
  | none => ab
  | some v => (dinsert ab.1 k v, derase ab.2 k)

end DHTSpec

namespace Pastry

open DHTSpec

/-- State of one PastryNode (pastry_node.py).  `pid` is the 160-bit integer
id (`id_int`); `id_hex` is derived from it, so leaf-set entries and routing
are modelled on the integer id.  The on-socket network is modelled as the
list of running nodes; `cleanup` (running = False) removes the node. -/
structure PastryNode (V : Type) where
  pid : Nat
  leaf_set : List Nat
  storage : List (Nat × V)
deriving Repr, DecidableEq

abbrev PNet (V : Type) := List (PastryNode V)

/-- Resolve a node id on the network (a successful TCP connect). -/
def pfind {V : Type} (net : PNet V) (i : Nat) : Option (PastryNode V) :=
  net.find? (fun n => n.pid == i)

def pupdate {V : Type} (net : PNet V) (i : Nat) (f : PastryNode V → PastryNode V) : PNet V :=
  net.map (fun n => if n.pid == i then f n else n)

/-- abs(int(a_hex, 16) - int(b_hex, 16)) on 160-bit ids. -/
def ndist (a b : Nat) : Nat := max a b - min a b

/-- PastryNode.route: the leaf-set member (or self) numerically closest to
the key; strict improvement, first seen wins ties. -/
def route {V : Type} (n : PastryNode V) (key : Nat) : Nat × Bool :=
  let best := n.leaf_set.foldl
    (fun acc x => if ndist x key < acc.2 then (x, ndist x key) else acc)
    (n.pid, ndist n.pid key)
  if best.1 == n.pid then (n.pid, false) else (best.1, true)

/-- PastryNode.lookup_recursive.  Outer `none` is model fuel exhaustion
(the Python code recurses without any bound); inner `none` is Python `None`
(an unreachable next hop makes send_request return None, which the method
returns verbatim). -/
def lookup_recursive {V : Type} (net : PNet V) :
    Nat → Nat → Nat → Nat → Option (Option (Nat × Nat))
  | 0, _, _, _ => none
  | fuel+1, selfId, key, hops =>
    match pfind net selfId with
    | none => none
    | some n =>
      let r := route n key
      if r.2 then
        if r.1 == selfId then lookup_recursive net fuel selfId key (hops+1)
        else
          match pfind net r.1 with
          | none => some none
          | some _ => lookup_recursive net fuel r.1 key (hops+1)
      else some (some (selfId, hops))

/-- send_request(target, insert_local, ...): same-id fast path, remote
dispatch, or a silently dropped message when the target is unreachable. -/
def send_insert_local {V : Type} (net : PNet V) (target k : Nat) (v : V) : PNet V :=
  pupdate net target (fun n => { n with storage := dinsert n.storage k v })

/-- PastryNode.lookup_local: `if b:` makes falsy stored values read as
absent; `truthy` models Python truthiness of the stored blob. -/
def lookup_local {V : Type} (truthy : V → Bool) (n : PastryNode V) (k : Nat) : Option V :=
  match dget n.storage k with
  | some b => if truthy b then some b else none
  | none => none

/-- send_request(target, lookup_local, ...): `none` means the RPC produced
no response (Python send_request returned None). -/
def send_lookup_local {V : Type} (truthy : V → Bool) (net : PNet V)
    (selfId target k : Nat) : Option (Option V) :=
  if target == selfId then (pfind net selfId).map (fun n => lookup_local truthy n k)
  else
    match pfind net target with
    | none => none
    | some n => some (lookup_local truthy n k)

inductive PyErr
  | typeError
deriving Repr, DecidableEq

/-- PastryNode.lookup_key.  `res['node']` on a None result of
lookup_recursive, and `data_res['val']` on a None result of send_request,
raise TypeError in Python. -/
def lookup_key {V : Type} (genHash : String → Nat) (truthy : V → Bool)
    (net : PNet V) (fuel selfId : Nat) (title : String) :
    Option (Except PyErr (Option V × Nat)) :=
  let key := genHash title
  match lookup_recursive net fuel selfId key 0 with
  | none => none
  | some none => some (Except.error PyErr.typeError)
  | some (some (target, hops)) =>
    match send_lookup_local truthy net selfId target key with
    | none => some (Except.error PyErr.typeError)
    | some val => some (Except.ok (val, hops))

/-- PastryNode.insert_key: route to the responsible node, then fire an
insert_local whose response is ignored. -/
def insert_key {V : Type} (genHash : String → Nat) (net : PNet V)
    (fuel selfId : Nat) (title : String) (v : V) :
    Option (Except PyErr (PNet V)) :=
  let key := genHash title
  match lookup_recursive net fuel selfId key 0 with
  | none => none
  | some none => some (Except.error PyErr.typeError)
  | some (some (target, _)) => some (Except.ok (send_insert_local net target key v))

/-- PastryNode.update_key is literally a call to insert_key. -/
def update_key {V : Type} (genHash : String → Nat) (net : PNet V)
    (fuel selfId : Nat) (title : String) (v : V) :
    Option (Except PyErr (PNet V)) :=
  insert_key genHash net fuel selfId title v

/-- PastryNode.leave.  The key transfer loop is guarded by HAS_BPLUSTREE;
with dict storage nothing is transferred.  cleanup stops the server, which
removes the node from the reachable network. -/
def leave {V : Type} (net : PNet V) (hasBPlusTree : Bool) (selfId : Nat) :
    Option (PNet V) :=
  match pfind net selfId with
  | none => none
  | some n =>
    let net1 :=
      match n.leaf_set with
      | [] => net
      | nb :: _ =>
        if hasBPlusTree then
          n.storage.foldl (fun (s : PNet V) (kv : Nat × V) => send_insert_local s nb kv.1 kv.2) net
        else net
    some (net1.filter (fun x => x.pid != selfId))

end Pastry

namespace Chord

open DHTSpec

/-- State of one in-memory Chord Node (dht_node.py).  Object references
(successor, predecessor, fingers) are modelled by node id. -/
structure ChordNode (V : Type) where
  nid : Nat
  m : Nat
  succ : Nat
  pred : Option Nat
  fingers : List Nat
  storage : List (Nat × V)
deriving Repr, DecidableEq

abbrev Ring (V : Type) := List (ChordNode V)

def cfind {V : Type} (st : Ring V) (i : Nat) : Option (ChordNode V) :=
  st.find? (fun n => n.nid == i)

def cupdate {V : Type} (st : Ring V) (i : Nat) (f : ChordNode V → ChordNode V) : Ring V :=
  st.map (fun n => if n.nid == i then f n else n)

/-- Node._is_between, byte for byte. -/
def is_between (key n1 n2 : Nat) (inclusive_end : Bool) : Bool :=
  if n1 < n2 then
    if inclusive_end then decide (n1 < key) && decide (key ≤ n2)
    else decide (n1 < key) && decide (key < n2)
  else
    if inclusive_end then decide (n1 < key) || decide (key ≤ n2)
    else decide (n1 < key) || decide (key < n2)

/-- Node.closest_preceding_node: scan the finger table from the highest
index down, return the first finger strictly inside (self.id, key). -/
def closest_preceding_node {V : Type} (n : ChordNode V) (key : Nat) : Nat :=
  match n.fingers.reverse.find? (fun f => is_between f n.nid key false) with
  | some f => f
  | none => n.nid

/-- Node.find_successor, fuel-bounded (the Python code recurses through
object references). -/
def find_successor {V : Type} (st : Ring V) : Nat → Nat → Nat → Option Nat
  | 0, _, _ => none
  | fuel+1, selfId, key =>
    match cfind st selfId with
    | none => none
    | some n =>
      if is_between key n.nid n.succ true then some n.succ
      else
        let np := closest_preceding_node n key
        if np == n.nid then some n.succ
        else find_successor st fuel np key

/-- Node._fix_fingers: finger_table[i] = find_successor((id + 2^i) % 2^m),
updated sequentially in place. -/
def fix_fingers {V : Type} (st : Ring V) (fuel selfId : Nat) : Option (Ring V) :=
  match cfind st selfId with
  | none => none
  | some n0 =>
    (List.range n0.m).foldlM
      (fun s i =>
        match cfind s selfId with
        | none => none
        | some nd =>
          match find_successor s fuel selfId ((nd.nid + 2 ^ i) % 2 ^ nd.m) with
          | none => none
          | some r => some (cupdate s selfId (fun x => { x with fingers := x.fingers.set i r })))
      st

inductive CErr
  | attrError
  | stuck
deriving Repr, DecidableEq

/-- The key-move loop of Node.join: self.storage[k] =
self.successor.storage[k]; del self.successor.storage[k]. -/
def move_keys {V : Type} (selfId succId : Nat) (keys : List Nat) (st : Ring V) : Ring V :=
  keys.foldl
    (fun sAcc k =>
      match cfind sAcc succId with
      | none => sAcc
      | some sn =>
        match dget sn.storage k with
        | none => sAcc
        | some v =>
          cupdate (cupdate sAcc selfId (fun x => { x with storage := dinsert x.storage k v }))
            succId (fun x => { x with storage := derase x.storage k }))
    st

/-- Node.join.  attrError is Python's AttributeError from dereferencing
self.predecessor.id when predecessor is None inside the redistribution
loop (only reached when the successor's storage is nonempty, since the
condition is evaluated once per stored pair). -/
def join {V : Type} (st : Ring V) (fuel selfId bootId : Nat) : Except CErr (Ring V) :=
  match find_successor st fuel bootId selfId with
  | none => Except.error CErr.stuck
  | some s =>
    match cfind st s with
    | none => Except.error CErr.stuck
    | some sNode =>
      let st1 := cupdate st selfId (fun x => { x with succ := s, pred := sNode.pred })
      match cfind st1 s with
      | none => Except.error CErr.stuck
      | some sNode1 =>
        let st2 :=
          match sNode1.pred with
          | some q => cupdate st1 q (fun x => { x with succ := selfId })
          | none => st1
        let st3 := cupdate st2 s (fun x => { x with pred := some selfId })
        match fix_fingers st3 fuel selfId with
        | none => Except.error CErr.stuck
        | some st4 =>
          match cfind st4 selfId with
          | none => Except.error CErr.stuck
          | some nNow =>
            match cfind st4 nNow.succ with
            | none => Except.error CErr.stuck
            | some sNode2 =>
              match sNode2.storage with
              | [] => Except.ok st4
              | _ :: _ =>
                match nNow.pred with
                | none => Except.error CErr.attrError
                | some p =>
                  Except.ok (move_keys selfId nNow.succ
                    ((sNode2.storage.filter
                      (fun kv => is_between kv.1 p nNow.nid true)).map (fun kv => kv.1)) st4)

/-- Node.leave: push every stored pair to the successor, clear local
storage, patch neighbours, reset own pointers. -/
def leave {V : Type} (st : Ring V) (selfId : Nat) : Option (Ring V) :=
  match cfind st selfId with
  | none => none
  | some n =>
    let st1 := n.storage.foldl
      (fun s kv => cupdate s n.succ (fun x => { x with storage := dinsert x.storage kv.1 kv.2 }))
      st
    let st2 := cupdate st1 selfId (fun x => { x with storage := [] })
    let st3 :=
      match n.pred with
      | some p => cupdate st2 p (fun x => { x with succ := n.succ })
      | none => st2
    let st4 := cupdate st3 n.succ (fun x => { x with pred := n.pred })
    some (cupdate st4 selfId (fun x => { x with succ := selfId, pred := none }))

/-- Node.insert_key. -/
def insert_key {V : Type} (genHash : String → Nat) (st : Ring V)
    (fuel selfId : Nat) (title : String) (v : V) : Option (Ring V) :=
  let key := genHash title
  match find_successor st fuel selfId key with
  | none => none
  | some r => some (cupdate st r (fun x => { x with storage := dinsert x.storage key v }))

/-- Node.lookup_key: returns the bare value (via `if data:` truthiness) or
None; there is no hop count in the return value. -/
def lookup_key {V : Type} (genHash : String → Nat) (truthy : V → Bool)
    (st : Ring V) (fuel selfId : Nat) (title : String) : Option (Option V) :=
  let key := genHash title
  match find_successor st fuel selfId key with
  | none => none
  | some r =>
    match cfind st r with
    | none => none
    | some nd =>
      match dget nd.storage key with
      | some v => some (if truthy v then some v else none)
      | none => some none

/-- Node.delete_key. -/
def delete_key {V : Type} (genHash : String → Nat) (st : Ring V)
    (fuel selfId : Nat) (title : String) : Option (Ring V × Bool) :=
  let key := genHash title
  match find_successor st fuel selfId key with
  | none => none
  | some r =>
    match cfind st r with
    | none => none
    | some nd =>
      if (dget nd.storage key).isSome then
        some (cupdate st r (fun x => { x with storage := derase x.storage key }), true)
      else some (st, false)

/-- Node.update_key: overwrite only when the key is already present;
otherwise return False and change nothing. -/
def update_key {V : Type} (genHash : String → Nat) (st : Ring V)
    (fuel selfId : Nat) (title : String) (v : V) : Option (Ring V × Bool) :=
  let key := genHash title
  match find_successor st fuel selfId key with
  | none => none
  | some r =>
    match cfind st r with
    | none => none
    | some nd =>
      if (dget nd.storage key).isSome then
        some (cupdate st r (fun x => { x with storage := dinsert x.storage key v }), true)
      else some (st, false)

/-- Storage of the node with a given id (empty when absent). -/
def storageOf {V : Type} (st : Ring V) (i : Nat) : List (Nat × V) :=
  match cfind st i with
  | some n => n.storage
  | none => []

/-- The ring successor of a member id: smallest member id above it, else
the minimum (wrap-around). -/
def ringSucc (ids : List Nat) (x : Nat) : Nat :=
  match (ids.filter (fun y => decide (x < y))).min? with
  | some m => m
  | none => ids.min?.getD 0

/-- The ring predecessor of a member id: largest member id below it, else
the maximum (wrap-around). -/
def ringPred (ids : List Nat) (x : Nat) : Nat :=
  match (ids.filter (fun y => decide (y < x))).max? with
  | some m => m
  | none => ids.max?.getD 0

/-- The node responsible for a key: smallest member id at or above the
key, else the minimum (wrap-around). -/
def ownerOf (ids : List Nat) (k : Nat) : Nat :=
  match (ids.filter (fun y => decide (k ≤ y))).min? with
  | some m => m
  | none => ids.min?.getD 0

/-- Well-formedness of one member node: correct successor and predecessor
for the cyclic order, nonempty finger table whose entry 0 is the successor
(the spec's quiescent invariant), all fingers pointing at members, and
dict-like storage (no duplicate keys). -/
def nodeOKb {V : Type} (st : Ring V) (ids : List Nat) (i : Nat) : Bool :=
  match cfind st i with
  | none => false
  | some n =>
    n.succ == ringSucc ids i && n.pred == some (ringPred ids i) &&
    !n.fingers.isEmpty && n.fingers.head? == some (ringSucc ids i) &&
    n.fingers.all (fun f => ids.contains f) &&
    decide ((n.storage.map Prod.fst).Nodup)

/-- A well-formed quiescent ring over the member ids `ids` (other, dead or
unreferenced nodes may coexist in the state). -/
def ringWF {V : Type} (st : Ring V) (ids : List Nat) : Prop :=
  ids.Nodup ∧ ids ≠ [] ∧ ∀ i ∈ ids, nodeOKb st ids i = true

/-- Weaker closure property: every reference leaving a member leads to a
member.  Enough for routing to terminate. -/
def refsClosedb {V : Type} (st : Ring V) (ids : List Nat) (i : Nat) : Bool :=
  match cfind st i with
  | none => false
  | some n => ids.contains n.succ && n.fingers.all (fun f => ids.contains f)

def refsClosed {V : Type} (st : Ring V) (ids : List Nat) : Prop :=
  ∀ i ∈ ids, refsClosedb st ids i = true

/-- The two-node state family traversed while a fresh node n joins a
fresh bootstrap b (successor = itself, predecessor None, storage S): the
bootstrap after the neighbour patch, and the joiner with its current
finger table fl. -/
def g10 {V : Type} (b n m m' : Nat) (S : List (Nat × V)) (fl : List Nat) : Ring V :=
  [⟨b, m, b, some n, List.replicate m b, S⟩, ⟨n, m', b, none, fl, []⟩]

/-- Visible effect of swapping the finger table of the node with id
selfId (used to characterize fix_fingers). -/
def overlayF {V : Type} (selfId : Nat) (fl : List Nat) (n : ChordNode V) : ChordNode V :=
  if n.nid == selfId then { n with fingers := fl } else n

/-- Visible effect of replacing the storages of the joiner and of its
successor (used to characterize the key-move loop of join). -/
def overlay2 {V : Type} (selfId succId : Nat) (A B : List (Nat × V))
    (n : ChordNode V) : ChordNode V :=
  if n.nid == selfId then { n with storage := A }
  else if n.nid == succId then { n with storage := B } else n

end Chord

namespace BTree

open DHTSpec

/-- One BPlusTreeNode (local_index.py).  Python objects live in an arena;
object identity is the arena index, the `next` pointer of the leaf chain
is such an index. -/
structure BPlusTreeNode (V : Type) where
  leaf : Bool
  keys : List Nat
  values : List V
  children : List Nat
  next : Option Nat
deriving Repr

structure BPlusTree (V : Type) where
  arena : List (BPlusTreeNode V)
  root : Nat
  order : Nat
deriving Repr

def getN {V : Type} (t : BPlusTree V) (a : Nat) : Option (BPlusTreeNode V) :=
  t.arena[a]?

def setN {V : Type} (t : BPlusTree V) (a : Nat) (nd : BPlusTreeNode V) : BPlusTree V :=
  { t with arena := t.arena.set a nd }

/-- Allocate a fresh node (a new Python object): fresh identity. -/
def alloc {V : Type} (t : BPlusTree V) (nd : BPlusTreeNode V) : BPlusTree V × Nat :=
  ({ t with arena := t.arena ++ [nd] }, t.arena.length)

/-- BPlusTree(order): one empty root leaf. -/
def emptyTree (V : Type) (order : Nat) : BPlusTree V :=
  ⟨[⟨true, [], [], [], none⟩], 0, order⟩

/-- bisect.bisect_right on a sorted list: the number of elements ≤ key.
All reachable key lists are sorted (proved below), where this agrees with
Python's binary search. -/
def bisect_right (l : List Nat) (key : Nat) : Nat :=
  l.countP (fun x => decide (x ≤ key))

/-- bisect.insort on a sorted list: insert after existing equal elements. -/
def insort (l : List Nat) (key : Nat) : List Nat :=
  l.takeWhile (fun x => decide (x ≤ key)) ++ key :: l.dropWhile (fun x => decide (x ≤ key))

/-- BPlusTree._find_leaf, fuel-bounded descent through children. -/
def find_leaf_aux {V : Type} (t : BPlusTree V) (key : Nat) : Nat → Nat → Option Nat
  | 0, _ => none
  | fuel+1, a =>
    match getN t a with
    | none => none
    | some nd =>
      if nd.leaf then some a
      else
        match nd.children[bisect_right nd.keys key]? with
        | none => none
        | some c => find_leaf_aux t key fuel c

def find_leaf {V : Type} (t : BPlusTree V) (key : Nat) : Option Nat :=
  find_leaf_aux t key (t.arena.length + 1) t.root

mutual

/-- BPlusTree._find_parent: preorder DFS, identity comparison on the
child, checking each child before descending into it. -/
def find_parent {V : Type} (t : BPlusTree V) (child : Nat) (fuel curr : Nat) : Option Nat :=
  match fuel with
  | 0 => none
  | fuel'+1 =>
    match getN t curr with
    | none => none
    | some nd =>
      if nd.leaf then none
      else find_parent_scan t child fuel' curr nd.children
termination_by (fuel, 0)

def find_parent_scan {V : Type} (t : BPlusTree V) (child : Nat) (fuel curr : Nat)
    (cs : List Nat) : Option Nat :=
  match cs with
  | [] => none
  | c :: rest =>
    if c == child then some curr
    else
      match find_parent t child fuel c with
      | some r => some r
      | none => find_parent_scan t child fuel curr rest
termination_by (fuel, cs.length + 1)

end

mutual

/-- BPlusTree._insert_into_parent. -/
def insert_into_parent {V : Type} (t : BPlusTree V) (oldChild key newChild fuel : Nat) :
    Option (BPlusTree V) :=
  match fuel with
  | 0 => none
  | fuel'+1 =>
    match find_parent t oldChild (t.arena.length + 1) t.root with
    | none => none
    | some pa =>
      match getN t pa with
      | none => none
      | some p =>
        let keys' := insort p.keys key
        let idx := keys'.indexOf key
        let children' := p.children.insertIdx (idx + 1) newChild
        let t1 := setN t pa { p with keys := keys', children := children' }
        if (keys'.length : Int) > (t.order : Int) - 1 then split_internal t1 pa fuel'
        else some t1
termination_by (fuel, 0)

/-- BPlusTree._split_internal. -/
def split_internal {V : Type} (t : BPlusTree V) (na fuel : Nat) : Option (BPlusTree V) :=
  match getN t na with
  | none => none
  | some nd =>
    let mid := nd.keys.length / 2
    match nd.keys[mid]? with
    | none => none
    | some splitKey =>
      let pr := alloc t ⟨false, nd.keys.drop (mid+1), [], nd.children.drop (mid+1), none⟩
      let t2 := setN pr.1 na { nd with keys := nd.keys.take mid, children := nd.children.take (mid+1) }
      if na == t.root then
        let pr2 := alloc t2 ⟨false, [splitKey], [], [na, pr.2], none⟩
        some { pr2.1 with root := pr2.2 }
      else insert_into_parent t2 na splitKey pr.2 fuel
termination_by (fuel, 1)

end

/-- BPlusTree._split_leaf: split at the median, rewire the leaf chain,
promote the right half's first key. -/
def split_leaf {V : Type} (t : BPlusTree V) (la fuel : Nat) : Option (BPlusTree V) :=
  match getN t la with
  | none => none
  | some leaf =>
    let mid := (leaf.keys.length + 1) / 2
    let pr := alloc t ⟨true, leaf.keys.drop mid, leaf.values.drop mid, [], leaf.next⟩
    let t2 := setN pr.1 la
      { leaf with keys := leaf.keys.take mid, values := leaf.values.take mid, next := some pr.2 }
    match (leaf.keys.drop mid).head? with
    | none => none
    | some promoted =>
      if la == t.root then
        let pr2 := alloc t2 ⟨false, [promoted], [], [la, pr.2], none⟩
        some { pr2.1 with root := pr2.2 }
      else insert_into_parent t2 la promoted pr.2 fuel

/-- BPlusTree.insert: overwrite in place when present, otherwise insort
and split on overflow.  The overflow test is on Python ints (order - 1 may
be negative). -/
def insert {V : Type} (t : BPlusTree V) (key : Nat) (v : V) : Option (BPlusTree V) :=
  match find_leaf t key with
  | none => none
  | some la =>
    match getN t la with
    | none => none
    | some leaf =>
      if key ∈ leaf.keys then
        some (setN t la { leaf with values := leaf.values.set (leaf.keys.indexOf key) v })
      else
        let keys' := insort leaf.keys key
        let idx := keys'.indexOf key
        let values' := leaf.values.insertIdx idx v
        let t1 := setN t la { leaf with keys := keys', values := values' }
        if (keys'.length : Int) > (t.order : Int) - 1 then split_leaf t1 la (t.arena.length + 1)
        else some t1

/-- BPlusTree.retrieve: the value when present (IndexError on misaligned
value lists is the outer none), Python None when absent. -/
def retrieve {V : Type} (t : BPlusTree V) (key : Nat) : Option (Option V) :=
  match find_leaf t key with
  | none => none
  | some la =>
    match getN t la with
    | none => none
    | some leaf =>
      if key ∈ leaf.keys then
        match leaf.values[leaf.keys.indexOf key]? with
        | none => none
        | some v => some (some v)
      else some none

/-- BPlusTree.contains. -/
def contains {V : Type} (t : BPlusTree V) (key : Nat) : Option Bool :=
  match find_leaf t key with
  | none => none
  | some la => (getN t la).map (fun leaf => decide (key ∈ leaf.keys))

/-- BPlusTree.delete: pop key and value from the found leaf when present
(no rebalancing). -/
def delete {V : Type} (t : BPlusTree V) (key : Nat) : Option (BPlusTree V × Bool) :=
  match find_leaf t key with
  | none => none
  | some la =>
    match getN t la with
    | none => none
    | some leaf =>
      if key ∈ leaf.keys then
        let idx := leaf.keys.indexOf key
        some (setN t la
          { leaf with keys := leaf.keys.eraseIdx idx, values := leaf.values.eraseIdx idx }, true)
      else some (t, false)

/-- Descend to the leftmost leaf (the first loop of items()). -/
def leftmost {V : Type} (t : BPlusTree V) : Nat → Nat → Option Nat
  | 0, _ => none
  | fuel+1, a =>
    match getN t a with
    | none => none
    | some nd =>
      if nd.leaf then some a
      else
        match nd.children[0]? with
        | none => none
        | some c => leftmost t fuel c

/-- Walk the leaf chain collecting zip(keys, values) (the second loop of
items()). -/
def chain_items {V : Type} (t : BPlusTree V) : Nat → Option Nat → Option (List (Nat × V))
  | _, none => some []
  | 0, some _ => none
  | fuel+1, some a =>
    match getN t a with
    | none => none
    | some nd =>
      match chain_items t fuel nd.next with
      | none => none
      | some rest => some (nd.keys.zip nd.values ++ rest)

/-- BPlusTree.items. -/
def items {V : Type} (t : BPlusTree V) : Option (List (Nat × V)) :=
  match leftmost t (t.arena.length + 1) t.root with
  | none => none
  | some a => chain_items t (t.arena.length + 1) (some a)

/-- Trees reachable from a fresh BPlusTree by completed insert and delete
operations. -/
inductive Reachable {V : Type} : BPlusTree V → Prop
  | base (order : Nat) : Reachable (emptyTree V order)
  | ins {t t' : BPlusTree V} {k : Nat} {v : V} :
      Reachable t → insert t k v = some t' → Reachable t'
  | del {t t' : BPlusTree V} {k : Nat} {b : Bool} :
      Reachable t → delete t k = some (t', b) → Reachable t'

/-- Python values as stored in the local index: None, or some data. -/
inductive PyVal
  | null
  | intVal (n : Nat)
  | strVal (s : String)
deriving Repr, DecidableEq

/-- Lower bound check: key at or above the (inclusive) lower bound. -/
def loLE (lo : Option Nat) (k : Nat) : Bool :=
  match lo with
  | none => true
  | some l => decide (l ≤ k)

/-- Strict lower bound check (for separator keys). -/
def loLT (lo : Option Nat) (k : Nat) : Bool :=
  match lo with
  | none => true
  | some l => decide (l < k)

/-- Upper bound check: key strictly below the (exclusive) upper bound. -/
def hiGT (hi : Option Nat) (k : Nat) : Bool :=
  match hi with
  | none => true
  | some h => decide (k < h)

/-- Strictly ascending list of keys. -/
def strictAsc : List Nat → Bool
  | [] => true
  | [_] => true
  | a :: b :: r => decide (a < b) && strictAsc (b :: r)

/-- Local well-formedness of a leaf against its routing interval [lo, hi):
flag set, keys strictly ascending and inside the interval, values aligned
with keys. -/
def leafCk {V : Type} (nd : BPlusTreeNode V) (lo hi : Option Nat) : Bool :=
  nd.leaf && strictAsc nd.keys &&
  nd.keys.all (fun k => loLE lo k && hiGT hi k) &&
  nd.values.length == nd.keys.length

mutual

/-- Structure scanner: checks the B+ tree shape rooted at address a
against the routing interval [lo, hi) and returns the in-order contents,
the addresses visited, and the leaves left to right.  Separator keys of
internal nodes must lie strictly inside the interval; child subtrees are
checked against the subintervals that the bisect_right descent of
_find_leaf routes into them. -/
def scanN {V : Type} (t : BPlusTree V) (fuel : Nat) (a : Nat) (lo hi : Option Nat) :
    Option (List (Nat × V) × List Nat × List Nat) :=
  match fuel with
  | 0 => none
  | fuel + 1 =>
    match getN t a with
    | none => none
    | some nd =>
      if nd.leaf then
        if leafCk nd lo hi then some (nd.keys.zip nd.values, [a], [a]) else none
      else
        match scanKids t fuel nd.keys nd.children lo hi with
        | none => none
        | some r => some (r.1, a :: r.2.1, r.2.2)
termination_by (fuel, 0)

/-- Scan the children of an internal node: keys ks and children cs
alternate, each child covering the interval between its adjacent keys. -/
def scanKids {V : Type} (t : BPlusTree V) (fuel : Nat) (ks cs : List Nat)
    (lo hi : Option Nat) : Option (List (Nat × V) × List Nat × List Nat) :=
  match ks, cs with
  | [], [c] => scanN t fuel c lo hi
  | k :: ks', c :: cs' =>
    if loLT lo k && hiGT hi k then
      match scanN t fuel c lo (some k) with
      | none => none
      | some r1 =>
        match scanKids t fuel ks' cs' (some k) hi with
        | none => none
        | some r2 => some (r1.1 ++ r2.1, r1.2.1 ++ r2.2.1, r1.2.2 ++ r2.2.2)
    else none
  | [], [] => none
  | [], _ :: _ :: _ => none
  | _ :: _, [] => none
termination_by (fuel, cs.length + 1)

end

/-- Leaf chain check: consecutive leaves linked by next, the last leaf
ending the chain. -/
def linkedB {V : Type} (t : BPlusTree V) : List Nat → Bool
  | [] => true
  | [a] =>
    match getN t a with
    | none => false
    | some nd => nd.next == none
  | a :: b :: r =>
    (match getN t a with
     | none => false
     | some nd => nd.next == some b) && linkedB t (b :: r)

/-- Root scan with enough fuel for any tree whose visited addresses are
distinct. -/
def scanRoot {V : Type} (t : BPlusTree V) : Option (List (Nat × V) × List Nat × List Nat) :=
  scanN t (t.arena.length + 1) t.root none none

/-- Full well-formedness: the root scan succeeds, every node is visited
at most once, and the visited leaves form the next-pointer chain. -/
def WFb {V : Type} (t : BPlusTree V) : Bool :=
  match scanRoot t with
  | none => false
  | some r => decide r.2.1.Nodup && linkedB t r.2.2

def WF {V : Type} (t : BPlusTree V) : Prop := WFb t = true

/-- Insertion into a sorted association list: overwrite in place when the
key is present, place at the sorted position when absent (the abstract
effect of BPlusTree.insert on the in-order contents). -/
def insKV {V : Type} (k : Nat) (v : V) : List (Nat × V) → List (Nat × V)
  | [] => [(k, v)]
  | (k', v') :: r =>
    if k < k' then (k, v) :: (k', v') :: r
    else if k = k' then (k, v) :: r
    else (k', v') :: insKV k v r

/-- Concatenation of the zipped contents of a list of leaves. -/
def leafConcat {V : Type} (t : BPlusTree V) : List Nat → Option (List (Nat × V))
  | [] => some []
  | a :: r =>
    match getN t a with
    | none => none
    | some nd =>
      match leafConcat t r with
      | none => none
      | some rest => some (nd.keys.zip nd.values ++ rest)

/-- Facts a successful scan guarantees: sorted in-range contents, visited
addresses inside the arena, a nonempty leaf list drawn from the visited
addresses, and contents equal to the concatenated leaf contents. -/
def NFacts {V : Type} (t : BPlusTree V) (lo hi : Option Nat) (c : List (Nat × V))
    (ad lv : List Nat) : Prop :=
  (c.map Prod.fst).Pairwise (· < ·) ∧
  (∀ k ∈ c.map Prod.fst, loLE lo k = true ∧ hiGT hi k = true) ∧
  (∀ x ∈ ad, x < t.arena.length) ∧
  lv ≠ [] ∧ lv.Sublist ad ∧
  leafConcat t lv = some c

/-- Scan a pending split pair: the node at address ch is conceptually
followed by the separator key and the fresh node nb, although the parent
still lists only ch.  Both subtrees are scanned normally against the
split subintervals. -/
def scanPair {V : Type} (t : BPlusTree V) (ch key nb fuel : Nat) (lo hi : Option Nat) :
    Option (List (Nat × V) × List Nat × List Nat) :=
  if loLT lo key && hiGT hi key then
    match scanN t fuel ch lo (some key) with
    | none => none
    | some r1 =>
      match scanN t fuel nb (some key) hi with
      | none => none
      | some r2 => some (r1.1 ++ r2.1, r1.2.1 ++ r2.2.1, r1.2.2 ++ r2.2.2)
  else none

mutual

/-- Scanner for the intermediate states of the split cascade: like scanN,
but when the child pointer ch is met it is scanned as the pending pair
(ch, key, nb). -/
def scanVN {V : Type} (t : BPlusTree V) (ch key nb fuel a : Nat) (lo hi : Option Nat) :
    Option (List (Nat × V) × List Nat × List Nat) :=
  match fuel with
  | 0 => none
  | fuel + 1 =>
    match getN t a with
    | none => none
    | some nd =>
      if nd.leaf then
        if leafCk nd lo hi then some (nd.keys.zip nd.values, [a], [a]) else none
      else
        match scanKidsV t ch key nb fuel nd.keys nd.children lo hi with
        | none => none
        | some r => some (r.1, a :: r.2.1, r.2.2)
termination_by (fuel, 0)

def scanKidsV {V : Type} (t : BPlusTree V) (ch key nb fuel : Nat) (ks cs : List Nat)
    (lo hi : Option Nat) : Option (List (Nat × V) × List Nat × List Nat) :=
  match ks, cs with
  | [], [c] =>
    if c == ch then scanPair t ch key nb fuel lo hi
    else scanVN t ch key nb fuel c lo hi
  | k :: ks', c :: cs' =>
    if loLT lo k && hiGT hi k then
      match (if c == ch then scanPair t ch key nb fuel lo (some k)
             else scanVN t ch key nb fuel c lo (some k)) with
      | none => none
      | some r1 =>
        match scanKidsV t ch key nb fuel ks' cs' (some k) hi with
        | none => none
        | some r2 => some (r1.1 ++ r2.1, r1.2.1 ++ r2.2.1, r1.2.2 ++ r2.2.2)
    else none
  | [], [] => none
  | [], _ :: _ :: _ => none
  | _ :: _, [] => none
termination_by (fuel, cs.length + 1)

end

/-- Descent along child pointers of internal nodes, as _find_parent walks
them: from a to x through children lists. -/
inductive ReachChild {V : Type} (t : BPlusTree V) : Nat → Nat → Prop
  | refl (a : Nat) : ReachChild t a a
  | step {a c x : Nat} {nd : BPlusTreeNode V} :
      getN t a = some nd → nd.leaf = false → c ∈ nd.children →
      ReachChild t c x → ReachChild t a x

/-- The parent update performed by _insert_into_parent: the separator key
goes to its sorted slot and the new child right after the old one. -/
def attachP {V : Type} (P : BPlusTreeNode V) (key nb : Nat) : BPlusTreeNode V :=
  { P with keys := insort P.keys key,
           children := P.children.insertIdx ((insort P.keys key).indexOf key + 1) nb }

/-- What the descent of _find_leaf establishes about the leaf la it lands
on inside a scanned subtree: la holds a contiguous slice of the contents,
everything before it is below the key, everything after it above, the
leaf's own interval brackets the key, and replacing the leaf with any
node valid for the same interval re-scans to the same shape with the
slice swapped. -/
def FLCore {V : Type} (t : BPlusTree V) (key : Nat) (c : List (Nat × V))
    (ad lv : List Nat)
    (S : BPlusTree V → Option (List (Nat × V) × List Nat × List Nat))
    (la : Nat) : Prop :=
  ∃ nd lo' hi' pre post,
    getN t la = some nd ∧
    loLE lo' key = true ∧ hiGT hi' key = true ∧
    leafCk nd lo' hi' = true ∧
    c = pre ++ nd.keys.zip nd.values ++ post ∧
    (∀ x ∈ pre.map Prod.fst, x < key) ∧
    (∀ x ∈ post.map Prod.fst, key < x) ∧
    ∀ nd' : BPlusTreeNode V, leafCk nd' lo' hi' = true →
      S (setN t la nd') = some (pre ++ nd'.keys.zip nd'.values ++ post, ad, lv)

end BTree


/-! ## Pastry routing: termination by strictly decreasing distance -/

namespace Pastry

theorem pfind_pid {V : Type} {net : PNet V} {i : Nat} {n : PastryNode V}
    (h : pfind net i = some n) : n.pid = i := by
  have := List.find?_some h
  simpa using this

theorem pfind_mem {V : Type} {net : PNet V} {i : Nat} {n : PastryNode V}
    (h : pfind net i = some n) : n ∈ net :=
  List.mem_of_find?_eq_some h

theorem mem_pids_of_pfind {V : Type} {net : PNet V} {i : Nat} {n : PastryNode V}
    (h : pfind net i = some n) : i ∈ net.map (fun x => x.pid) := by
  refine List.mem_map.mpr ⟨n, pfind_mem h, pfind_pid h⟩

theorem route_fold_spec (key : Nat) :
    ∀ (l : List Nat) (acc : Nat × Nat), acc.2 = ndist acc.1 key →
      (l.foldl (fun acc x => if ndist x key < acc.2 then (x, ndist x key) else acc) acc).2 =
        ndist (l.foldl (fun acc x => if ndist x key < acc.2 then (x, ndist x key) else acc) acc).1 key ∧
      (l.foldl (fun acc x => if ndist x key < acc.2 then (x, ndist x key) else acc) acc).2 ≤ acc.2 ∧
      ((l.foldl (fun acc x => if ndist x key < acc.2 then (x, ndist x key) else acc) acc).1 = acc.1 ∨
        ((l.foldl (fun acc x => if ndist x key < acc.2 then (x, ndist x key) else acc) acc).1 ∈ l ∧
         (l.foldl (fun acc x => if ndist x key < acc.2 then (x, ndist x key) else acc) acc).2 < acc.2)) := by
  intro l
  induction l with
  | nil => intro acc h; exact ⟨h, le_refl _, Or.inl rfl⟩
  | cons x rest ih =>
    intro acc h
    by_cases hx : ndist x key < acc.2
    · have h2 : ((x, ndist x key) : Nat × Nat).2 = ndist ((x, ndist x key) : Nat × Nat).1 key := rfl
      obtain ⟨i1, i2, i3⟩ := ih (x, ndist x key) h2
      simp only [List.foldl_cons, if_pos hx]
      refine ⟨i1, le_of_lt (lt_of_le_of_lt i2 hx), ?_⟩
      rcases i3 with h3 | ⟨h3, h4⟩
      · exact Or.inr ⟨by simp [h3], lt_of_le_of_lt i2 hx⟩
      · exact Or.inr ⟨List.mem_cons_of_mem _ h3, lt_trans h4 hx⟩
    · obtain ⟨i1, i2, i3⟩ := ih acc h
      simp only [List.foldl_cons, if_neg hx]
      refine ⟨i1, i2, ?_⟩
      rcases i3 with h3 | ⟨h3, h4⟩
      · exact Or.inl h3
      · exact Or.inr ⟨List.mem_cons_of_mem _ h3, h4⟩

theorem route_forward {V : Type} {n : PastryNode V} {key tgt : Nat}
    (h : route n key = (tgt, true)) :
    tgt ∈ n.leaf_set ∧ ndist tgt key < ndist n.pid key ∧ tgt ≠ n.pid := by
  have hspec := route_fold_spec key n.leaf_set (n.pid, ndist n.pid key) rfl
  unfold route at h
  set r := n.leaf_set.foldl (fun acc x => if ndist x key < acc.2 then (x, ndist x key) else acc)
    (n.pid, ndist n.pid key) with hr
  by_cases hb : r.1 == n.pid
  · simp [hb] at h
  · simp [hb] at h
    have hne : r.1 ≠ n.pid := by simpa using hb
    obtain ⟨i1, i2, i3⟩ := hspec
    rcases i3 with h3 | ⟨h3, h4⟩
    · exact absurd h3 hne
    · have hh4 : ndist r.1 key < ndist n.pid key := by rw [← i1]; exact h4
      exact ⟨h ▸ h3, h ▸ hh4, h ▸ hne⟩

theorem lookup_recursive_total {V : Type} (net : PNet V) (key : Nat) :
    ∀ (fuel selfId hops : Nat),
      selfId ∈ net.map (fun x => x.pid) →
      (((net.map (fun x => x.pid)).toFinset.filter
          (fun p => ndist p key < ndist selfId key)).card) < fuel →
      ∃ r, lookup_recursive net fuel selfId key hops = some r ∧
        ∀ nid h, r = some (nid, h) →
          h ≤ hops + ((net.map (fun x => x.pid)).toFinset.filter
            (fun p => ndist p key < ndist selfId key)).card := by
  intro fuel
  induction fuel with
  | zero => intro selfId hops _ hcard; omega
  | succ f ih =>
    intro selfId hops hmem hcard
    obtain ⟨n, hn⟩ : ∃ n, pfind net selfId = some n := by
      have : (net.find? (fun x => x.pid == selfId)).isSome := by
        rw [List.find?_isSome]
        obtain ⟨x, hx, hpid⟩ := List.mem_map.mp hmem
        exact ⟨x, hx, by simp [hpid]⟩
      exact Option.isSome_iff_exists.mp this
    have hpid : n.pid = selfId := pfind_pid hn
    rcases hroute : route n key with ⟨tgt, fwd⟩
    cases fwd with
    | false =>
      refine ⟨some (selfId, hops), ?_, ?_⟩
      · simp [lookup_recursive, hn, hroute]
      · intro nid h hh
        simp at hh
        omega
    | true =>
      obtain ⟨htmem, htlt, htne⟩ := route_forward hroute
      rw [hpid] at htlt htne
      have hne : (tgt == selfId) = false := by simp [htne]
      rcases hfind : pfind net tgt with _ | x
      · refine ⟨none, ?_, ?_⟩
        · simp [lookup_recursive, hn, hroute, hne, hfind]
        · intro nid h hh; simp at hh
      · have htgtmem : tgt ∈ net.map (fun x => x.pid) := mem_pids_of_pfind hfind
        have hsub : ((net.map (fun x => x.pid)).toFinset.filter
            (fun p => ndist p key < ndist tgt key)) ⊂
            ((net.map (fun x => x.pid)).toFinset.filter
            (fun p => ndist p key < ndist selfId key)) := by
          constructor
          · intro p hp
            rw [Finset.mem_filter] at hp ⊢
            exact ⟨hp.1, lt_trans hp.2 htlt⟩
          · intro hcon
            have : tgt ∈ ((net.map (fun x => x.pid)).toFinset.filter
                (fun p => ndist p key < ndist tgt key)) := by
              refine hcon ?_
              rw [Finset.mem_filter]
              exact ⟨List.mem_toFinset.mpr htgtmem, htlt⟩
            rw [Finset.mem_filter] at this
            omega
        have hclt := Finset.card_lt_card hsub
        obtain ⟨r, hr, hbound⟩ := ih tgt (hops + 1) htgtmem (by omega)
        refine ⟨r, ?_, ?_⟩
        · simp only [lookup_recursive, hn, hroute, hne]
          simp [hfind]
          exact hr
        · intro nid h hh
          have := hbound nid h hh
          omega

end Pastry

/-! ## Chord: join on a fresh bootstrap (C10) -/

namespace Chord

theorem is_between_refl_incl (k a : Nat) : is_between k a a true = true := by
  simp [is_between] <;> omega

theorem is_between_self_first (a k : Nat) : is_between a a k false = false := by
  simp [is_between]

section C10

variable {V : Type} (b n m m' : Nat) (S : List (Nat × V))

theorem cfind_g10_n (hbn : b ≠ n) (fl : List Nat) :
    cfind (g10 b n m m' S fl) n = some ⟨n, m', b, none, fl, []⟩ := by
  have hb : (b == n) = false := beq_eq_false_iff_ne.mpr hbn
  simp [cfind, g10, List.find?, hb]

theorem cfind_g10_b (fl : List Nat) :
    cfind (g10 b n m m' S fl) b = some ⟨b, m, b, some n, List.replicate m b, S⟩ := by
  simp [cfind, g10, List.find?]

theorem find_successor_g10 (hbn : b ≠ n) (fl : List Nat)
    (hfl : ∀ x ∈ fl, x = n ∨ x = b) (fuel start : Nat) (hfuel : 2 ≤ fuel) :
    find_successor (g10 b n m m' S fl) fuel n start = some b := by
  match fuel, hfuel with
  | f+2, _ =>
    rw [find_successor]
    rw [cfind_g10_n b n m m' S hbn fl]
    by_cases hbase : is_between start n b true
    · simp [hbase]
    · simp only [hbase]
      have hcpn : closest_preceding_node (⟨n, m', b, none, fl, []⟩ : ChordNode V) start = n ∨
          closest_preceding_node (⟨n, m', b, none, fl, []⟩ : ChordNode V) start = b := by
        unfold closest_preceding_node
        rcases hf : fl.reverse.find? (fun f => is_between f n start false) with _ | x
        · exact Or.inl rfl
        · have hx : x ∈ fl := by
            have := List.mem_of_find?_eq_some hf
            exact List.mem_reverse.mp this
          have hpx := List.find?_some hf
          rcases hfl x hx with h | h
          · exfalso
            rw [h] at hpx
            rw [is_between_self_first] at hpx
            exact Bool.false_ne_true hpx
          · exact Or.inr h
      rcases hcpn with h | h
      · simp [h, Bool.false_eq_true]
      · rw [h]
        have hb : (b == n) = false := beq_eq_false_iff_ne.mpr hbn
        simp only [hb, Bool.false_eq_true, if_false]
        rw [find_successor]
        rw [cfind_g10_b b n m m' S]
        simp [is_between_refl_incl]

theorem fold_fix_g10 (hbn : b ≠ n) (fuel : Nat) (hfuel : 2 ≤ fuel) :
    ∀ (L : List Nat) (fl : List Nat), (∀ x ∈ fl, x = n ∨ x = b) →
      ∃ fl', (∀ x ∈ fl', x = n ∨ x = b) ∧
        L.foldlM (fun s i =>
          match cfind s n with
          | none => none
          | some nd =>
            match find_successor s fuel n ((nd.nid + 2 ^ i) % 2 ^ nd.m) with
            | none => none
            | some r => some (cupdate s n (fun x => { x with fingers := x.fingers.set i r })))
          (g10 b n m m' S fl)
        = some (g10 b n m m' S fl') := by
  intro L
  induction L with
  | nil => intro fl hfl; exact ⟨fl, hfl, rfl⟩
  | cons i L ih =>
    intro fl hfl
    have hb : (b == n) = false := beq_eq_false_iff_ne.mpr hbn
    have hstep : (match cfind (g10 b n m m' S fl) n with
        | none => none
        | some nd =>
          match find_successor (g10 b n m m' S fl) fuel n ((nd.nid + 2 ^ i) % 2 ^ nd.m) with
          | none => none
          | some r => some (cupdate (g10 b n m m' S fl) n
              (fun x => { x with fingers := x.fingers.set i r })))
        = some (g10 b n m m' S (fl.set i b)) := by
      simp only [cfind_g10_n b n m m' S hbn fl]
      simp only [find_successor_g10 b n m m' S hbn fl hfl fuel _ hfuel]
      simp [cupdate, g10, hb]
    have hfl' : ∀ x ∈ fl.set i b, x = n ∨ x = b := by
      intro x hx
      rcases List.mem_or_eq_of_mem_set hx with h | h
      · exact hfl x h
      · exact Or.inr h
    obtain ⟨fl'', h1, h2⟩ := ih (fl.set i b) hfl'
    refine ⟨fl'', h1, ?_⟩
    rw [List.foldlM_cons, hstep]
    exact h2

theorem join_g10_eval (hbn : b ≠ n) (fuel : Nat) (hfuel : 2 ≤ fuel) :
    ∃ fl', (∀ x ∈ fl', x = n ∨ x = b) ∧
      join ([⟨b, m, b, none, List.replicate m b, S⟩,
          ⟨n, m', n, none, List.replicate m' n, []⟩] : Ring V) fuel n b =
        (match S with
         | [] => Except.ok (g10 b n m m' S fl')
         | _ :: _ => Except.error CErr.attrError) := by
  have hb : (b == n) = false := beq_eq_false_iff_ne.mpr hbn
  have hnb : (n == b) = false := beq_eq_false_iff_ne.mpr (Ne.symm hbn)
  have h2 : cfind ([⟨b, m, b, none, List.replicate m b, S⟩,
      ⟨n, m', n, none, List.replicate m' n, []⟩] : Ring V) b =
      some ⟨b, m, b, none, List.replicate m b, S⟩ := by
    simp [cfind, List.find?]
  have h1 : find_successor ([⟨b, m, b, none, List.replicate m b, S⟩,
      ⟨n, m', n, none, List.replicate m' n, []⟩] : Ring V) fuel b n = some b := by
    match fuel, hfuel with
    | f+2, _ =>
      rw [find_successor]
      simp only [h2]
      simp [is_between_refl_incl]
  have h3 : cupdate ([⟨b, m, b, none, List.replicate m b, S⟩,
      ⟨n, m', n, none, List.replicate m' n, []⟩] : Ring V) n
      (fun x => { x with succ := b, pred := none }) =
      [⟨b, m, b, none, List.replicate m b, S⟩,
       ⟨n, m', b, none, List.replicate m' n, []⟩] := by
    simp [cupdate, hb]
  have h3b : cfind ([⟨b, m, b, none, List.replicate m b, S⟩,
      ⟨n, m', b, none, List.replicate m' n, []⟩] : Ring V) b =
      some ⟨b, m, b, none, List.replicate m b, S⟩ := by
    simp [cfind, List.find?]
  have h4 : cupdate ([⟨b, m, b, none, List.replicate m b, S⟩,
      ⟨n, m', b, none, List.replicate m' n, []⟩] : Ring V) b
      (fun x => { x with pred := some n }) = g10 b n m m' S (List.replicate m' n) := by
    simp [cupdate, g10, hnb]
    exact Ne.symm hbn
  have hrepl : ∀ x ∈ List.replicate m' n, x = n ∨ x = b := by
    intro x hx
    exact Or.inl (List.eq_of_mem_replicate hx)
  obtain ⟨fl', hfl', hfold⟩ :=
    fold_fix_g10 b n m m' S hbn fuel hfuel (List.range m') (List.replicate m' n) hrepl
  have h5 : fix_fingers (g10 b n m m' S (List.replicate m' n)) fuel n =
      some (g10 b n m m' S fl') := by
    rw [fix_fingers]
    rw [cfind_g10_n b n m m' S hbn]
    exact hfold
  refine ⟨fl', hfl', ?_⟩
  simp only [join, h1, h2, h3, h3b, h4, h5]
  simp only [cfind_g10_n b n m m' S hbn fl', cfind_g10_b b n m m' S fl']
  cases S <;> rfl

theorem join_fresh_bootstrap (hbn : b ≠ n) (fuel : Nat) (hfuel : 2 ≤ fuel) :
    (S = [] ∧ ∃ st', join
        ([⟨b, m, b, none, List.replicate m b, S⟩,
          ⟨n, m', n, none, List.replicate m' n, []⟩] : Ring V) fuel n b = Except.ok st') ∨
    (S ≠ [] ∧ join
        ([⟨b, m, b, none, List.replicate m b, S⟩,
          ⟨n, m', n, none, List.replicate m' n, []⟩] : Ring V) fuel n b =
        Except.error CErr.attrError) := by
  obtain ⟨fl', hfl', hM⟩ := join_g10_eval b n m m' S hbn fuel hfuel
  cases S with
  | nil => exact Or.inl ⟨rfl, ⟨g10 b n m m' [] fl', hM⟩⟩
  | cons kv Srest => exact Or.inr ⟨by simp, hM⟩

end C10

end Chord


namespace Chord

open DHTSpec

theorem cfind_cons {V : Type} (a : ChordNode V) (l : Ring V) (j : Nat) :
    cfind (a :: l) j = if a.nid = j then some a else cfind l j := by
  by_cases h : a.nid = j
  · simp [cfind, List.find?, h]
  · have hb : (a.nid == j) = false := beq_eq_false_iff_ne.mpr h
    simp [cfind, List.find?, h, hb]

theorem cupdate_cons {V : Type} (a : ChordNode V) (l : Ring V) (i : Nat)
    (f : ChordNode V → ChordNode V) :
    cupdate (a :: l) i f = (if a.nid = i then f a else a) :: cupdate l i f := by
  by_cases h : a.nid = i
  · simp [cupdate, h]
  · simp [cupdate, h]

theorem cfind_cupdate {V : Type} (st : Ring V) (i j : Nat) (f : ChordNode V → ChordNode V)
    (hf : ∀ n, (f n).nid = n.nid) :
    cfind (cupdate st i f) j = (cfind st j).map (fun n => if n.nid == i then f n else n) := by
  induction st with
  | nil => rfl
  | cons a st ih =>
    rw [cupdate_cons, cfind_cons, cfind_cons]
    by_cases hi : a.nid = i
    · have hnid : (f a).nid = a.nid := hf a
      by_cases hj : a.nid = j
      · rw [if_pos hi, if_pos (by rw [hnid]; exact hj), if_pos hj]
        simp [hi, hj]
      · rw [if_pos hi, if_neg (by rw [hnid]; exact hj), if_neg hj, ih]
    · by_cases hj : a.nid = j
      · rw [if_neg hi, if_pos hj, if_pos hj]
        simp [hi]
      · rw [if_neg hi, if_neg hj, if_neg hj, ih]

theorem storageOf_cupdate_self {V : Type} (st : Ring V) (r : Nat) (nd : ChordNode V)
    (h : cfind st r = some nd) (g : List (Nat × V) → List (Nat × V)) :
    storageOf (cupdate st r (fun x => { x with storage := g x.storage })) r = g nd.storage := by
  have hr : nd.nid = r := by
    have := List.find?_some h
    simpa using this
  rw [storageOf,
    cfind_cupdate st r r (fun x => { x with storage := g x.storage }) (fun n => rfl), h]
  simp [hr]

theorem storageOf_cupdate_other {V : Type} (st : Ring V) (r x : Nat) (hx : x ≠ r)
    (g : List (Nat × V) → List (Nat × V)) :
    storageOf (cupdate st r (fun x => { x with storage := g x.storage })) x = storageOf st x := by
  rw [storageOf,
    cfind_cupdate st r x (fun x => { x with storage := g x.storage }) (fun n => rfl), storageOf]
  rcases hc : cfind st x with _ | n
  · rfl
  · have hr : n.nid = x := by
      have := List.find?_some hc
      simpa using this
    have hne : n.nid ≠ r := by
      rw [hr]
      exact hx
    simp [hne]

end Chord

/-! ## Claims -/

namespace Claims

open DHTSpec

/-- C1: evaluation at the failing input.  A Pastry node with dict storage
(the bplustree library absent) holding the pair (5, 77), with leaf set
[1], leaves the network: the transfer loop is skipped, the neighbour
receives nothing and the pair survives on no live node — while the very
same leave with bplustree storage does transfer it.  A single-node Chord
ring (successor = self) likewise clears its own storage on leave.  This
contradicts the claim that every held pair reaches the receiving
neighbour and that the global pair count is unchanged. -/
theorem c1_leave_loses_pairs_eval :
    Pastry.leave ([⟨0, [1], [(5, 77)]⟩, ⟨1, [0], []⟩] : Pastry.PNet Nat) false 0 =
      some [⟨1, [0], []⟩] ∧
    Pastry.leave ([⟨0, [1], [(5, 77)]⟩, ⟨1, [0], []⟩] : Pastry.PNet Nat) true 0 =
      some [⟨1, [0], [(5, 77)]⟩] ∧
    Chord.leave ([⟨3, 1, 3, none, [3], [(5, 77)]⟩] : Chord.Ring Nat) 3 =
      some [⟨3, 1, 3, none, [3], []⟩] := by
  exact ⟨rfl, rfl, rfl⟩

/-- C3: evaluation at the failing input.  On a Pastry node whose closest
leaf-set entry is unreachable, lookup_recursive forwards, send_request
returns None, lookup_recursive hands that None back, and lookup_key then
evaluates None['node'] — a TypeError escaping the public API. -/
theorem c3_lookup_key_raises_eval :
    Pastry.lookup_key (fun _ => 10) (fun _ => true)
      ([⟨0, [1], []⟩] : Pastry.PNet Nat) 5 0 "Toy Story" =
      some (Except.error Pastry.PyErr.typeError) := by
  exact rfl

/-- C4: evaluation at the failing input.  The in-memory Chord node's
lookup_key returns the bare stored value (no hop count at all), although
the repository's own harness unpacks `val, hops` from it; and the Pastry
node's lookup_key returns hop count 0 on a self-owned key, not the
claimed routing-hops-plus-final-fetch (which would be at least 1). -/
theorem c4_lookup_return_shape_eval :
    Chord.lookup_key (fun _ => 5) (fun _ => true)
      ([⟨1, 1, 1, none, [1], [(5, 77)]⟩] : Chord.Ring Nat) 3 1 "Toy Story" =
      some (some 77) ∧
    Pastry.lookup_key (fun _ => 5) (fun _ => true)
      ([⟨0, [], [(5, 77)]⟩] : Pastry.PNet Nat) 3 0 "Toy Story" =
      some (Except.ok (some 77, 0)) := by
  exact ⟨rfl, rfl⟩

/-- C5 counterexample: on a single-node Chord ring with empty storage,
update_key("X", 9) returns False and changes no storage, while
insert_key("X", 9) stores the pair — so update_key does not have the same
effect on global storage as insert_key when the key is absent. -/
theorem c5_update_differs_from_insert_cex :
    Chord.update_key (fun _ => 5)
      ([⟨1, 1, 1, none, [1], []⟩] : Chord.Ring Nat) 3 1 "X" 9 =
      some ([⟨1, 1, 1, none, [1], []⟩], false) ∧
    Chord.insert_key (fun _ => 5)
      ([⟨1, 1, 1, none, [1], []⟩] : Chord.Ring Nat) 3 1 "X" 9 =
      some [⟨1, 1, 1, none, [1], [(5, 9)]⟩] ∧
    ([⟨1, 1, 1, none, [1], []⟩] : Chord.Ring Nat) ≠
      [⟨1, 1, 1, none, [1], [(5, 9)]⟩] := by
  exact ⟨rfl, rfl, by decide⟩

/-- C6 counterexample: a 52-node chain of leaf sets (node i knows only
node i+1, each strictly closer to the key 51) routes a lookup_recursive
from node 0 through 51 forwarding hops and returns hop count 51 — there
is no 50-hop cap and no defensive return in the code. -/
theorem c6_hops_exceed_fifty_cex :
    Pastry.lookup_recursive
      ((List.range 52).map
        (fun i => (⟨i, if i == 51 then [] else [i+1], []⟩ : Pastry.PastryNode Nat)))
      60 0 51 0 = some (some (51, 51)) ∧ 50 < 51 := by
  exact ⟨by decide, by decide⟩

/-- C6 amended: lookup_recursive terminates for every leaf-set
configuration reachable in the model — each forward hop strictly
decreases the numeric distance to the key — and the hop count of any
result is bounded by the starting hop count plus the number of live
nodes.  There is no 50-hop cap (see the counterexample). -/
theorem c6_lookup_recursive_terminates_amended :
    ∀ (V : Type) (net : Pastry.PNet V) (fuel selfId key hops : Nat),
      selfId ∈ net.map (fun x => x.pid) →
      net.length + 1 ≤ fuel →
      ∃ r, Pastry.lookup_recursive net fuel selfId key hops = some r ∧
        ∀ nid h, r = some (nid, h) → h ≤ hops + net.length := by
  intro V net fuel selfId key hops hmem hfuel
  have hcard : ((net.map (fun x => x.pid)).toFinset.filter
      (fun p => Pastry.ndist p key < Pastry.ndist selfId key)).card ≤ net.length := by
    calc ((net.map (fun x => x.pid)).toFinset.filter
        (fun p => Pastry.ndist p key < Pastry.ndist selfId key)).card
        ≤ (net.map (fun x => x.pid)).toFinset.card := Finset.card_filter_le _ _
      _ ≤ (net.map (fun x => x.pid)).length := List.toFinset_card_le _
      _ = net.length := List.length_map _ _
  obtain ⟨r, hr, hb⟩ := Pastry.lookup_recursive_total net key fuel selfId hops hmem (by omega)
  exact ⟨r, hr, fun nid h hh => le_trans (hb nid h hh) (by omega)⟩

/-- Witness for C6 amended at a concrete single-node network. -/
theorem c6_lookup_recursive_terminates_amended_witness :
    (0 ∈ ([⟨0, [], []⟩] : Pastry.PNet Nat).map (fun x => x.pid)) ∧
    (([⟨0, [], []⟩] : Pastry.PNet Nat).length + 1 ≤ 2) ∧
    (∃ r, Pastry.lookup_recursive ([⟨0, [], []⟩] : Pastry.PNet Nat) 2 0 9 0 = some r ∧
      ∀ nid h, r = some (nid, h) → h ≤ 0 + ([⟨0, [], []⟩] : Pastry.PNet Nat).length) :=
  ⟨by decide, by decide,
    c6_lookup_recursive_terminates_amended Nat [⟨0, [], []⟩] 2 0 9 0 (by decide) (by decide)⟩

/-- C10: a fresh Chord node n joining a fresh bootstrap b (successor
pointing to itself, predecessor None, storage S) completes without
raising exactly when S is empty; when b already holds data, the
redistribution loop evaluates self.predecessor.id with predecessor None
and raises AttributeError, leaving the join incomplete. -/
theorem c10_join_fresh_bootstrap :
    ∀ (V : Type) (b n m m' fuel : Nat) (S : List (Nat × V)),
      b ≠ n → 2 ≤ fuel →
      ((∃ st', Chord.join ([⟨b, m, b, none, List.replicate m b, S⟩,
          ⟨n, m', n, none, List.replicate m' n, []⟩] : Chord.Ring V) fuel n b =
          Except.ok st') ↔ S = []) ∧
      (S ≠ [] → Chord.join ([⟨b, m, b, none, List.replicate m b, S⟩,
          ⟨n, m', n, none, List.replicate m' n, []⟩] : Chord.Ring V) fuel n b =
          Except.error Chord.CErr.attrError) := by
  intro V b n m m' fuel S hbn hfuel
  rcases Chord.join_fresh_bootstrap b n m m' S hbn fuel hfuel with ⟨hS, st', hok⟩ | ⟨hS, herr⟩
  · refine ⟨⟨fun _ => hS, fun _ => ⟨st', hok⟩⟩, fun hne => absurd hS hne⟩
  · refine ⟨⟨?_, fun h => absurd h hS⟩, fun _ => herr⟩
    rintro ⟨st', hok⟩
    rw [herr] at hok
    cases hok

/-- Witness for C10 at a concrete fresh bootstrap with empty storage. -/
theorem c10_join_fresh_bootstrap_witness :
    (3 : Nat) ≠ 7 ∧ (2 : Nat) ≤ 2 ∧
    (((∃ st', Chord.join ([⟨3, 1, 3, none, List.replicate 1 3, []⟩,
        ⟨7, 1, 7, none, List.replicate 1 7, []⟩] : Chord.Ring Nat) 2 7 3 =
        Except.ok st') ↔ ([] : List (Nat × Nat)) = []) ∧
      (([] : List (Nat × Nat)) ≠ [] → Chord.join ([⟨3, 1, 3, none, List.replicate 1 3, []⟩,
        ⟨7, 1, 7, none, List.replicate 1 7, []⟩] : Chord.Ring Nat) 2 7 3 =
        Except.error Chord.CErr.attrError)) :=
  ⟨by decide, by decide,
    c10_join_fresh_bootstrap Nat 3 7 1 1 2 [] (by decide) (by decide)⟩


/-- C5 amended: Pastry's update_key is definitionally insert_key; Chord's
update_key resolves the same responsible node as insert_key would on the
same state and, when the key is present there, produces exactly the state
insert_key produces; when the key is absent it returns False and leaves
every storage unchanged, while insert_key creates the entry at the
responsible node and touches no other storage. -/
theorem c5_update_insert_amended :
    ∀ (V : Type) (genHash : String → Nat) (fuel selfId : Nat) (title : String) (v : V),
      (∀ (net : Pastry.PNet V),
        Pastry.update_key genHash net fuel selfId title v =
          Pastry.insert_key genHash net fuel selfId title v) ∧
      (∀ (st : Chord.Ring V) (r : Nat) (nd : Chord.ChordNode V),
        Chord.find_successor st fuel selfId (genHash title) = some r →
        Chord.cfind st r = some nd →
        (((dget nd.storage (genHash title)).isSome = true →
          ∃ st', Chord.update_key genHash st fuel selfId title v = some (st', true) ∧
                 Chord.insert_key genHash st fuel selfId title v = some st') ∧
         ((dget nd.storage (genHash title)).isSome = false →
          Chord.update_key genHash st fuel selfId title v = some (st, false) ∧
          ∃ st', Chord.insert_key genHash st fuel selfId title v = some st' ∧
            Chord.storageOf st' r = dinsert nd.storage (genHash title) v ∧
            ∀ x, x ≠ r → Chord.storageOf st' x = Chord.storageOf st x))) := by
  intro V genHash fuel selfId title v
  refine ⟨fun net => rfl, ?_⟩
  intro st r nd hfs hnd
  constructor
  · intro hsome
    refine ⟨Chord.cupdate st r
      (fun x => { x with storage := dinsert x.storage (genHash title) v }), ?_, ?_⟩
    · simp only [Chord.update_key, hfs, hnd, hsome, if_true]
    · simp only [Chord.insert_key, hfs]
  · intro hnone
    refine ⟨?_, Chord.cupdate st r
      (fun x => { x with storage := dinsert x.storage (genHash title) v }), ?_, ?_, ?_⟩
    · simp only [Chord.update_key, hfs, hnd, hnone, Bool.false_eq_true, if_false]
    · simp only [Chord.insert_key, hfs]
    · exact Chord.storageOf_cupdate_self st r nd hnd (fun l => dinsert l (genHash title) v)
    · intro x hx
      exact Chord.storageOf_cupdate_other st r x hx (fun l => dinsert l (genHash title) v)

/-- Witness for C5 amended on a concrete single-node ring, present-key
case. -/
theorem c5_update_insert_amended_witness :
    (Chord.find_successor ([⟨1, 1, 1, none, [1], [(5, 7)]⟩] : Chord.Ring Nat)
        3 1 ((fun _ => 5) "X") = some 1) ∧
    (Chord.cfind ([⟨1, 1, 1, none, [1], [(5, 7)]⟩] : Chord.Ring Nat) 1 =
        some ⟨1, 1, 1, none, [1], [(5, 7)]⟩) ∧
    ((dget (⟨1, 1, 1, none, [1], [(5, 7)]⟩ : Chord.ChordNode Nat).storage
        ((fun _ => 5) "X")).isSome = true) ∧
    (∃ st', Chord.update_key (fun _ => 5)
        ([⟨1, 1, 1, none, [1], [(5, 7)]⟩] : Chord.Ring Nat) 3 1 "X" 9 = some (st', true) ∧
      Chord.insert_key (fun _ => 5)
        ([⟨1, 1, 1, none, [1], [(5, 7)]⟩] : Chord.Ring Nat) 3 1 "X" 9 = some st') :=
  ⟨by decide, by decide, by decide,
    (((c5_update_insert_amended Nat (fun _ => 5) 3 1 "X" 9).2
      ([⟨1, 1, 1, none, [1], [(5, 7)]⟩] : Chord.Ring Nat) 1 ⟨1, 1, 1, none, [1], [(5, 7)]⟩
      (by decide) (by decide)).1 (by decide))⟩

end Claims

namespace Chord

theorem is_between_false_iff (key n1 n2 : Nat) :
    is_between key n1 n2 false = true ↔
      (if n1 < n2 then n1 < key ∧ key < n2 else n1 < key ∨ key < n2) := by
  unfold is_between
  split_ifs <;> simp_all

theorem is_between_true_iff (key n1 n2 : Nat) :
    is_between key n1 n2 true = true ↔
      (if n1 < n2 then n1 < key ∧ key ≤ n2 else n1 < key ∨ key ≤ n2) := by
  unfold is_between
  split_ifs <;> simp_all

theorem is_between_trans {y f x k : Nat} (h1 : is_between f x k false = true)
    (h2 : is_between y f k false = true) : is_between y x k false = true := by
  rw [is_between_false_iff] at h1 h2 ⊢
  split_ifs at * <;> omega

theorem ownerOf_cases {ids : List Nat} (h : ids ≠ []) (k : Nat) :
    (ownerOf ids k ∈ ids ∧ k ≤ ownerOf ids k ∧ ∀ y ∈ ids, k ≤ y → ownerOf ids k ≤ y) ∨
    ((∀ y ∈ ids, y < k) ∧ ownerOf ids k ∈ ids ∧ ∀ y ∈ ids, ownerOf ids k ≤ y) := by
  unfold ownerOf
  rcases hf : (ids.filter (fun y => decide (k ≤ y))).min? with _ | mv
  · right
    have hfe : ids.filter (fun y => decide (k ≤ y)) = [] := List.min?_eq_none_iff.mp hf
    have hall : ∀ y ∈ ids, y < k := by
      intro y hy
      by_contra hc
      have : y ∈ ids.filter (fun y => decide (k ≤ y)) :=
        List.mem_filter.mpr ⟨hy, by simpa using Nat.le_of_not_lt hc⟩
      rw [hfe] at this
      exact (List.not_mem_nil y) this
    rcases hm : ids.min? with _ | m0
    · exact absurd (List.min?_eq_none_iff.mp hm) h
    · obtain ⟨hmem, hmin⟩ := List.min?_eq_some_iff'.mp hm
      exact ⟨hall, by simpa [hm] using hmem, by simpa [hm] using hmin⟩
  · left
    obtain ⟨hmem, hmin⟩ := List.min?_eq_some_iff'.mp hf
    have h1 := List.mem_filter.mp hmem
    refine ⟨h1.1, by simpa using h1.2, ?_⟩
    intro y hy hky
    exact hmin y (List.mem_filter.mpr ⟨hy, by simpa using hky⟩)

theorem ringSucc_cases {ids : List Nat} (h : ids ≠ []) (x : Nat) :
    (x < ringSucc ids x ∧ ringSucc ids x ∈ ids ∧
      ∀ y ∈ ids, x < y → ringSucc ids x ≤ y) ∨
    ((∀ y ∈ ids, y ≤ x) ∧ ringSucc ids x ∈ ids ∧ ∀ y ∈ ids, ringSucc ids x ≤ y) := by
  unfold ringSucc
  rcases hf : (ids.filter (fun y => decide (x < y))).min? with _ | mv
  · right
    have hfe : ids.filter (fun y => decide (x < y)) = [] := List.min?_eq_none_iff.mp hf
    have hall : ∀ y ∈ ids, y ≤ x := by
      intro y hy
      by_contra hc
      have : y ∈ ids.filter (fun y => decide (x < y)) :=
        List.mem_filter.mpr ⟨hy, by simpa using Nat.lt_of_not_le hc⟩
      rw [hfe] at this
      exact (List.not_mem_nil y) this
    rcases hm : ids.min? with _ | m0
    · exact absurd (List.min?_eq_none_iff.mp hm) h
    · obtain ⟨hmem, hmin⟩ := List.min?_eq_some_iff'.mp hm
      exact ⟨hall, by simpa [hm] using hmem, by simpa [hm] using hmin⟩
  · left
    obtain ⟨hmem, hmin⟩ := List.min?_eq_some_iff'.mp hf
    have h1 := List.mem_filter.mp hmem
    refine ⟨by simpa using h1.2, h1.1, ?_⟩
    intro y hy hxy
    exact hmin y (List.mem_filter.mpr ⟨hy, by simpa using hxy⟩)

theorem ringPred_cases {ids : List Nat} (h : ids ≠ []) (x : Nat) :
    (ringPred ids x < x ∧ ringPred ids x ∈ ids ∧
      ∀ y ∈ ids, y < x → y ≤ ringPred ids x) ∨
    ((∀ y ∈ ids, x ≤ y) ∧ ringPred ids x ∈ ids ∧ ∀ y ∈ ids, y ≤ ringPred ids x) := by
  unfold ringPred
  rcases hf : (ids.filter (fun y => decide (y < x))).max? with _ | mv
  · right
    have hfe : ids.filter (fun y => decide (y < x)) = [] := by
      cases hc : ids.filter (fun y => decide (y < x)) with
      | nil => rfl
      | cons a l =>
        rw [hc] at hf
        have : ((a :: l).max?).isSome := by simp [List.max?]
        rw [hf] at this
        simp at this
    have hall : ∀ y ∈ ids, x ≤ y := by
      intro y hy
      by_contra hc
      have : y ∈ ids.filter (fun y => decide (y < x)) :=
        List.mem_filter.mpr ⟨hy, by simpa using Nat.lt_of_not_le hc⟩
      rw [hfe] at this
      exact (List.not_mem_nil y) this
    rcases hm : ids.max? with _ | m0
    · cases ids with
      | nil => exact absurd rfl h
      | cons a l =>
        have : ((a :: l).max?).isSome := by simp [List.max?]
        rw [hm] at this
        simp at this
    · obtain ⟨hmem, hmax⟩ := List.max?_eq_some_iff'.mp hm
      exact ⟨hall, by simpa [hm] using hmem, by simpa [hm] using hmax⟩
  · left
    obtain ⟨hmem, hmax⟩ := List.max?_eq_some_iff'.mp hf
    have h1 := List.mem_filter.mp hmem
    refine ⟨by simpa using h1.2, h1.1, ?_⟩
    intro y hy hxy
    exact hmax y (List.mem_filter.mpr ⟨hy, by simpa using hxy⟩)

theorem ringSucc_mem {ids : List Nat} (h : ids ≠ []) (x : Nat) : ringSucc ids x ∈ ids := by
  rcases ringSucc_cases h x with ⟨_, hm, _⟩ | ⟨_, hm, _⟩ <;> exact hm

theorem ownerOf_mem {ids : List Nat} (h : ids ≠ []) (k : Nat) : ownerOf ids k ∈ ids := by
  rcases ownerOf_cases h k with ⟨hm, _, _⟩ | ⟨_, hm, _⟩ <;> exact hm

end Chord

namespace Chord

theorem owner_eq_succ {ids : List Nat} (hne : ids ≠ []) {x k : Nat} (hx : x ∈ ids)
    (hbase : is_between k x (ringSucc ids x) true = true) :
    ownerOf ids k = ringSucc ids x := by
  rw [is_between_true_iff] at hbase
  rcases ringSucc_cases hne x with ⟨hs1, hs2, hs3⟩ | ⟨hs1, hs2, hs3⟩ <;>
    rcases ownerOf_cases hne k with ⟨ho1, ho2, ho3⟩ | ⟨ho1, ho2, ho3⟩
  · rw [if_pos hs1] at hbase
    have h1 := ho3 _ hs2 (by omega)
    have h2 := hs3 _ ho1 (by omega)
    omega
  · rw [if_pos hs1] at hbase
    have := ho1 _ hs2
    omega
  · have hxx : ¬ x < ringSucc ids x := by
      have := hs1 (ringSucc ids x) hs2
      omega
    rw [if_neg hxx] at hbase
    rcases hbase with hk | hk
    · have := hs1 _ ho1
      omega
    · have h1 := ho3 _ hs2 hk
      have h2 := hs3 _ ho1
      omega
  · have := hs3 _ ho2
    have := ho3 _ hs2
    omega

theorem succ_in_open {ids : List Nat} (hne : ids ≠ []) {x k : Nat} (hx : x ∈ ids)
    (hsx : ringSucc ids x ≠ x)
    (hbase : is_between k x (ringSucc ids x) true = false) :
    is_between (ringSucc ids x) x k false = true := by
  have hbase' : ¬ (if x < ringSucc ids x then x < k ∧ k ≤ ringSucc ids x
      else x < k ∨ k ≤ ringSucc ids x) := by
    rw [← is_between_true_iff, hbase]
    simp
  rw [is_between_false_iff]
  rcases ringSucc_cases hne x with ⟨hs1, _, _⟩ | ⟨hs1, _, _⟩
  · rw [if_pos hs1] at hbase'
    split_ifs <;> omega
  · have hlt : ringSucc ids x < x := by
      have := hs1 x hx
      have hle : ringSucc ids x ≤ x := by
        rcases ringSucc_cases hne x with ⟨_, hm, _⟩ | ⟨_, hm, _⟩ <;> exact hs1 _ hm
      omega
    rw [if_neg (by omega)] at hbase'
    split_ifs <;> omega

theorem cfind_nid {V : Type} {st : Ring V} {i : Nat} {n : ChordNode V}
    (h : cfind st i = some n) : n.nid = i := by
  have := List.find?_some h
  simpa using this

theorem nodeOK_dest {V : Type} {st : Ring V} {ids : List Nat} {i : Nat}
    (h : nodeOKb st ids i = true) :
    ∃ n, cfind st i = some n ∧ n.nid = i ∧ n.succ = ringSucc ids i ∧
      n.pred = some (ringPred ids i) ∧ n.fingers ≠ [] ∧
      n.fingers.head? = some (ringSucc ids i) ∧ (∀ f ∈ n.fingers, f ∈ ids) ∧
      (n.storage.map Prod.fst).Nodup := by
  unfold nodeOKb at h
  rcases hc : cfind st i with _ | n
  · rw [hc] at h
    cases h
  · rw [hc] at h
    simp only [Bool.and_eq_true, beq_iff_eq, decide_eq_true_eq, List.all_eq_true,
      Bool.not_eq_true', List.isEmpty_eq_false, Option.some.injEq] at h
    obtain ⟨⟨⟨⟨⟨hsucc, hpred⟩, hfe⟩, hhead⟩, hfmem⟩, hnd⟩ := h
    refine ⟨n, rfl, cfind_nid hc, hsucc, hpred, ?_, ?_, ?_, hnd⟩
    · simpa using hfe
    · simpa using hhead
    · intro f hf
      have := hfmem f hf
      simpa using this

theorem refsClosed_dest {V : Type} {st : Ring V} {ids : List Nat} {i : Nat}
    (h : refsClosedb st ids i = true) :
    ∃ n, cfind st i = some n ∧ n.nid = i ∧ n.succ ∈ ids ∧ ∀ f ∈ n.fingers, f ∈ ids := by
  unfold refsClosedb at h
  rcases hc : cfind st i with _ | n
  · rw [hc] at h
    cases h
  · rw [hc] at h
    simp only [Bool.and_eq_true, List.all_eq_true] at h
    refine ⟨n, rfl, cfind_nid hc, ?_, ?_⟩
    · have := h.1
      simpa using this
    · intro f hf
      have := h.2 f hf
      simpa using this

theorem cpn_spec {V : Type} (n : ChordNode V) (key : Nat) :
    closest_preceding_node n key = n.nid ∨
    (closest_preceding_node n key ∈ n.fingers ∧
     is_between (closest_preceding_node n key) n.nid key false = true) := by
  rcases hf : n.fingers.reverse.find? (fun f => is_between f n.nid key false) with _ | x
  · left
    unfold closest_preceding_node
    rw [hf]
  · right
    have h1 : closest_preceding_node n key = x := by
      unfold closest_preceding_node
      rw [hf]
    rw [h1]
    have hpx := List.find?_some hf
    exact ⟨List.mem_reverse.mp (List.mem_of_find?_eq_some hf), hpx⟩

theorem cpn_forward {V : Type} (n : ChordNode V) (key s : Nat)
    (hhead : n.fingers.head? = some s)
    (hs : is_between s n.nid key false = true) :
    closest_preceding_node n key ∈ n.fingers ∧
    is_between (closest_preceding_node n key) n.nid key false = true ∧
    closest_preceding_node n key ≠ n.nid := by
  have hsmem : s ∈ n.fingers := by
    obtain ⟨ys, hys⟩ := List.head?_eq_some_iff.mp hhead
    rw [hys]
    exact List.mem_cons_self s ys
  have hsome : (n.fingers.reverse.find? (fun f => is_between f n.nid key false)).isSome := by
    rw [List.find?_isSome]
    exact ⟨s, List.mem_reverse.mpr hsmem, hs⟩
  rcases hf : n.fingers.reverse.find? (fun f => is_between f n.nid key false) with _ | x
  · rw [hf] at hsome
    cases hsome
  · have hxmem : x ∈ n.fingers := List.mem_reverse.mp (List.mem_of_find?_eq_some hf)
    have hxsat : is_between x n.nid key false = true := by
      have := List.find?_some hf
      exact this
    have hxne : x ≠ n.nid := by
      intro hcon
      rw [hcon, is_between_self_first] at hxsat
      cases hxsat
    have h1 : closest_preceding_node n key = x := by
      unfold closest_preceding_node
      rw [hf]
    rw [h1]
    exact ⟨hxmem, hxsat, hxne⟩

end Chord

namespace Chord

theorem find_successor_succ {V : Type} (st : Ring V) (f x key : Nat) (n : ChordNode V)
    (hcf : cfind st x = some n) :
    find_successor st (f+1) x key =
      if is_between key n.nid n.succ true then some n.succ
      else if closest_preceding_node n key == n.nid then some n.succ
      else find_successor st f (closest_preceding_node n key) key := by
  rw [find_successor, hcf]

theorem find_successor_wf {V : Type} (st : Ring V) (ids : List Nat) (key : Nat)
    (hwf : ringWF st ids) :
    ∀ (fuel x : Nat), x ∈ ids →
      ((ids.toFinset.filter (fun y => is_between y x key false = true)).card) < fuel →
      find_successor st fuel x key = some (ownerOf ids key) := by
  obtain ⟨hnd, hne, hok⟩ := hwf
  intro fuel
  induction fuel with
  | zero => intro x _ hcard; omega
  | succ f ih =>
    intro x hx hcard
    obtain ⟨n, hcf, hnid, hsucc, _, _, hhead, hfmem, _⟩ := nodeOK_dest (hok x hx)
    rw [find_successor_succ st f x key n hcf]
    by_cases hbase : is_between key n.nid n.succ true = true
    · rw [if_pos hbase]
      have : ownerOf ids key = ringSucc ids x := by
        refine owner_eq_succ hne hx ?_
        rw [← hsucc, ← hnid]
        exact hbase
      rw [hsucc, this]
    · rw [if_neg hbase]
      have hb' : is_between key x (ringSucc ids x) true = false := by
        rw [← hsucc, ← hnid]
        exact Bool.not_eq_true _ ▸ (Bool.eq_false_iff.mpr (fun hc => hbase hc))
      have hsx : ringSucc ids x ≠ x := by
        intro hcon
        apply hbase
        rw [hnid, hsucc, hcon]
        exact is_between_refl_incl key x
      have hopen : is_between (ringSucc ids x) n.nid key false = true := by
        rw [hnid]
        exact succ_in_open hne hx hsx hb'
      obtain ⟨hcmem, hcsat, hcne⟩ := cpn_forward n key (ringSucc ids x)
        (by rw [hhead]) hopen
      have hnpne : (closest_preceding_node n key == n.nid) = false :=
        beq_eq_false_iff_ne.mpr hcne
      rw [hnpne]
      simp only [Bool.false_eq_true, if_false]
      have hcpid : closest_preceding_node n key ∈ ids := hfmem _ hcmem
      have hcsat' : is_between (closest_preceding_node n key) x key false = true := by
        rw [← hnid]
        exact hcsat
      have hsub : (ids.toFinset.filter
          (fun y => is_between y (closest_preceding_node n key) key false = true)) ⊂
          (ids.toFinset.filter (fun y => is_between y x key false = true)) := by
        constructor
        · intro y hy
          rw [Finset.mem_filter] at hy ⊢
          exact ⟨hy.1, is_between_trans hcsat' hy.2⟩
        · intro hcon
          have hin : closest_preceding_node n key ∈
              (ids.toFinset.filter (fun y => is_between y x key false = true)) := by
            rw [Finset.mem_filter]
            exact ⟨List.mem_toFinset.mpr hcpid, hcsat'⟩
          have := hcon hin
          rw [Finset.mem_filter] at this
          rw [is_between_self_first] at this
          exact absurd this.2 (by simp)
      have hlt := Finset.card_lt_card hsub
      exact ih (closest_preceding_node n key) hcpid (by omega)

theorem find_successor_total {V : Type} (st : Ring V) (ids : List Nat) (key : Nat)
    (hrc : refsClosed st ids) :
    ∀ (fuel x : Nat), x ∈ ids →
      ((ids.toFinset.filter (fun y => is_between y x key false = true)).card) < fuel →
      ∃ r, find_successor st fuel x key = some r ∧ r ∈ ids := by
  intro fuel
  induction fuel with
  | zero => intro x _ hcard; omega
  | succ f ih =>
    intro x hx hcard
    obtain ⟨n, hcf, hnid, hsucc, hfmem⟩ := refsClosed_dest (hrc x hx)
    rw [find_successor_succ st f x key n hcf]
    by_cases hbase : is_between key n.nid n.succ true = true
    · rw [if_pos hbase]
      exact ⟨n.succ, rfl, hsucc⟩
    · rw [if_neg hbase]
      rcases cpn_spec n key with hcpn | ⟨hcmem, hcsat⟩
      · rw [hcpn]
        simp only [beq_self_eq_true, if_true]
        exact ⟨n.succ, rfl, hsucc⟩
      · have hcne : closest_preceding_node n key ≠ n.nid := by
          intro hcon
          rw [hcon, is_between_self_first] at hcsat
          cases hcsat
        have hnpne : (closest_preceding_node n key == n.nid) = false :=
          beq_eq_false_iff_ne.mpr hcne
        rw [hnpne]
        simp only [Bool.false_eq_true, if_false]
        have hcpid : closest_preceding_node n key ∈ ids := hfmem _ hcmem
        have hcsat' : is_between (closest_preceding_node n key) x key false = true := by
          rw [← hnid]
          exact hcsat
        have hsub : (ids.toFinset.filter
            (fun y => is_between y (closest_preceding_node n key) key false = true)) ⊂
            (ids.toFinset.filter (fun y => is_between y x key false = true)) := by
          constructor
          · intro y hy
            rw [Finset.mem_filter] at hy ⊢
            exact ⟨hy.1, is_between_trans hcsat' hy.2⟩
          · intro hcon
            have hin : closest_preceding_node n key ∈
                (ids.toFinset.filter (fun y => is_between y x key false = true)) := by
              rw [Finset.mem_filter]
              exact ⟨List.mem_toFinset.mpr hcpid, hcsat'⟩
            have := hcon hin
            rw [Finset.mem_filter] at this
            rw [is_between_self_first] at this
            exact absurd this.2 (by simp)
        have hlt := Finset.card_lt_card hsub
        exact ih (closest_preceding_node n key) hcpid (by omega)

end Chord

namespace DHTSpec

theorem dget_none_iff {V : Type} (l : List (Nat × V)) (k : Nat) :
    dget l k = none ↔ k ∉ l.map Prod.fst := by
  unfold dget
  rw [Option.map_eq_none', List.find?_eq_none]
  constructor
  · intro h hk
    obtain ⟨⟨a, b⟩, hab, hfst⟩ := List.mem_map.mp hk
    have := h _ hab
    simp at this
    exact this (by simpa using hfst)
  · intro h x hx
    simp only [Bool.not_eq_true, beq_eq_false_iff_ne]
    intro hc
    exact h (List.mem_map.mpr ⟨x, hx, hc⟩)

theorem dget_of_mem_nodup {V : Type} {l : List (Nat × V)} {k : Nat} {v : V}
    (hnd : (l.map Prod.fst).Nodup) (hmem : (k, v) ∈ l) : dget l k = some v := by
  induction l with
  | nil => cases hmem
  | cons a l ih =>
    rcases List.mem_cons.mp hmem with h | h
    · unfold dget
      rw [← h]
      simp [List.find?]
    · have hk : k ∈ l.map Prod.fst := List.mem_map.mpr ⟨(k, v), h, rfl⟩
      have hane : a.1 ≠ k := by
        intro hc
        rw [List.map_cons] at hnd
        rw [← hc] at hk
        exact (List.nodup_cons.mp hnd).1 hk
      have := ih (List.nodup_cons.mp (by rwa [List.map_cons] at hnd)).2 h
      unfold dget at this ⊢
      rw [List.find?]
      have hb : (a.1 == k) = false := beq_eq_false_iff_ne.mpr hane
      rw [hb]
      exact this

theorem dinsert_of_not_mem {V : Type} {l : List (Nat × V)} {k : Nat} (v : V)
    (h : k ∉ l.map Prod.fst) : dinsert l k v = l ++ [(k, v)] := by
  unfold dinsert
  have : l.any (fun p => p.1 == k) = false := by
    rw [List.any_eq_false]
    intro p hp
    simp only [Bool.not_eq_true, beq_eq_false_iff_ne]
    intro hc
    exact h (List.mem_map.mpr ⟨p, hp, hc⟩)
  rw [this]
  simp

theorem derase_map_fst_nodup {V : Type} {l : List (Nat × V)} (k : Nat)
    (h : (l.map Prod.fst).Nodup) : ((derase l k).map Prod.fst).Nodup := by
  have hsub : (derase l k).Sublist l := List.filter_sublist l
  exact List.Nodup.sublist (List.Sublist.map Prod.fst hsub) h

theorem process_filter {V : Type} (P : Nat × V → Bool) :
    ∀ (n : Nat) (B A : List (Nat × V)),
      (B.map Prod.fst).Nodup →
      (∀ kv ∈ B.filter P, kv.1 ∉ A.map Prod.fst) →
      (B.filter P).length = n →
      ((B.filter P).map Prod.fst).foldl move_step (A, B) =
        (A ++ B.filter P, B.filter (fun kv => !(P kv))) := by
  intro n
  induction n with
  | zero =>
    intro B A hnd hdisj hlen
    have hfe : B.filter P = [] := List.length_eq_zero.mp hlen
    rw [hfe]
    simp only [List.map_nil, List.foldl_nil, List.append_nil]
    have : B.filter (fun kv => !(P kv)) = B := by
      rw [List.filter_eq_self]
      intro a ha
      have : a ∉ B.filter P := by
        rw [hfe]
        exact List.not_mem_nil a
      simp only [List.mem_filter, not_and] at this
      simpa using this ha
    rw [this]
  | succ n ih =>
    intro B A hnd hdisj hlen
    rcases hq : B.filter P with _ | ⟨⟨k, v⟩, q⟩
    · rw [hq] at hlen
      cases hlen
    · have hkv_memB : ((k, v) : Nat × V) ∈ B := (List.mem_filter.mp (hq ▸ List.mem_cons_self _ _)).1
      have hkvP : P (k, v) = true := (List.mem_filter.mp (hq ▸ List.mem_cons_self _ _)).2
      have hgetB : dget B k = some v := dget_of_mem_nodup hnd hkv_memB
      have hknotA : k ∉ A.map Prod.fst := by
        have := hdisj (k, v) (hq ▸ List.mem_cons_self _ _)
        exact this
      rw [List.map_cons, List.foldl_cons]
      have hstep : move_step (A, B) k = (A ++ [(k, v)], derase B k) := by
        unfold move_step
        rw [hgetB]
        simp only
        rw [dinsert_of_not_mem v hknotA]
      rw [hstep]
      have hfilter_nodup : ((B.filter P).map Prod.fst).Nodup :=
        List.Nodup.sublist (List.Sublist.map Prod.fst (List.filter_sublist B)) hnd
      have hknotq : k ∉ q.map Prod.fst := by
        rw [hq, List.map_cons] at hfilter_nodup
        exact (List.nodup_cons.mp hfilter_nodup).1
      have hcomm : ∀ (Q : Nat × V → Bool),
          (derase B k).filter Q = (B.filter Q).filter (fun p => p.1 != k) := by
        intro Q
        unfold derase
        rw [List.filter_comm]
      have hBq : (derase B k).filter P = q := by
        rw [hcomm P, hq, List.filter_cons]
        have hck : ((((k, v) : Nat × V).1 != k) = true) = False := by simp
        rw [if_neg (by simp)]
        rw [List.filter_eq_self]
        intro a ha
        simp only [bne_iff_ne, ne_eq]
        intro hc
        exact hknotq (List.mem_map.mpr ⟨a, ha, hc⟩)
      have hnd' : ((derase B k).map Prod.fst).Nodup := derase_map_fst_nodup k hnd
      have hdisj' : ∀ kv ∈ (derase B k).filter P, kv.1 ∉ (A ++ [(k, v)]).map Prod.fst := by
        intro kv hkv
        rw [hBq] at hkv
        rw [List.map_append]
        simp only [List.mem_append, List.map_cons, List.map_nil, List.mem_singleton]
        rintro (hA | hk)
        · exact hdisj kv (hq ▸ List.mem_cons_of_mem _ hkv) hA
        · exact hknotq (hk ▸ List.mem_map.mpr ⟨kv, hkv, rfl⟩)
      have hlen' : ((derase B k).filter P).length = n := by
        rw [hBq]
        rw [hq] at hlen
        simpa using hlen
      have hmain := ih (derase B k) (A ++ [(k, v)]) hnd' hdisj' hlen'
      rw [hBq] at hmain
      rw [hmain]
      have hBnp : (derase B k).filter (fun kv => !(P kv)) = B.filter (fun kv => !(P kv)) := by
        rw [hcomm (fun kv => !(P kv))]
        rw [List.filter_eq_self]
        intro a ha
        have haB : a ∈ B := (List.mem_filter.mp ha).1
        have haNP : (!(P a)) = true := (List.mem_filter.mp ha).2
        simp only [bne_iff_ne, ne_eq]
        intro hc
        have heq : a = (k, v) := by
          rcases a with ⟨ak, av⟩
          simp only at hc
          have h1 : dget B ak = some av := dget_of_mem_nodup hnd haB
          rw [hc, hgetB] at h1
          injection h1 with h2
          rw [hc, ← h2]
        rw [heq] at haNP
        rw [hkvP] at haNP
        cases haNP
      rw [hBnp]
      have happ : A ++ [(k, v)] ++ q = A ++ (k, v) :: q := by
        rw [List.append_assoc]
        simp
      rw [happ]

end DHTSpec

namespace Chord

open DHTSpec

theorem contains_of_mem {l : List Nat} {x : Nat} (h : x ∈ l) : l.contains x = true := by
  simpa using h

theorem move_keys_inv {V : Type} (stB : Ring V) (selfId succId : Nat) (hne : selfId ≠ succId)
    (nS : ChordNode V) (hS : cfind stB succId = some nS) :
    ∀ (K : List Nat) (A B : List (Nat × V)) (sCur : Ring V),
      (∀ j, cfind sCur j = (cfind stB j).map (overlay2 selfId succId A B)) →
      ∀ j, cfind (move_keys selfId succId K sCur) j =
        (cfind stB j).map (overlay2 selfId succId
          (K.foldl move_step (A, B)).1 (K.foldl move_step (A, B)).2) := by
  intro K
  induction K with
  | nil =>
    intro A B sCur hInv j
    simpa [move_keys] using hInv j
  | cons k K ih =>
    intro A B sCur hInv j
    have hnidS : nS.nid = succId := cfind_nid hS
    have hbeq1 : (nS.nid == selfId) = false :=
      beq_eq_false_iff_ne.mpr (by rw [hnidS]; exact Ne.symm hne)
    have hbeq2 : (nS.nid == succId) = true := by rw [hnidS]; exact beq_self_eq_true succId
    have hSc : cfind sCur succId = some { nS with storage := B } := by
      have h0 := hInv succId
      rw [hS] at h0
      rw [h0]
      simp [overlay2, hbeq1, hbeq2]
    have hfold : move_keys selfId succId (k :: K) sCur =
        move_keys selfId succId K
          (match dget B k with
           | none => sCur
           | some v =>
             cupdate (cupdate sCur selfId (fun x => { x with storage := dinsert x.storage k v }))
               succId (fun x => { x with storage := derase x.storage k })) := by
      unfold move_keys
      rw [List.foldl_cons]
      rw [hSc]
    rcases hget : dget B k with _ | v
    · rw [hget] at hfold
      rw [hfold]
      have hstep : move_step (A, B) k = (A, B) := by
        unfold move_step
        rw [hget]
      rw [List.foldl_cons, hstep]
      exact ih A B sCur hInv j
    · rw [hget] at hfold
      rw [hfold]
      have hstep : move_step (A, B) k = (dinsert A k v, derase B k) := by
        unfold move_step
        rw [hget]
      rw [List.foldl_cons, hstep]
      refine ih (dinsert A k v) (derase B k) _ ?_ j
      intro j'
      rw [cfind_cupdate _ succId j' (fun x => { x with storage := derase x.storage k })
        (fun n => rfl)]
      rw [cfind_cupdate _ selfId j' (fun x => { x with storage := dinsert x.storage k v })
        (fun n => rfl)]
      rw [hInv j']
      rcases hj : cfind stB j' with _ | n0
      · rfl
      · simp only [Option.map_some']
        unfold overlay2
        by_cases h1 : n0.nid = selfId
        · have hb1 : (n0.nid == selfId) = true := by rw [h1]; exact beq_self_eq_true selfId
          have hb2 : (n0.nid == succId) = false :=
            beq_eq_false_iff_ne.mpr (by rw [h1]; exact hne)
          simp [hb1, hb2]
        · have hb1 : (n0.nid == selfId) = false := beq_eq_false_iff_ne.mpr h1
          by_cases h2 : n0.nid = succId
          · have hb2 : (n0.nid == succId) = true := by rw [h2]; exact beq_self_eq_true succId
            simp [hb1, hb2]
          · have hb2 : (n0.nid == succId) = false := beq_eq_false_iff_ne.mpr h2
            simp [hb1, hb2]

end Chord

namespace Chord

open DHTSpec

theorem refsClosed_overlayF {V : Type} (stB sCur : Ring V) (ids' : List Nat)
    (selfId : Nat) (fl : List Nat) (hrc : refsClosed stB ids')
    (hfl : ∀ y ∈ fl, y ∈ ids')
    (hInv : ∀ j, cfind sCur j = (cfind stB j).map (overlayF selfId fl)) :
    refsClosed sCur ids' := by
  intro i hi
  obtain ⟨n, hcf, hnid, hsucc, hfmem⟩ := refsClosed_dest (hrc i hi)
  have h0 := hInv i
  rw [hcf] at h0
  unfold refsClosedb
  rw [h0]
  simp only [Option.map_some']
  unfold overlayF
  by_cases h1 : n.nid = selfId
  · have hb : (n.nid == selfId) = true := by rw [h1]; exact beq_self_eq_true selfId
    rw [hb]
    simp only [if_true]
    rw [Bool.and_eq_true]
    constructor
    · exact contains_of_mem hsucc
    · rw [List.all_eq_true]
      intro f hf
      exact contains_of_mem (hfl f hf)
  · have hb : (n.nid == selfId) = false := beq_eq_false_iff_ne.mpr h1
    rw [hb]
    simp only [Bool.false_eq_true, if_false]
    rw [Bool.and_eq_true]
    constructor
    · exact contains_of_mem hsucc
    · rw [List.all_eq_true]
      intro f hf
      exact contains_of_mem (hfmem f hf)

theorem fold_fingers_inv {V : Type} (stB : Ring V) (ids' : List Nat) (selfId fuel : Nat)
    (hrc : refsClosed stB ids') (hself : selfId ∈ ids') (hfuel : ids'.length < fuel)
    (key : Nat) :
    ∀ (L : List Nat) (fl : List Nat) (sCur : Ring V),
      (∀ y ∈ fl, y ∈ ids') →
      (∀ j, cfind sCur j = (cfind stB j).map (overlayF selfId fl)) →
      ∃ fl' sFin,
        L.foldlM (fun s i =>
          match cfind s selfId with
          | none => none
          | some nd =>
            match find_successor s fuel selfId ((nd.nid + 2 ^ i) % 2 ^ nd.m) with
            | none => none
            | some r => some (cupdate s selfId (fun x => { x with fingers := x.fingers.set i r })))
          sCur = some sFin ∧
        (∀ y ∈ fl', y ∈ ids') ∧
        (∀ j, cfind sFin j = (cfind stB j).map (overlayF selfId fl')) := by
  intro L
  induction L with
  | nil =>
    intro fl sCur hfl hInv
    exact ⟨fl, sCur, rfl, hfl, hInv⟩
  | cons i L ih =>
    intro fl sCur hfl hInv
    obtain ⟨n0, hcf0, hnid0, _, _⟩ := refsClosed_dest (hrc selfId hself)
    have hSc : cfind sCur selfId = some { n0 with fingers := fl } := by
      have h0 := hInv selfId
      rw [hcf0] at h0
      rw [h0]
      have hb : (n0.nid == selfId) = true := by rw [hnid0]; exact beq_self_eq_true selfId
      simp [overlayF, hb]
    have hrc' : refsClosed sCur ids' := refsClosed_overlayF stB sCur ids' selfId fl hrc hfl hInv
    have hcard : ((ids'.toFinset.filter
        (fun y => is_between y selfId ((selfId + 2 ^ i) % 2 ^ n0.m) false = true)).card) < fuel := by
      have h1 : (ids'.toFinset.filter
          (fun y => is_between y selfId ((selfId + 2 ^ i) % 2 ^ n0.m) false = true)).card ≤
          ids'.toFinset.card := Finset.card_filter_le _ _
      have h2 : ids'.toFinset.card ≤ ids'.length := List.toFinset_card_le _
      omega
    obtain ⟨r, hr, hrmem⟩ := find_successor_total sCur ids'
      ((selfId + 2 ^ i) % 2 ^ n0.m) hrc' fuel selfId hself hcard
    rw [List.foldlM_cons]
    have hbody : (match cfind sCur selfId with
        | none => none
        | some nd =>
          match find_successor sCur fuel selfId ((nd.nid + 2 ^ i) % 2 ^ nd.m) with
          | none => none
          | some r => some (cupdate sCur selfId
              (fun x => { x with fingers := x.fingers.set i r })))
        = some (cupdate sCur selfId (fun x => { x with fingers := x.fingers.set i r })) := by
      rw [hSc]
      simp only
      rw [hnid0]
      rw [hr]
    rw [hbody]
    simp only [Option.bind_eq_bind, Option.some_bind]
    refine ih (fl.set i r) _ ?_ ?_
    · intro y hy
      rcases List.mem_or_eq_of_mem_set hy with h | h
      · exact hfl y h
      · rw [h]
        exact hrmem
    · intro j'
      rw [cfind_cupdate _ selfId j' (fun x => { x with fingers := x.fingers.set i r })
        (fun n => rfl)]
      rw [hInv j']
      rcases hj : cfind stB j' with _ | m0
      · rfl
      · simp only [Option.map_some']
        unfold overlayF
        by_cases h1 : m0.nid = selfId
        · have hb : (m0.nid == selfId) = true := by rw [h1]; exact beq_self_eq_true selfId
          simp [hb]
        · have hb : (m0.nid == selfId) = false := beq_eq_false_iff_ne.mpr h1
          simp [hb]

theorem fix_fingers_wf {V : Type} (stB : Ring V) (ids' : List Nat) (selfId fuel : Nat)
    (hrc : refsClosed stB ids') (hself : selfId ∈ ids') (hfuel : ids'.length < fuel) :
    ∃ st4 fl', fix_fingers stB fuel selfId = some st4 ∧ (∀ y ∈ fl', y ∈ ids') ∧
      ∀ j, cfind st4 j = (cfind stB j).map (overlayF selfId fl') := by
  obtain ⟨n0, hcf0, hnid0, _, hfmem0⟩ := refsClosed_dest (hrc selfId hself)
  have hInv0 : ∀ j, cfind stB j = (cfind stB j).map (overlayF selfId n0.fingers) := by
    intro j
    rcases hj : cfind stB j with _ | m0
    · rfl
    · simp only [Option.map_some']
      unfold overlayF
      by_cases h1 : m0.nid = selfId
      · have hb : (m0.nid == selfId) = true := by rw [h1]; exact beq_self_eq_true selfId
        rw [hb]
        simp only [if_true]
        have hj2 : j = selfId := by rw [← cfind_nid hj]; exact h1
        rw [hj2, hcf0] at hj
        injection hj with h2
        rw [h2]
      · have hb : (m0.nid == selfId) = false := beq_eq_false_iff_ne.mpr h1
        rw [hb]
        simp
  obtain ⟨fl', sFin, hfold, hfl', hInv'⟩ := fold_fingers_inv stB ids' selfId fuel hrc hself hfuel 0
    (List.range n0.m) n0.fingers stB hfmem0 hInv0
  refine ⟨sFin, fl', ?_, hfl', hInv'⟩
  unfold fix_fingers
  rw [hcf0]
  exact hfold

end Chord

namespace Chord

open DHTSpec

theorem join_wf {V : Type} (st : Ring V) (ids : List Nat) (bootId selfId mN fuel : Nat)
    (hwf : ringWF st ids) (hboot : bootId ∈ ids) (hnotin : selfId ∉ ids)
    (hfresh : cfind st selfId =
      some ⟨selfId, mN, selfId, none, List.replicate mN selfId, []⟩)
    (hfuel : ids.length + 2 ≤ fuel) :
    ∃ st' nd',
      join st fuel selfId bootId = Except.ok st' ∧
      cfind st' selfId = some nd' ∧
      nd'.succ = ownerOf ids selfId ∧
      nd'.pred = some (ringPred ids (ownerOf ids selfId)) ∧
      nd'.storage = (storageOf st (ownerOf ids selfId)).filter
        (fun kv => is_between kv.1 (ringPred ids (ownerOf ids selfId)) selfId true) ∧
      storageOf st' (ownerOf ids selfId) =
        (storageOf st (ownerOf ids selfId)).filter
          (fun kv => !(is_between kv.1 (ringPred ids (ownerOf ids selfId)) selfId true)) ∧
      ∀ x, x ≠ selfId → x ≠ ownerOf ids selfId → storageOf st' x = storageOf st x := by
  obtain ⟨hnd, hne, hok⟩ := hwf
  have hs_mem : ownerOf ids selfId ∈ ids := ownerOf_mem hne selfId
  set s := ownerOf ids selfId with hs_def
  have hs_ne : selfId ≠ s := fun hc => hnotin (hc ▸ hs_mem)
  obtain ⟨sN, hsN, hsNnid, hsNsucc, hsNpred, _, _, _, hsNnodup⟩ := nodeOK_dest (hok s hs_mem)
  set p := ringPred ids s with hp_def
  have hp_mem : p ∈ ids := by
    rcases ringPred_cases hne s with ⟨_, hm, _⟩ | ⟨_, hm, _⟩ <;> exact hm
  have hp_ne : selfId ≠ p := fun hc => hnotin (hc ▸ hp_mem)
  have hstos : storageOf st s = sN.storage := by
    rw [storageOf, hsN]
  -- routing from the bootstrap resolves the joiner's successor
  have h_fs : find_successor st fuel bootId selfId = some s := by
    refine find_successor_wf st ids selfId ⟨hnd, hne, hok⟩ fuel bootId hboot ?_
    have h1 : (ids.toFinset.filter
        (fun y => is_between y bootId selfId false = true)).card ≤ ids.toFinset.card :=
      Finset.card_filter_le _ _
    have h2 : ids.toFinset.card ≤ ids.length := List.toFinset_card_le _
    omega
  -- the visible effect of the three pointer patches
  have hcf1 : ∀ j, cfind (cupdate st selfId
      (fun x => { x with succ := s, pred := some p })) j =
      (cfind st j).map (fun n => if n.nid == selfId then
        { n with succ := s, pred := some p } else n) :=
    fun j => cfind_cupdate st selfId j _ (fun n => rfl)
  have hcf1s : cfind (cupdate st selfId
      (fun x => { x with succ := s, pred := some p })) s = some sN := by
    rw [hcf1 s, hsN]
    have hb : (sN.nid == selfId) = false :=
      beq_eq_false_iff_ne.mpr (by rw [hsNnid]; exact Ne.symm hs_ne)
    simp only [Option.map_some', hb, Bool.false_eq_true, if_false]
  have hcf2 : ∀ j, cfind (cupdate (cupdate st selfId
      (fun x => { x with succ := s, pred := some p })) p
      (fun x => { x with succ := selfId })) j =
      (cfind (cupdate st selfId (fun x => { x with succ := s, pred := some p })) j).map
        (fun n => if n.nid == p then { n with succ := selfId } else n) :=
    fun j => cfind_cupdate _ p j _ (fun n => rfl)
  have hcf3 : ∀ j, cfind (cupdate (cupdate (cupdate st selfId
      (fun x => { x with succ := s, pred := some p })) p
      (fun x => { x with succ := selfId })) s
      (fun x => { x with pred := some selfId })) j =
      (cfind (cupdate (cupdate st selfId
        (fun x => { x with succ := s, pred := some p })) p
        (fun x => { x with succ := selfId })) j).map
        (fun n => if n.nid == s then { n with pred := some selfId } else n) :=
    fun j => cfind_cupdate _ s j _ (fun n => rfl)
  have hcf3self : cfind (cupdate (cupdate (cupdate st selfId
      (fun x => { x with succ := s, pred := some p })) p
      (fun x => { x with succ := selfId })) s
      (fun x => { x with pred := some selfId })) selfId =
      some ⟨selfId, mN, s, some p, List.replicate mN selfId, []⟩ := by
    rw [hcf3 selfId, hcf2 selfId, hcf1 selfId, hfresh]
    have hbp : ((selfId : Nat) == p) = false := beq_eq_false_iff_ne.mpr hp_ne
    have hbs : ((selfId : Nat) == s) = false := beq_eq_false_iff_ne.mpr hs_ne
    simp only [Option.map_some', beq_self_eq_true, eq_self_iff_true, if_true,
      hbp, hbs, Bool.false_eq_true, if_false]
  -- after the patches every reference of a member (old members plus the
  -- joiner) still points at a member
  have hrc3 : refsClosed (cupdate (cupdate (cupdate st selfId
      (fun x => { x with succ := s, pred := some p })) p
      (fun x => { x with succ := selfId })) s
      (fun x => { x with pred := some selfId })) (selfId :: ids) := by
    intro i hi
    rcases List.mem_cons.mp hi with hieq | hiin
    · subst hieq
      unfold refsClosedb
      simp only [hcf3self]
      have h1 : (i :: ids).contains s = true :=
        contains_of_mem (List.mem_cons_of_mem _ hs_mem)
      have h2 : (List.replicate mN i).all
          (fun f => (i :: ids).contains f) = true := by
        rw [List.all_eq_true]
        intro f hf
        rw [List.eq_of_mem_replicate hf]
        exact contains_of_mem (List.mem_cons_self _ _)
      rw [h1, h2]
      rfl
    · obtain ⟨ni, hni, hninid, hnisucc, _, _, _, hfmem, _⟩ := nodeOK_dest (hok i hiin)
      have hisne : i ≠ selfId := fun hc => hnotin (hc ▸ hiin)
      have hb1 : (ni.nid == selfId) = false :=
        beq_eq_false_iff_ne.mpr (by rw [hninid]; exact hisne)
      have hfall : ni.fingers.all (fun f => (selfId :: ids).contains f) = true := by
        rw [List.all_eq_true]
        intro f hf
        exact contains_of_mem (List.mem_cons_of_mem _ (hfmem f hf))
      have hcs1 : (selfId :: ids).contains selfId = true :=
        contains_of_mem (List.mem_cons_self _ _)
      have hcs2 : (selfId :: ids).contains ni.succ = true := by
        refine contains_of_mem (List.mem_cons_of_mem _ ?_)
        rw [hnisucc]
        exact ringSucc_mem hne i
      unfold refsClosedb
      rw [hcf3 i, hcf2 i, hcf1 i, hni]
      by_cases hq2 : (ni.nid == p) = true <;> by_cases hq3 : (ni.nid == s) = true
      · simp only [Option.map_some', hb1, Bool.false_eq_true, if_false, hq2, hq3,
          eq_self_iff_true, if_true, hcs1, hfall, Bool.and_self]
      · have hq3f : (ni.nid == s) = false := by simpa using hq3
        simp only [Option.map_some', hb1, Bool.false_eq_true, if_false, hq2, hq3f,
          eq_self_iff_true, if_true, hcs1, hfall, Bool.and_self]
      · have hq2f : (ni.nid == p) = false := by simpa using hq2
        simp only [Option.map_some', hb1, hq2f, Bool.false_eq_true, if_false, hq3,
          eq_self_iff_true, if_true, hcs2, hfall, Bool.and_self]
      · have hq2f : (ni.nid == p) = false := by simpa using hq2
        have hq3f : (ni.nid == s) = false := by simpa using hq3
        simp only [Option.map_some', hb1, hq2f, hq3f, Bool.false_eq_true, if_false,
          hcs2, hfall, Bool.and_self]
  -- run _fix_fingers
  obtain ⟨st4, fl', hfix, hflmem, hInv4⟩ := fix_fingers_wf (cupdate (cupdate (cupdate st selfId
      (fun x => { x with succ := s, pred := some p })) p
      (fun x => { x with succ := selfId })) s
      (fun x => { x with pred := some selfId })) (selfId :: ids) selfId fuel hrc3
    (List.mem_cons_self _ _) (by simp only [List.length_cons]; omega)
  have hcf4self : cfind st4 selfId = some ⟨selfId, mN, s, some p, fl', []⟩ := by
    rw [hInv4 selfId, hcf3self]
    simp [overlayF]
  obtain ⟨s4, hs4, hs4stor⟩ : ∃ s4 : ChordNode V, cfind st4 s = some s4 ∧
      s4.storage = sN.storage := by
    rw [hInv4 s, hcf3 s, hcf2 s, hcf1 s, hsN]
    simp only [Option.map_some']
    refine ⟨_, rfl, ?_⟩
    unfold overlayF
    split_ifs <;> rfl
  have hs4nid : s4.nid = s := cfind_nid hs4
  have hstor4 : ∀ j, storageOf st4 j = storageOf st j := by
    intro j
    rw [storageOf, hInv4 j, hcf3 j, hcf2 j, hcf1 j, storageOf]
    rcases cfind st j with _ | nj
    · rfl
    · simp only [Option.map_some']
      unfold overlayF
      split_ifs <;> rfl
  rcases hSS : sN.storage with _ | ⟨kv0, rest⟩
  · -- the successor held nothing: join returns right after _fix_fingers
    have hjoin : join st fuel selfId bootId = Except.ok st4 := by
      simp only [join, h_fs, hsN, hsNpred, hcf1s, hfix, hcf4self, hs4, hs4stor, hSS]
    refine ⟨st4, ⟨selfId, mN, s, some p, fl', []⟩, hjoin, hcf4self, rfl, rfl, ?_, ?_, ?_⟩
    · simp [hstos, hSS]
    · rw [hstor4 s]
      simp [hstos, hSS]
    · intro x _ _
      exact hstor4 x
  · -- nonempty successor storage: the key-move loop runs
    have hjoin : join st fuel selfId bootId = Except.ok (move_keys selfId s
        (((kv0 :: rest).filter (fun kv => is_between kv.1 p selfId true)).map
          (fun kv => kv.1)) st4) := by
      simp only [join, h_fs, hsN, hsNpred, hcf1s, hfix, hcf4self, hs4, hs4stor, hSS]
    have hndB : ((kv0 :: rest).map Prod.fst).Nodup := by
      rw [← hSS]
      exact hsNnodup
    have hfold : ((((kv0 :: rest).filter
        (fun kv => is_between kv.1 p selfId true)).map (fun kv => kv.1)).foldl
          move_step (([] : List (Nat × V)), kv0 :: rest)) =
        ((kv0 :: rest).filter (fun kv => is_between kv.1 p selfId true),
         (kv0 :: rest).filter (fun kv => !(is_between kv.1 p selfId true))) := by
      have h := process_filter (fun kv => is_between kv.1 p selfId true)
        (((kv0 :: rest).filter (fun kv => is_between kv.1 p selfId true)).length)
        (kv0 :: rest) [] hndB (by intro z hz; simp) rfl
      have h2 : ((((kv0 :: rest).filter
          (fun kv => is_between kv.1 p selfId true)).map (fun kv => kv.1)).foldl
            move_step (([] : List (Nat × V)), kv0 :: rest)) =
          ([] ++ (kv0 :: rest).filter (fun kv => is_between kv.1 p selfId true),
           (kv0 :: rest).filter (fun kv => !(is_between kv.1 p selfId true))) := h
      simpa using h2
    have hInv0 : ∀ j, cfind st4 j = (cfind st4 j).map
        (overlay2 selfId s [] (kv0 :: rest)) := by
      intro j
      rcases hj : cfind st4 j with _ | nj
      · rfl
      · simp only [Option.map_some']
        unfold overlay2
        by_cases h1 : nj.nid = selfId
        · have hjj : j = selfId := by rw [← cfind_nid hj, h1]
          rw [hjj, hcf4self] at hj
          injection hj with h2
          rw [← h2]
          simp
        · by_cases h2 : nj.nid = s
          · have hjj : j = s := by rw [← cfind_nid hj, h2]
            rw [hjj, hs4] at hj
            injection hj with h3
            rw [← h3]
            have hb1 : (s4.nid == selfId) = false :=
              beq_eq_false_iff_ne.mpr (by rw [hs4nid]; exact Ne.symm hs_ne)
            have hb2 : (s4.nid == s) = true := by
              rw [hs4nid]
              simp
            rw [hb1, hb2, if_neg Bool.false_ne_true, if_pos rfl, ← hSS, ← hs4stor]
          · have hb1 : (nj.nid == selfId) = false := beq_eq_false_iff_ne.mpr h1
            have hb2 : (nj.nid == s) = false := beq_eq_false_iff_ne.mpr h2
            simp [hb1, hb2]
    have hInvF := move_keys_inv st4 selfId s hs_ne s4 hs4
      (((kv0 :: rest).filter (fun kv => is_between kv.1 p selfId true)).map
        (fun kv => kv.1)) [] (kv0 :: rest) st4 hInv0
    simp only [hfold] at hInvF
    have hcfM : cfind (move_keys selfId s
        (((kv0 :: rest).filter (fun kv => is_between kv.1 p selfId true)).map
          (fun kv => kv.1)) st4) selfId =
        some ⟨selfId, mN, s, some p, fl',
          (kv0 :: rest).filter (fun kv => is_between kv.1 p selfId true)⟩ := by
      rw [hInvF selfId, hcf4self]
      simp [overlay2]
    have hcfMs : cfind (move_keys selfId s
        (((kv0 :: rest).filter (fun kv => is_between kv.1 p selfId true)).map
          (fun kv => kv.1)) st4) s =
        some { s4 with storage :=
          (kv0 :: rest).filter (fun kv => !(is_between kv.1 p selfId true)) } := by
      rw [hInvF s, hs4]
      have hb1 : (s4.nid == selfId) = false :=
        beq_eq_false_iff_ne.mpr (by rw [hs4nid]; exact Ne.symm hs_ne)
      have hb2 : (s4.nid == s) = true := by
        rw [hs4nid]
        simp
      simp [overlay2, hb1, hb2]
    refine ⟨_, _, hjoin, hcfM, rfl, rfl, ?_, ?_, ?_⟩
    · rw [hstos, hSS]
    · rw [storageOf, hcfMs, hstos, hSS]
    · intro x hx1 hx2
      rw [← hstor4 x, storageOf, hInvF x, storageOf]
      rcases hx : cfind st4 x with _ | nx
      · rfl
      · have hb1 : (nx.nid == selfId) = false :=
          beq_eq_false_iff_ne.mpr (by rw [cfind_nid hx]; exact hx1)
        have hb2 : (nx.nid == s) = false :=
          beq_eq_false_iff_ne.mpr (by rw [cfind_nid hx]; exact hx2)
        simp [overlay2, hb1, hb2]

end Chord

namespace Claims

/-- C2: For every Chord node joining a well-formed ring via join(bootstrap),
when join completes the joiner's local storage contains exactly those pairs
(k, v) that its successor held with k in the ring interval
(predecessor.id, self.id] (right end included, wrap handled by is_between),
those pairs have been removed from the successor's storage, and no other
node's storage changed. -/
theorem c2_join_redistributes {V : Type} (st : Chord.Ring V) (ids : List Nat)
    (bootId selfId mN fuel : Nat)
    (hwf : Chord.ringWF st ids) (hboot : bootId ∈ ids) (hnotin : selfId ∉ ids)
    (hfresh : Chord.cfind st selfId =
      some ⟨selfId, mN, selfId, none, List.replicate mN selfId, []⟩)
    (hfuel : ids.length + 2 ≤ fuel) :
    ∃ st' nd',
      Chord.join st fuel selfId bootId = Except.ok st' ∧
      Chord.cfind st' selfId = some nd' ∧
      nd'.succ = Chord.ownerOf ids selfId ∧
      nd'.pred = some (Chord.ringPred ids (Chord.ownerOf ids selfId)) ∧
      nd'.storage = (Chord.storageOf st (Chord.ownerOf ids selfId)).filter
        (fun kv => Chord.is_between kv.1
          (Chord.ringPred ids (Chord.ownerOf ids selfId)) selfId true) ∧
      Chord.storageOf st' (Chord.ownerOf ids selfId) =
        (Chord.storageOf st (Chord.ownerOf ids selfId)).filter
          (fun kv => !(Chord.is_between kv.1
            (Chord.ringPred ids (Chord.ownerOf ids selfId)) selfId true)) ∧
      ∀ x, x ≠ selfId → x ≠ Chord.ownerOf ids selfId →
        Chord.storageOf st' x = Chord.storageOf st x :=
  Chord.join_wf st ids bootId selfId mN fuel hwf hboot hnotin hfresh hfuel

theorem c2_join_redistributes_witness :
    (Chord.ringWF ([⟨10, 2, 20, some 20, [20, 20], []⟩,
        ⟨20, 2, 10, some 10, [10, 10], [(12, 1), (18, 2)]⟩,
        ⟨15, 2, 15, none, [15, 15], []⟩] : Chord.Ring Nat) [10, 20] ∧
      (10 : Nat) ∈ [10, 20] ∧ (15 : Nat) ∉ ([10, 20] : List Nat) ∧
      Chord.cfind ([⟨10, 2, 20, some 20, [20, 20], []⟩,
        ⟨20, 2, 10, some 10, [10, 10], [(12, 1), (18, 2)]⟩,
        ⟨15, 2, 15, none, [15, 15], []⟩] : Chord.Ring Nat) 15 =
        some ⟨15, 2, 15, none, List.replicate 2 15, []⟩ ∧
      ([10, 20] : List Nat).length + 2 ≤ 4) ∧
    (∃ st' nd',
      Chord.join ([⟨10, 2, 20, some 20, [20, 20], []⟩,
        ⟨20, 2, 10, some 10, [10, 10], [(12, 1), (18, 2)]⟩,
        ⟨15, 2, 15, none, [15, 15], []⟩] : Chord.Ring Nat) 4 15 10 = Except.ok st' ∧
      Chord.cfind st' 15 = some nd' ∧
      nd'.succ = Chord.ownerOf [10, 20] 15 ∧
      nd'.pred = some (Chord.ringPred [10, 20] (Chord.ownerOf [10, 20] 15)) ∧
      nd'.storage = (Chord.storageOf ([⟨10, 2, 20, some 20, [20, 20], []⟩,
        ⟨20, 2, 10, some 10, [10, 10], [(12, 1), (18, 2)]⟩,
        ⟨15, 2, 15, none, [15, 15], []⟩] : Chord.Ring Nat)
          (Chord.ownerOf [10, 20] 15)).filter
        (fun kv => Chord.is_between kv.1
          (Chord.ringPred [10, 20] (Chord.ownerOf [10, 20] 15)) 15 true) ∧
      Chord.storageOf st' (Chord.ownerOf [10, 20] 15) =
        (Chord.storageOf ([⟨10, 2, 20, some 20, [20, 20], []⟩,
          ⟨20, 2, 10, some 10, [10, 10], [(12, 1), (18, 2)]⟩,
          ⟨15, 2, 15, none, [15, 15], []⟩] : Chord.Ring Nat)
            (Chord.ownerOf [10, 20] 15)).filter
          (fun kv => !(Chord.is_between kv.1
            (Chord.ringPred [10, 20] (Chord.ownerOf [10, 20] 15)) 15 true)) ∧
      ∀ x, x ≠ 15 → x ≠ Chord.ownerOf [10, 20] 15 →
        Chord.storageOf st' x = Chord.storageOf ([⟨10, 2, 20, some 20, [20, 20], []⟩,
          ⟨20, 2, 10, some 10, [10, 10], [(12, 1), (18, 2)]⟩,
          ⟨15, 2, 15, none, [15, 15], []⟩] : Chord.Ring Nat) x) :=
  ⟨⟨⟨by decide, by decide, by decide⟩, by decide, by decide, rfl, by decide⟩,
    c2_join_redistributes ([⟨10, 2, 20, some 20, [20, 20], []⟩,
        ⟨20, 2, 10, some 10, [10, 10], [(12, 1), (18, 2)]⟩,
        ⟨15, 2, 15, none, [15, 15], []⟩] : Chord.Ring Nat) [10, 20] 10 15 2 4
      ⟨by decide, by decide, by decide⟩ (by decide) (by decide) rfl (by decide)⟩

end Claims

namespace BTree

/-- _find_leaf only ever returns a node whose leaf flag is set (the
descent loop exits exactly on leaf nodes). -/
theorem find_leaf_aux_leaf {V : Type} (t : BPlusTree V) (key : Nat) :
    ∀ fuel a la, find_leaf_aux t key fuel a = some la →
      ∃ nd, getN t la = some nd ∧ nd.leaf = true := by
  intro fuel
  induction fuel with
  | zero => intro a la h; cases h
  | succ f ih =>
    intro a la h
    simp only [find_leaf_aux] at h
    rcases hg : getN t a with _ | nd
    · rw [hg] at h
      cases h
    · rw [hg] at h
      have h' : (if nd.leaf = true then some a
          else match nd.children[bisect_right nd.keys key]? with
            | none => none
            | some c => find_leaf_aux t key f c) = some la := h
      by_cases hl : nd.leaf = true
      · rw [if_pos hl] at h'
        injection h' with h2
        exact ⟨nd, h2 ▸ hg, hl⟩
      · rw [if_neg hl] at h'
        rcases hc : nd.children[bisect_right nd.keys key]? with _ | c
        · rw [hc] at h'
          cases h'
        · rw [hc] at h'
          exact ih c la h'

end BTree

namespace Claims

/-- C9 counterexample: inserting Python None as a value makes contains
return True while get returns None, exactly as for the absent key 2, so
the claimed equivalence (contains true iff get non-null) fails. -/
theorem c9_contains_get_null_cex :
    BTree.insert (BTree.emptyTree BTree.PyVal 5) 1 BTree.PyVal.null =
      some (⟨[⟨true, [1], [BTree.PyVal.null], [], none⟩], 0, 5⟩ :
        BTree.BPlusTree BTree.PyVal) ∧
    BTree.contains (⟨[⟨true, [1], [BTree.PyVal.null], [], none⟩], 0, 5⟩ :
        BTree.BPlusTree BTree.PyVal) 1 = some true ∧
    BTree.retrieve (⟨[⟨true, [1], [BTree.PyVal.null], [], none⟩], 0, 5⟩ :
        BTree.BPlusTree BTree.PyVal) 1 = some (some BTree.PyVal.null) ∧
    BTree.retrieve (⟨[⟨true, [1], [BTree.PyVal.null], [], none⟩], 0, 5⟩ :
        BTree.BPlusTree BTree.PyVal) 2 = some none :=
  ⟨rfl, rfl, rfl, rfl⟩

/-- C9 (amended): on a local index whose leaves are key-value aligned and
whose stored values are all non-null, contains(k) returns true exactly
when get(k) returns a non-null value, and false exactly when get(k)
returns null. -/
theorem c9_contains_get_amended {V : Type} (t : BTree.BPlusTree V) (vnull : V) (k : Nat)
    (halign : ∀ nd ∈ t.arena, nd.leaf = true → nd.values.length = nd.keys.length)
    (hnn : ∀ nd ∈ t.arena, ∀ v ∈ nd.values, v ≠ vnull)
    (b : Bool) (hb : BTree.contains t k = some b) :
    ∃ res, BTree.retrieve t k = some res ∧
      (b = true ↔ ∃ v, res = some v ∧ v ≠ vnull) ∧
      (b = false ↔ res = none) := by
  unfold BTree.contains at hb
  rcases hf : BTree.find_leaf t k with _ | la
  · rw [hf] at hb
    cases hb
  · rw [hf] at hb
    obtain ⟨nd0, hnd0, hleaf0⟩ := BTree.find_leaf_aux_leaf t k _ _ la hf
    have hb' : (BTree.getN t la).map (fun leaf => decide (k ∈ leaf.keys)) = some b := hb
    rw [hnd0] at hb'
    simp only [Option.map_some'] at hb'
    injection hb' with hb2
    have hmem : nd0 ∈ t.arena := by
      unfold BTree.getN at hnd0
      exact List.getElem?_mem hnd0
    have hal : nd0.values.length = nd0.keys.length := halign nd0 hmem hleaf0
    have hstep : BTree.retrieve t k = (match BTree.getN t la with
        | none => none
        | some leaf => if k ∈ leaf.keys then
            match leaf.values[leaf.keys.indexOf k]? with
            | none => none
            | some v => some (some v)
          else some none) := by
      unfold BTree.retrieve
      rw [hf]
    rw [hnd0] at hstep
    have hstep2 : BTree.retrieve t k = (if k ∈ nd0.keys then
        match nd0.values[nd0.keys.indexOf k]? with
        | none => none
        | some v => some (some v)
      else some none) := hstep
    by_cases hk : k ∈ nd0.keys
    · have hidx : nd0.keys.indexOf k < nd0.keys.length := List.indexOf_lt_length.mpr hk
      have hidx2 : nd0.keys.indexOf k < nd0.values.length := by omega
      have hv : nd0.values[nd0.keys.indexOf k]? = some nd0.values[nd0.keys.indexOf k] :=
        List.getElem?_eq_getElem hidx2
      rw [if_pos hk, hv] at hstep2
      have hstep3 : BTree.retrieve t k = some (some nd0.values[nd0.keys.indexOf k]) := hstep2
      rw [hstep3]
      refine ⟨some nd0.values[nd0.keys.indexOf k], rfl, ?_, ?_⟩
      · constructor
        · intro _
          refine ⟨nd0.values[nd0.keys.indexOf k], rfl, ?_⟩
          exact hnn nd0 hmem _ (List.getElem_mem hidx2)
        · intro _
          rw [← hb2]
          simp [hk]
      · constructor
        · intro hc
          rw [← hb2] at hc
          simp [hk] at hc
        · intro hc
          cases hc
    · rw [if_neg hk] at hstep2
      rw [hstep2]
      refine ⟨none, rfl, ?_, ?_⟩
      · constructor
        · intro hc
          rw [← hb2] at hc
          simp [hk] at hc
        · rintro ⟨v, hv, _⟩
          cases hv
      · constructor
        · intro _
          rfl
        · intro _
          rw [← hb2]
          simp [hk]

theorem c9_contains_get_amended_witness :
    ((∀ nd ∈ ([⟨true, [1], [BTree.PyVal.intVal 5], [], none⟩] :
        List (BTree.BPlusTreeNode BTree.PyVal)), nd.leaf = true →
        nd.values.length = nd.keys.length) ∧
      (∀ nd ∈ ([⟨true, [1], [BTree.PyVal.intVal 5], [], none⟩] :
        List (BTree.BPlusTreeNode BTree.PyVal)), ∀ v ∈ nd.values, v ≠ BTree.PyVal.null) ∧
      BTree.contains (⟨[⟨true, [1], [BTree.PyVal.intVal 5], [], none⟩], 0, 5⟩ :
        BTree.BPlusTree BTree.PyVal) 1 = some true) ∧
    (∃ res, BTree.retrieve (⟨[⟨true, [1], [BTree.PyVal.intVal 5], [], none⟩], 0, 5⟩ :
        BTree.BPlusTree BTree.PyVal) 1 = some res ∧
      (true = true ↔ ∃ v, res = some v ∧ v ≠ BTree.PyVal.null) ∧
      (true = false ↔ res = none)) :=
  ⟨⟨by decide, by decide, by decide⟩,
    c9_contains_get_amended (⟨[⟨true, [1], [BTree.PyVal.intVal 5], [], none⟩], 0, 5⟩ :
        BTree.BPlusTree BTree.PyVal) BTree.PyVal.null 1 (by decide) (by decide) true
      (by decide)⟩

end Claims

namespace BTree

theorem getN_lt {V : Type} {t : BPlusTree V} {a : Nat} {nd : BPlusTreeNode V}
    (h : getN t a = some nd) : a < t.arena.length := by
  unfold getN at h
  by_contra hc
  rw [List.getElem?_eq_none (by omega)] at h
  cases h

theorem getN_setN_self {V : Type} {t : BPlusTree V} {a : Nat} {nd0 : BPlusTreeNode V}
    (nd : BPlusTreeNode V) (h : getN t a = some nd0) :
    getN (setN t a nd) a = some nd := by
  unfold getN setN
  exact List.getElem?_set_eq (getN_lt h)

theorem getN_setN_ne {V : Type} (t : BPlusTree V) (a : Nat) (nd : BPlusTreeNode V)
    {b : Nat} (h : b ≠ a) : getN (setN t a nd) b = getN t b := by
  unfold getN setN
  exact List.getElem?_set_ne (Ne.symm h)

theorem getN_alloc_old {V : Type} (t : BPlusTree V) (nd : BPlusTreeNode V) {b : Nat}
    (hb : b < t.arena.length) : getN (alloc t nd).1 b = getN t b := by
  unfold getN alloc
  exact List.getElem?_append_left hb

theorem getN_alloc_new {V : Type} (t : BPlusTree V) (nd : BPlusTreeNode V) :
    getN (alloc t nd).1 (alloc t nd).2 = some nd := by
  unfold getN alloc
  exact List.getElem?_concat_length t.arena nd

theorem strictAsc_iff {l : List Nat} : strictAsc l = true ↔ l.Pairwise (· < ·) := by
  rw [← List.chain'_iff_pairwise]
  induction l with
  | nil => simp [strictAsc]
  | cons a l ih =>
    cases l with
    | nil => simp [strictAsc]
    | cons b r =>
      rw [strictAsc, Bool.and_eq_true, decide_eq_true_eq, List.chain'_cons, ih]

end BTree

namespace BTree

theorem scanN_zero {V : Type} (t : BPlusTree V) (a : Nat) (lo hi : Option Nat) :
    scanN t 0 a lo hi = none := by
  simp only [scanN]

theorem scanN_none {V : Type} (t : BPlusTree V) (f a : Nat) (lo hi : Option Nat)
    (hg : getN t a = none) : scanN t (f + 1) a lo hi = none := by
  simp only [scanN]
  rw [hg]

theorem scanN_succ {V : Type} (t : BPlusTree V) (f a : Nat) (lo hi : Option Nat)
    (nd : BPlusTreeNode V) (hg : getN t a = some nd) :
    scanN t (f + 1) a lo hi =
      if nd.leaf then
        if leafCk nd lo hi then some (nd.keys.zip nd.values, [a], [a]) else none
      else
        match scanKids t f nd.keys nd.children lo hi with
        | none => none
        | some r => some (r.1, a :: r.2.1, r.2.2) := by
  simp only [scanN]
  rw [hg]

theorem scanKids_nil_nil {V : Type} (t : BPlusTree V) (fuel : Nat) (lo hi : Option Nat) :
    scanKids t fuel [] ([] : List Nat) lo hi = none := by
  simp only [scanKids]

theorem scanKids_nil_one {V : Type} (t : BPlusTree V) (fuel : Nat) (c : Nat)
    (lo hi : Option Nat) : scanKids t fuel [] [c] lo hi = scanN t fuel c lo hi := by
  simp only [scanKids]

theorem scanKids_nil_big {V : Type} (t : BPlusTree V) (fuel : Nat) (c1 c2 : Nat)
    (cs : List Nat) (lo hi : Option Nat) :
    scanKids t fuel [] (c1 :: c2 :: cs) lo hi = none := by
  simp only [scanKids]

theorem scanKids_cons_nil {V : Type} (t : BPlusTree V) (fuel k : Nat) (ks : List Nat)
    (lo hi : Option Nat) : scanKids t fuel (k :: ks) [] lo hi = none := by
  simp only [scanKids]

theorem scanKids_cons {V : Type} (t : BPlusTree V) (fuel k : Nat) (ks' : List Nat)
    (c : Nat) (cs' : List Nat) (lo hi : Option Nat) :
    scanKids t fuel (k :: ks') (c :: cs') lo hi =
      if loLT lo k && hiGT hi k then
        match scanN t fuel c lo (some k) with
        | none => none
        | some r1 =>
          match scanKids t fuel ks' cs' (some k) hi with
          | none => none
          | some r2 => some (r1.1 ++ r2.1, r1.2.1 ++ r2.2.1, r1.2.2 ++ r2.2.2)
      else none := by
  simp only [scanKids]

theorem scan_mono {V : Type} (t : BPlusTree V) :
    ∀ fuel,
      (∀ a lo hi r, scanN t fuel a lo hi = some r → scanN t (fuel + 1) a lo hi = some r) ∧
      (∀ ks cs lo hi r, scanKids t fuel ks cs lo hi = some r →
        scanKids t (fuel + 1) ks cs lo hi = some r) := by
  intro fuel
  induction fuel with
  | zero =>
    constructor
    · intro a lo hi r h
      rw [scanN_zero] at h
      cases h
    · intro ks cs lo hi r h
      rcases ks with _ | ⟨k, ks'⟩ <;> rcases cs with _ | ⟨c, cs'⟩
      · rw [scanKids_nil_nil] at h
        cases h
      · rcases cs' with _ | ⟨c2, cs''⟩
        · rw [scanKids_nil_one, scanN_zero] at h
          cases h
        · rw [scanKids_nil_big] at h
          cases h
      · rw [scanKids_cons_nil] at h
        cases h
      · rw [scanKids_cons, scanN_zero] at h
        rcases hcond : (loLT lo k && hiGT hi k) with _ | _
        · rw [hcond] at h
          have h' : (none : Option (List (Nat × V) × List Nat × List Nat)) = some r := h
          cases h'
        · rw [hcond] at h
          have h' : (none : Option (List (Nat × V) × List Nat × List Nat)) = some r := h
          cases h'
  | succ f ih =>
    have hN : ∀ a lo hi r, scanN t (f + 1) a lo hi = some r →
        scanN t (f + 1 + 1) a lo hi = some r := by
      intro a lo hi r h
      rcases hg : getN t a with _ | nd
      · rw [scanN_none t f a lo hi hg] at h
        cases h
      · rw [scanN_succ t f a lo hi nd hg] at h
        rw [scanN_succ t (f + 1) a lo hi nd hg]
        by_cases hl : nd.leaf = true
        · rw [if_pos hl] at h ⊢
          exact h
        · rw [if_neg hl] at h ⊢
          rcases hk : scanKids t f nd.keys nd.children lo hi with _ | r0
          · rw [hk] at h
            have h' : (none : Option (List (Nat × V) × List Nat × List Nat)) = some r := h
            cases h'
          · rw [hk] at h
            rw [ih.2 _ _ _ _ _ hk]
            exact h
    refine ⟨hN, ?_⟩
    intro ks
    induction ks with
    | nil =>
      intro cs lo hi r h
      rcases cs with _ | ⟨c, cs'⟩
      · rw [scanKids_nil_nil] at h
        cases h
      · rcases cs' with _ | ⟨c2, cs''⟩
        · rw [scanKids_nil_one] at h ⊢
          exact hN _ _ _ _ h
        · rw [scanKids_nil_big] at h
          cases h
    | cons k ks' ihk =>
      intro cs lo hi r h
      rcases cs with _ | ⟨c, cs'⟩
      · rw [scanKids_cons_nil] at h
        cases h
      · rw [scanKids_cons] at h
        rcases hcond : (loLT lo k && hiGT hi k) with _ | _
        · rw [hcond] at h
          have h' : (none : Option (List (Nat × V) × List Nat × List Nat)) = some r := h
          cases h'
        · rw [hcond, if_pos rfl] at h
          rcases h1 : scanN t (f + 1) c lo (some k) with _ | r1
          · rw [h1] at h
            have h' : (none : Option (List (Nat × V) × List Nat × List Nat)) = some r := h
            cases h'
          · rw [h1] at h
            have h2m : (match scanKids t (f + 1) ks' cs' (some k) hi with
                | none => none
                | some r2 => some (r1.1 ++ r2.1, r1.2.1 ++ r2.2.1, r1.2.2 ++ r2.2.2)) =
                some r := h
            rcases h2 : scanKids t (f + 1) ks' cs' (some k) hi with _ | r2
            · rw [h2] at h2m
              have h' : (none : Option (List (Nat × V) × List Nat × List Nat)) = some r := h2m
              cases h'
            · rw [h2] at h2m
              have h3 : some (r1.1 ++ r2.1, r1.2.1 ++ r2.2.1, r1.2.2 ++ r2.2.2) = some r := h2m
              rw [scanKids_cons, hcond, if_pos rfl, hN _ _ _ _ h1]
              have h4 : (match scanKids t (f + 1 + 1) ks' cs' (some k) hi with
                  | none => none
                  | some r2 => some (r1.1 ++ r2.1, r1.2.1 ++ r2.2.1, r1.2.2 ++ r2.2.2)) =
                  some r := by
                rw [ihk _ _ _ _ h2]
                exact h3
              exact h4

theorem scanN_mono_le {V : Type} (t : BPlusTree V) {fuel fuel' a : Nat} {lo hi : Option Nat}
    {r : List (Nat × V) × List Nat × List Nat} (h : fuel ≤ fuel')
    (hs : scanN t fuel a lo hi = some r) : scanN t fuel' a lo hi = some r := by
  induction fuel' with
  | zero =>
    have hz : fuel = 0 := by omega
    exact hz ▸ hs
  | succ f' ihf =>
    rcases Nat.lt_or_ge fuel (f' + 1) with hlt | hge
    · exact (scan_mono t f').1 _ _ _ _ (ihf (by omega))
    · have hz : fuel = f' + 1 := by omega
      exact hz ▸ hs

theorem scanKids_mono_le {V : Type} (t : BPlusTree V) {fuel fuel' : Nat} {ks cs : List Nat}
    {lo hi : Option Nat} {r : List (Nat × V) × List Nat × List Nat} (h : fuel ≤ fuel')
    (hs : scanKids t fuel ks cs lo hi = some r) : scanKids t fuel' ks cs lo hi = some r := by
  induction fuel' with
  | zero =>
    have hz : fuel = 0 := by omega
    exact hz ▸ hs
  | succ f' ihf =>
    rcases Nat.lt_or_ge fuel (f' + 1) with hlt | hge
    · exact (scan_mono t f').2 _ _ _ _ _ (ihf (by omega))
    · have hz : fuel = f' + 1 := by omega
      exact hz ▸ hs

end BTree

namespace BTree

theorem hiGT_trans {hi : Option Nat} {k x : Nat} (h1 : hiGT (some k) x = true)
    (h2 : hiGT hi k = true) : hiGT hi x = true := by
  cases hi with
  | none => rfl
  | some h =>
    simp only [hiGT, decide_eq_true_eq] at *
    omega

theorem loLE_trans {lo : Option Nat} {k y : Nat} (h1 : loLT lo k = true)
    (h2 : loLE (some k) y = true) : loLE lo y = true := by
  cases lo with
  | none => rfl
  | some l =>
    simp only [loLT, loLE, decide_eq_true_eq] at *
    omega

theorem leafCk_dest {V : Type} {nd : BPlusTreeNode V} {lo hi : Option Nat}
    (h : leafCk nd lo hi = true) :
    nd.leaf = true ∧ nd.keys.Pairwise (· < ·) ∧
    (∀ k ∈ nd.keys, loLE lo k = true ∧ hiGT hi k = true) ∧
    nd.values.length = nd.keys.length := by
  unfold leafCk at h
  simp only [Bool.and_eq_true, List.all_eq_true, beq_iff_eq] at h
  obtain ⟨⟨⟨h1, h2⟩, h3⟩, h4⟩ := h
  refine ⟨h1, strictAsc_iff.mp h2, ?_, h4⟩
  intro k hk
  exact h3 k hk

theorem zip_map_fst {V : Type} {keys : List Nat} {values : List V}
    (h : values.length = keys.length) :
    ((keys.zip values).map Prod.fst) = keys :=
  List.map_fst_zip keys values (by omega)

theorem leafConcat_append {V : Type} (t : BPlusTree V) {l1 l2 : List Nat}
    {c1 c2 : List (Nat × V)} (h1 : leafConcat t l1 = some c1)
    (h2 : leafConcat t l2 = some c2) : leafConcat t (l1 ++ l2) = some (c1 ++ c2) := by
  induction l1 generalizing c1 with
  | nil =>
    injection h1 with h1
    rw [← h1, List.nil_append, List.nil_append]
    exact h2
  | cons a r ih =>
    rw [leafConcat] at h1
    rcases hg : getN t a with _ | nd
    · rw [hg] at h1
      cases h1
    · rw [hg] at h1
      have h1' : (match leafConcat t r with
          | none => none
          | some rest => some (nd.keys.zip nd.values ++ rest)) = some c1 := h1
      rcases hr : leafConcat t r with _ | rest
      · rw [hr] at h1'
        cases h1'
      · rw [hr] at h1'
        injection h1' with h1''
        rw [List.cons_append, leafConcat, hg, ih hr]
        rw [← h1'']
        simp

theorem scan_facts {V : Type} (t : BPlusTree V) :
    ∀ fuel,
      (∀ a lo hi c ad lv, scanN t fuel a lo hi = some (c, ad, lv) →
        NFacts t lo hi c ad lv ∧ ∃ ad', ad = a :: ad') ∧
      (∀ ks cs lo hi c ad lv, scanKids t fuel ks cs lo hi = some (c, ad, lv) →
        NFacts t lo hi c ad lv) := by
  intro fuel
  induction fuel with
  | zero =>
    constructor
    · intro a lo hi c ad lv h
      rw [scanN_zero] at h
      cases h
    · intro ks cs lo hi c ad lv h
      rcases ks with _ | ⟨k, ks'⟩ <;> rcases cs with _ | ⟨c0, cs'⟩
      · rw [scanKids_nil_nil] at h
        cases h
      · rcases cs' with _ | ⟨c2, cs''⟩
        · rw [scanKids_nil_one, scanN_zero] at h
          cases h
        · rw [scanKids_nil_big] at h
          cases h
      · rw [scanKids_cons_nil] at h
        cases h
      · rw [scanKids_cons, scanN_zero] at h
        rcases hcond : (loLT lo k && hiGT hi k) with _ | _ <;> rw [hcond] at h
        · have h' : (none : Option (List (Nat × V) × List Nat × List Nat)) =
            some (c, ad, lv) := h
          cases h'
        · have h' : (none : Option (List (Nat × V) × List Nat × List Nat)) =
            some (c, ad, lv) := h
          cases h'
  | succ f ih =>
    have hN : ∀ a lo hi c ad lv, scanN t (f + 1) a lo hi = some (c, ad, lv) →
        NFacts t lo hi c ad lv ∧ ∃ ad', ad = a :: ad' := by
      intro a lo hi c ad lv h
      rcases hg : getN t a with _ | nd
      · rw [scanN_none t f a lo hi hg] at h
        cases h
      · rw [scanN_succ t f a lo hi nd hg] at h
        by_cases hl : nd.leaf = true
        · rw [if_pos hl] at h
          by_cases hck : leafCk nd lo hi = true
          · rw [if_pos hck] at h
            injection h with h'
            injection h' with hc h'
            injection h' with had hlv
            obtain ⟨_, hsort, hbnd, hlen⟩ := leafCk_dest hck
            subst hc
            subst had
            subst hlv
            refine ⟨⟨?_, ?_, ?_, ?_, ?_, ?_⟩, [], rfl⟩
            · rw [zip_map_fst hlen]
              exact hsort
            · rw [zip_map_fst hlen]
              exact hbnd
            · intro x hx
              rw [List.mem_singleton] at hx
              rw [hx]
              exact getN_lt hg
            · exact List.cons_ne_nil a []
            · exact List.Sublist.refl [a]
            · rw [leafConcat, hg, leafConcat]
              simp
          · rw [if_neg hck] at h
            cases h
        · rw [if_neg hl] at h
          rcases hk : scanKids t f nd.keys nd.children lo hi with _ | r0
          · rw [hk] at h
            have h' : (none : Option (List (Nat × V) × List Nat × List Nat)) =
              some (c, ad, lv) := h
            cases h'
          · rw [hk] at h
            have h' : some (r0.1, a :: r0.2.1, r0.2.2) = some (c, ad, lv) := h
            injection h' with h''
            injection h'' with hc h''
            injection h'' with had hlv
            rcases r0 with ⟨c0, ad0, lv0⟩
            obtain ⟨hsort, hbnd, harena, hlvne, hsub, hconc⟩ := ih.2 _ _ _ _ _ _ _ hk
            subst hc
            subst had
            subst hlv
            refine ⟨⟨hsort, hbnd, ?_, hlvne, ?_, hconc⟩, _, rfl⟩
            · intro x hx
              rcases List.mem_cons.mp hx with hx | hx
              · rw [hx]
                exact getN_lt hg
              · exact harena x hx
            · exact List.Sublist.cons a hsub
    refine ⟨hN, ?_⟩
    intro ks
    induction ks with
    | nil =>
      intro cs lo hi c ad lv h
      rcases cs with _ | ⟨c0, cs'⟩
      · rw [scanKids_nil_nil] at h
        cases h
      · rcases cs' with _ | ⟨c2, cs''⟩
        · rw [scanKids_nil_one] at h
          exact (hN _ _ _ _ _ _ h).1
        · rw [scanKids_nil_big] at h
          cases h
    | cons k ks' ihk =>
      intro cs lo hi c ad lv h
      rcases cs with _ | ⟨c0, cs'⟩
      · rw [scanKids_cons_nil] at h
        cases h
      · rw [scanKids_cons] at h
        rcases hcond : (loLT lo k && hiGT hi k) with _ | _ <;> rw [hcond] at h
        · have h' : (none : Option (List (Nat × V) × List Nat × List Nat)) =
            some (c, ad, lv) := h
          cases h'
        · rw [if_pos rfl] at h
          rw [Bool.and_eq_true] at hcond
          rcases h1 : scanN t (f + 1) c0 lo (some k) with _ | r1
          · rw [h1] at h
            have h' : (none : Option (List (Nat × V) × List Nat × List Nat)) =
              some (c, ad, lv) := h
            cases h'
          · rw [h1] at h
            have h2m : (match scanKids t (f + 1) ks' cs' (some k) hi with
                | none => none
                | some r2 => some (r1.1 ++ r2.1, r1.2.1 ++ r2.2.1, r1.2.2 ++ r2.2.2)) =
                some (c, ad, lv) := h
            rcases h2 : scanKids t (f + 1) ks' cs' (some k) hi with _ | r2
            · rw [h2] at h2m
              have h' : (none : Option (List (Nat × V) × List Nat × List Nat)) =
                some (c, ad, lv) := h2m
              cases h'
            · rw [h2] at h2m
              have h3 : some (r1.1 ++ r2.1, r1.2.1 ++ r2.2.1, r1.2.2 ++ r2.2.2) =
                some (c, ad, lv) := h2m
              injection h3 with h3'
              injection h3' with hc h3''
              injection h3'' with had hlv
              rcases r1 with ⟨c1, ad1, lv1⟩
              rcases r2 with ⟨c2, ad2, lv2⟩
              obtain ⟨⟨hs1, hb1, ha1, hn1, hsub1, hc1⟩, _⟩ := hN _ _ _ _ _ _ h1
              obtain ⟨hs2, hb2, ha2, hn2, hsub2, hc2⟩ := ihk _ _ _ _ _ _ h2
              subst hc
              subst had
              subst hlv
              refine ⟨?_, ?_, ?_, ?_, ?_, ?_⟩
              · rw [List.map_append, List.pairwise_append]
                refine ⟨hs1, hs2, ?_⟩
                intro x hx y hy
                have hx2 := (hb1 x hx).2
                have hy2 := (hb2 y hy).1
                simp only [hiGT, loLE, decide_eq_true_eq] at hx2 hy2
                omega
              · rw [List.map_append]
                intro x hx
                rcases List.mem_append.mp hx with hx | hx
                · exact ⟨(hb1 x hx).1, hiGT_trans (hb1 x hx).2 hcond.2⟩
                · exact ⟨loLE_trans hcond.1 (hb2 x hx).1, (hb2 x hx).2⟩
              · intro x hx
                rcases List.mem_append.mp hx with hx | hx
                · exact ha1 x hx
                · exact ha2 x hx
              · intro hc
                rcases List.append_eq_nil.mp hc with ⟨hc1', _⟩
                exact hn1 hc1'
              · exact List.Sublist.append hsub1 hsub2
              · exact leafConcat_append t hc1 hc2

end BTree

namespace BTree

theorem scan_leftmost {V : Type} (t : BPlusTree V) :
    ∀ fuel,
      (∀ a lo hi c ad lv, scanN t fuel a lo hi = some (c, ad, lv) →
        ∃ h0 tl, lv = h0 :: tl ∧ leftmost t fuel a = some h0) ∧
      (∀ ks cs lo hi c ad lv, scanKids t fuel ks cs lo hi = some (c, ad, lv) →
        ∃ h0 tl c0 cs0, lv = h0 :: tl ∧ cs = c0 :: cs0 ∧ leftmost t fuel c0 = some h0) := by
  intro fuel
  induction fuel with
  | zero =>
    constructor
    · intro a lo hi c ad lv h
      rw [scanN_zero] at h
      cases h
    · intro ks cs lo hi c ad lv h
      rcases ks with _ | ⟨k, ks'⟩ <;> rcases cs with _ | ⟨c0, cs'⟩
      · rw [scanKids_nil_nil] at h
        cases h
      · rcases cs' with _ | ⟨c2, cs''⟩
        · rw [scanKids_nil_one, scanN_zero] at h
          cases h
        · rw [scanKids_nil_big] at h
          cases h
      · rw [scanKids_cons_nil] at h
        cases h
      · rw [scanKids_cons, scanN_zero] at h
        rcases hcond : (loLT lo k && hiGT hi k) with _ | _ <;> rw [hcond] at h
        · have h' : (none : Option (List (Nat × V) × List Nat × List Nat)) =
            some (c, ad, lv) := h
          cases h'
        · have h' : (none : Option (List (Nat × V) × List Nat × List Nat)) =
            some (c, ad, lv) := h
          cases h'
  | succ f ih =>
    have hN : ∀ a lo hi c ad lv, scanN t (f + 1) a lo hi = some (c, ad, lv) →
        ∃ h0 tl, lv = h0 :: tl ∧ leftmost t (f + 1) a = some h0 := by
      intro a lo hi c ad lv h
      rcases hg : getN t a with _ | nd
      · rw [scanN_none t f a lo hi hg] at h
        cases h
      · rw [scanN_succ t f a lo hi nd hg] at h
        by_cases hl : nd.leaf = true
        · rw [if_pos hl] at h
          by_cases hck : leafCk nd lo hi = true
          · rw [if_pos hck] at h
            injection h with h'
            injection h' with hc h'
            injection h' with had hlv
            refine ⟨a, [], hlv.symm, ?_⟩
            rw [leftmost, hg]
            have hgoal : (if nd.leaf = true then some a
                else match nd.children[0]? with
                  | none => none
                  | some c2 => leftmost t f c2) = some a := by
              rw [if_pos hl]
            exact hgoal
          · rw [if_neg hck] at h
            cases h
        · rw [if_neg hl] at h
          rcases hk : scanKids t f nd.keys nd.children lo hi with _ | r0
          · rw [hk] at h
            have h' : (none : Option (List (Nat × V) × List Nat × List Nat)) =
              some (c, ad, lv) := h
            cases h'
          · rw [hk] at h
            have h' : some (r0.1, a :: r0.2.1, r0.2.2) = some (c, ad, lv) := h
            injection h' with h''
            injection h'' with hc h''
            injection h'' with had hlv
            rcases r0 with ⟨c0, ad0, lv0⟩
            obtain ⟨h0, tl, cc0, cs0, hlv0, hcs, hlm⟩ := ih.2 _ _ _ _ _ _ _ hk
            refine ⟨h0, tl, by rw [← hlv]; exact hlv0, ?_⟩
            rw [leftmost, hg]
            have hgoal : (if nd.leaf = true then some a
                else match nd.children[0]? with
                  | none => none
                  | some c2 => leftmost t f c2) = some h0 := by
              rw [if_neg hl, hcs, List.getElem?_cons_zero]
              exact hlm
            exact hgoal
    refine ⟨hN, ?_⟩
    intro ks
    induction ks with
    | nil =>
      intro cs lo hi c ad lv h
      rcases cs with _ | ⟨c0, cs'⟩
      · rw [scanKids_nil_nil] at h
        cases h
      · rcases cs' with _ | ⟨c2, cs''⟩
        · rw [scanKids_nil_one] at h
          obtain ⟨h0, tl, hlv, hlm⟩ := hN _ _ _ _ _ _ h
          exact ⟨h0, tl, c0, [], hlv, rfl, hlm⟩
        · rw [scanKids_nil_big] at h
          cases h
    | cons k ks' ihk =>
      intro cs lo hi c ad lv h
      rcases cs with _ | ⟨c0, cs'⟩
      · rw [scanKids_cons_nil] at h
        cases h
      · rw [scanKids_cons] at h
        rcases hcond : (loLT lo k && hiGT hi k) with _ | _ <;> rw [hcond] at h
        · have h' : (none : Option (List (Nat × V) × List Nat × List Nat)) =
            some (c, ad, lv) := h
          cases h'
        · rw [if_pos rfl] at h
          rcases h1 : scanN t (f + 1) c0 lo (some k) with _ | r1
          · rw [h1] at h
            have h' : (none : Option (List (Nat × V) × List Nat × List Nat)) =
              some (c, ad, lv) := h
            cases h'
          · rw [h1] at h
            have h2m : (match scanKids t (f + 1) ks' cs' (some k) hi with
                | none => none
                | some r2 => some (r1.1 ++ r2.1, r1.2.1 ++ r2.2.1, r1.2.2 ++ r2.2.2)) =
                some (c, ad, lv) := h
            rcases h2 : scanKids t (f + 1) ks' cs' (some k) hi with _ | r2
            · rw [h2] at h2m
              have h' : (none : Option (List (Nat × V) × List Nat × List Nat)) =
                some (c, ad, lv) := h2m
              cases h'
            · rw [h2] at h2m
              have h3 : some (r1.1 ++ r2.1, r1.2.1 ++ r2.2.1, r1.2.2 ++ r2.2.2) =
                some (c, ad, lv) := h2m
              injection h3 with h3'
              injection h3' with hc h3''
              injection h3'' with had hlv
              obtain ⟨h0, tl, hlv1, hlm⟩ := hN _ _ _ _ _ _ h1
              refine ⟨h0, tl ++ r2.2.2, c0, cs', ?_, rfl, hlm⟩
              rw [← hlv, hlv1]
              rfl

theorem chain_of_linked {V : Type} (t : BPlusTree V) :
    ∀ lv, linkedB t lv = true →
      ∀ fuel, lv.length < fuel →
      ∀ h0 tl, lv = h0 :: tl →
      ∀ cc, leafConcat t lv = some cc →
      chain_items t fuel (some h0) = some cc := by
  intro lv
  induction lv with
  | nil =>
    intro _ fuel _ h0 tl heq
    cases heq
  | cons a r ihr =>
    intro hlink fuel hfuel h0 tl heq cc hcc
    injection heq with h1 h2
    subst h1
    subst h2
    rcases fuel with _ | f
    · simp only [List.length_cons] at hfuel
      omega
    · rw [leafConcat] at hcc
      rcases hg : getN t a with _ | nd
      · rw [hg] at hcc
        cases hcc
      · rw [hg] at hcc
        have hcc' : (match leafConcat t r with
            | none => none
            | some rest => some (nd.keys.zip nd.values ++ rest)) = some cc := hcc
        rcases hr : leafConcat t r with _ | rest
        · rw [hr] at hcc'
          cases hcc'
        · rw [hr] at hcc'
          injection hcc' with hcc''
          rcases r with _ | ⟨b, tl'⟩
          · -- single leaf: next must be none
            rw [linkedB, hg] at hlink
            have hnext : nd.next = none := by
              have hlink' : (nd.next == none) = true := hlink
              simpa using hlink'
            have hstep : chain_items t (f + 1) (some a) =
                (match chain_items t f nd.next with
                 | none => none
                 | some rest2 => some (nd.keys.zip nd.values ++ rest2)) := by
              rw [chain_items, hg]
            rw [hnext] at hstep
            have hrest : rest = [] := by
              injection hr with h3
              exact h3.symm
            have hstep2 : chain_items t (f + 1) (some a) =
                some (nd.keys.zip nd.values ++ []) := by
              rw [hstep, chain_items]
            rw [hstep2, ← hcc'', hrest]
          · rw [linkedB, hg, Bool.and_eq_true] at hlink
            have hnext : nd.next = some b := by
              have h5 : (nd.next == some b) = true := hlink.1
              simpa using h5
            have hstep : chain_items t (f + 1) (some a) =
                (match chain_items t f nd.next with
                 | none => none
                 | some rest2 => some (nd.keys.zip nd.values ++ rest2)) := by
              rw [chain_items, hg]
            rw [hnext] at hstep
            have hlen : (b :: tl').length < f := by
              simp only [List.length_cons] at hfuel ⊢
              omega
            rw [ihr hlink.2 f hlen b tl' rfl rest hr] at hstep
            rw [hstep, ← hcc'']

theorem nodup_lt_bound {l : List Nat} {n : Nat} (hnd : l.Nodup) (hb : ∀ x ∈ l, x < n) :
    l.length ≤ n := by
  have h1 : l.toFinset.card = l.length := List.toFinset_card_of_nodup hnd
  have h2 : l.toFinset ⊆ Finset.range n := by
    intro x hx
    rw [Finset.mem_range]
    exact hb x (List.mem_toFinset.mp hx)
  have h3 := Finset.card_le_card h2
  rw [Finset.card_range] at h3
  omega

theorem WF_dest {V : Type} {t : BPlusTree V} (hwf : WF t) :
    ∃ c ad lv, scanRoot t = some (c, ad, lv) ∧ ad.Nodup ∧ linkedB t lv = true := by
  unfold WF WFb at hwf
  rcases hs : scanRoot t with _ | r
  · rw [hs] at hwf
    cases hwf
  · rw [hs] at hwf
    have hwf' : (decide r.2.1.Nodup && linkedB t r.2.2) = true := hwf
    rw [Bool.and_eq_true, decide_eq_true_eq] at hwf'
    exact ⟨r.1, r.2.1, r.2.2, rfl, hwf'.1, hwf'.2⟩

theorem WF_items {V : Type} {t : BPlusTree V} (hwf : WF t) :
    ∃ c ad lv, scanRoot t = some (c, ad, lv) ∧ items t = some c ∧
      (c.map Prod.fst).Pairwise (· < ·) := by
  obtain ⟨c, ad, lv, hs, hnd, hlink⟩ := WF_dest hwf
  obtain ⟨⟨hsort, _, harena, _, hsub, hconc⟩, _⟩ :=
    (scan_facts t (t.arena.length + 1)).1 _ _ _ _ _ _ hs
  obtain ⟨h0, tl, hlv, hlm⟩ := (scan_leftmost t (t.arena.length + 1)).1 _ _ _ _ _ _ hs
  refine ⟨c, ad, lv, hs, ?_, hsort⟩
  unfold items
  rw [hlm]
  have hlen : lv.length < t.arena.length + 1 := by
    have hnd2 : lv.Nodup := List.Nodup.sublist hsub hnd
    have hb : ∀ x ∈ lv, x < t.arena.length := fun x hx =>
      harena x (List.Sublist.mem hx hsub)
    have := nodup_lt_bound hnd2 hb
    omega
  exact chain_of_linked t lv hlink (t.arena.length + 1) hlen h0 tl hlv c hconc

end BTree

namespace BTree

theorem scan_frame {V : Type} (t t' : BPlusTree V) :
    ∀ fuel,
      (∀ a lo hi c ad lv, scanN t fuel a lo hi = some (c, ad, lv) →
        (∀ x ∈ ad, getN t' x = getN t x) →
        scanN t' fuel a lo hi = some (c, ad, lv)) ∧
      (∀ ks cs lo hi c ad lv, scanKids t fuel ks cs lo hi = some (c, ad, lv) →
        (∀ x ∈ ad, getN t' x = getN t x) →
        scanKids t' fuel ks cs lo hi = some (c, ad, lv)) := by
  intro fuel
  induction fuel with
  | zero =>
    constructor
    · intro a lo hi c ad lv h
      rw [scanN_zero] at h
      cases h
    · intro ks cs lo hi c ad lv h
      rcases ks with _ | ⟨k, ks'⟩ <;> rcases cs with _ | ⟨c0, cs'⟩
      · rw [scanKids_nil_nil] at h
        cases h
      · rcases cs' with _ | ⟨c2, cs''⟩
        · rw [scanKids_nil_one, scanN_zero] at h
          cases h
        · rw [scanKids_nil_big] at h
          cases h
      · rw [scanKids_cons_nil] at h
        cases h
      · rw [scanKids_cons, scanN_zero] at h
        rcases hcond : (loLT lo k && hiGT hi k) with _ | _ <;> rw [hcond] at h
        · have h' : (none : Option (List (Nat × V) × List Nat × List Nat)) =
            some (c, ad, lv) := h
          cases h'
        · have h' : (none : Option (List (Nat × V) × List Nat × List Nat)) =
            some (c, ad, lv) := h
          cases h'
  | succ f ih =>
    have hN : ∀ a lo hi c ad lv, scanN t (f + 1) a lo hi = some (c, ad, lv) →
        (∀ x ∈ ad, getN t' x = getN t x) →
        scanN t' (f + 1) a lo hi = some (c, ad, lv) := by
      intro a lo hi c ad lv h hframe
      rcases hg : getN t a with _ | nd
      · rw [scanN_none t f a lo hi hg] at h
        cases h
      · rw [scanN_succ t f a lo hi nd hg] at h
        have hada : ∃ ad', ad = a :: ad' := by
          by_cases hl : nd.leaf = true
          · rw [if_pos hl] at h
            by_cases hck : leafCk nd lo hi = true
            · rw [if_pos hck] at h
              injection h with h'
              injection h' with hc h'
              injection h' with had hlv
              exact ⟨[], had.symm⟩
            · rw [if_neg hck] at h
              cases h
          · rw [if_neg hl] at h
            rcases hk : scanKids t f nd.keys nd.children lo hi with _ | r0
            · rw [hk] at h
              have h' : (none : Option (List (Nat × V) × List Nat × List Nat)) =
                some (c, ad, lv) := h
              cases h'
            · rw [hk] at h
              have h' : some (r0.1, a :: r0.2.1, r0.2.2) = some (c, ad, lv) := h
              injection h' with h''
              injection h'' with hc h''
              injection h'' with had hlv
              exact ⟨r0.2.1, had.symm⟩
        obtain ⟨ad', had'⟩ := hada
        have hga : getN t' a = some nd := by
          rw [hframe a (by rw [had']; exact List.mem_cons_self _ _)]
          exact hg
        rw [scanN_succ t' f a lo hi nd hga]
        by_cases hl : nd.leaf = true
        · rw [if_pos hl] at h ⊢
          exact h
        · rw [if_neg hl] at h ⊢
          rcases hk : scanKids t f nd.keys nd.children lo hi with _ | r0
          · rw [hk] at h
            have h' : (none : Option (List (Nat × V) × List Nat × List Nat)) =
              some (c, ad, lv) := h
            cases h'
          · rw [hk] at h
            have h' : some (r0.1, a :: r0.2.1, r0.2.2) = some (c, ad, lv) := h
            have had2 : ad = a :: r0.2.1 := by
              injection h' with h''
              injection h'' with hc h''
              injection h'' with had hlv
              exact had.symm
            rcases r0 with ⟨c0, ad0, lv0⟩
            have hframe0 : ∀ x ∈ ad0, getN t' x = getN t x := by
              intro x hx
              refine hframe x ?_
              rw [had2]
              exact List.mem_cons_of_mem _ hx
            rw [ih.2 _ _ _ _ _ _ _ hk hframe0]
            exact h
    refine ⟨hN, ?_⟩
    intro ks
    induction ks with
    | nil =>
      intro cs lo hi c ad lv h hframe
      rcases cs with _ | ⟨c0, cs'⟩
      · rw [scanKids_nil_nil] at h
        cases h
      · rcases cs' with _ | ⟨c2, cs''⟩
        · rw [scanKids_nil_one] at h ⊢
          exact hN _ _ _ _ _ _ h hframe
        · rw [scanKids_nil_big] at h
          cases h
    | cons k ks' ihk =>
      intro cs lo hi c ad lv h hframe
      rcases cs with _ | ⟨c0, cs'⟩
      · rw [scanKids_cons_nil] at h
        cases h
      · rw [scanKids_cons] at h ⊢
        rcases hcond : (loLT lo k && hiGT hi k) with _ | _ <;> rw [hcond] at h
        · have h' : (none : Option (List (Nat × V) × List Nat × List Nat)) =
            some (c, ad, lv) := h
          cases h'
        · rw [if_pos rfl] at h ⊢
          rcases h1 : scanN t (f + 1) c0 lo (some k) with _ | r1
          · rw [h1] at h
            have h' : (none : Option (List (Nat × V) × List Nat × List Nat)) =
              some (c, ad, lv) := h
            cases h'
          · rw [h1] at h
            have h2m : (match scanKids t (f + 1) ks' cs' (some k) hi with
                | none => none
                | some r2 => some (r1.1 ++ r2.1, r1.2.1 ++ r2.2.1, r1.2.2 ++ r2.2.2)) =
                some (c, ad, lv) := h
            rcases h2 : scanKids t (f + 1) ks' cs' (some k) hi with _ | r2
            · rw [h2] at h2m
              have h' : (none : Option (List (Nat × V) × List Nat × List Nat)) =
                some (c, ad, lv) := h2m
              cases h'
            · rw [h2] at h2m
              have h3 : some (r1.1 ++ r2.1, r1.2.1 ++ r2.2.1, r1.2.2 ++ r2.2.2) =
                some (c, ad, lv) := h2m
              have had2 : ad = r1.2.1 ++ r2.2.1 := by
                injection h3 with h3'
                injection h3' with hc h3''
                injection h3'' with had hlv
                exact had.symm
              have hf1 : ∀ x ∈ r1.2.1, getN t' x = getN t x := by
                intro x hx
                refine hframe x ?_
                rw [had2]
                exact List.mem_append_left _ hx
              have hf2 : ∀ x ∈ r2.2.1, getN t' x = getN t x := by
                intro x hx
                refine hframe x ?_
                rw [had2]
                exact List.mem_append_right _ hx
              rcases r1 with ⟨c1, ad1, lv1⟩
              rcases r2 with ⟨c2r, ad2, lv2⟩
              rw [hN _ _ _ _ _ _ h1 hf1]
              have h4 : (match scanKids t' (f + 1) ks' cs' (some k) hi with
                  | none => none
                  | some r2 => some (c1 ++ r2.1, ad1 ++ r2.2.1, lv1 ++ r2.2.2)) =
                  some (c, ad, lv) := by
                rw [ihk _ _ _ _ _ _ h2 hf2]
                exact h3
              exact h4

theorem linkedB_frame {V : Type} (t t' : BPlusTree V) :
    ∀ lv, linkedB t lv = true →
      (∀ x ∈ lv, ∀ nd, getN t x = some nd →
        ∃ nd', getN t' x = some nd' ∧ nd'.next = nd.next) →
      linkedB t' lv = true := by
  intro lv
  induction lv with
  | nil =>
    intro _ _
    rfl
  | cons a r ihr =>
    intro hlink hframe
    rcases r with _ | ⟨b, r'⟩
    · rw [linkedB] at hlink ⊢
      rcases hg : getN t a with _ | nd
      · rw [hg] at hlink
        have h1 : (false : Bool) = true := hlink
        cases h1
      · rw [hg] at hlink
        obtain ⟨nd', hg', hnext'⟩ := hframe a (List.mem_singleton.mpr rfl) nd hg
        rw [hg']
        have hgoal : (nd'.next == none) = true := by
          rw [hnext']
          exact hlink
        exact hgoal
    · rw [linkedB] at hlink ⊢
      rw [Bool.and_eq_true] at hlink ⊢
      rcases hg : getN t a with _ | nd
      · rw [hg] at hlink
        rcases hlink with ⟨h1, _⟩
        have h1' : (false : Bool) = true := h1
        cases h1'
      · rw [hg] at hlink
        obtain ⟨nd', hg', hnext'⟩ := hframe a (List.mem_cons_self _ _) nd hg
        constructor
        · rw [hg']
          have hgoal : (nd'.next == some b) = true := by
            rw [hnext']
            exact hlink.1
          exact hgoal
        · refine ihr hlink.2 ?_
          intro x hx nd2 hnd2
          exact hframe x (List.mem_cons_of_mem _ hx) nd2 hnd2

end BTree

namespace BTree

theorem hiGT_some {k x : Nat} : hiGT (some k) x = true ↔ x < k := by
  simp [hiGT]

theorem loLE_some {k x : Nat} : loLE (some k) x = true ↔ k ≤ x := by
  simp [loLE]

theorem loLT_some {k x : Nat} : loLT (some k) x = true ↔ k < x := by
  simp [loLT]

theorem loLT_lt {lo : Option Nat} {k k' : Nat} (h1 : loLT lo k = true) (h2 : k < k') :
    loLT lo k' = true := by
  cases lo with
  | none => rfl
  | some l =>
    rw [loLT_some] at h1 ⊢
    omega

theorem scanKids_seps {V : Type} (t : BPlusTree V) (fuel : Nat) :
    ∀ ks cs lo hi r, scanKids t fuel ks cs lo hi = some r →
      ∀ k' ∈ ks, loLT lo k' = true ∧ hiGT hi k' = true := by
  intro ks
  induction ks with
  | nil =>
    intro cs lo hi r _ k' hk'
    cases hk'
  | cons k ks' ihk =>
    intro cs lo hi r h k' hk'
    rcases cs with _ | ⟨c0, cs'⟩
    · rw [scanKids_cons_nil] at h
      cases h
    · rw [scanKids_cons] at h
      rcases hcond : (loLT lo k && hiGT hi k) with _ | _ <;> rw [hcond] at h
      · have h' : (none : Option (List (Nat × V) × List Nat × List Nat)) = some r := h
        cases h'
      · rw [if_pos rfl] at h
        rw [Bool.and_eq_true] at hcond
        rcases h1 : scanN t fuel c0 lo (some k) with _ | r1
        · rw [h1] at h
          have h' : (none : Option (List (Nat × V) × List Nat × List Nat)) = some r := h
          cases h'
        · rw [h1] at h
          have h2m : (match scanKids t fuel ks' cs' (some k) hi with
              | none => none
              | some r2 => some (r1.1 ++ r2.1, r1.2.1 ++ r2.2.1, r1.2.2 ++ r2.2.2)) =
              some r := h
          rcases h2 : scanKids t fuel ks' cs' (some k) hi with _ | r2
          · rw [h2] at h2m
            have h' : (none : Option (List (Nat × V) × List Nat × List Nat)) = some r := h2m
            cases h'
          · rcases List.mem_cons.mp hk' with hke | hkm
            · rw [hke]
              exact ⟨hcond.1, hcond.2⟩
            · obtain ⟨hl, hh⟩ := ihk cs' (some k) hi r2 h2 k' hkm
              rw [loLT_some] at hl
              exact ⟨loLT_lt hcond.1 hl, hh⟩

end BTree

namespace BTree

theorem bisect_nil (key : Nat) : bisect_right [] key = 0 := by
  simp [bisect_right]

theorem bisect_cons (k : Nat) (ks : List Nat) (key : Nat) :
    bisect_right (k :: ks) key = bisect_right ks key + (if k ≤ key then 1 else 0) := by
  simp [bisect_right, List.countP_cons]

theorem scan_find_replace {V : Type} (t : BPlusTree V) (key : Nat) :
    ∀ fuel,
      (∀ a lo hi c ad lv, scanN t fuel a lo hi = some (c, ad, lv) →
        ad.Nodup → loLE lo key = true → hiGT hi key = true →
        ∃ la, find_leaf_aux t key fuel a = some la ∧ la ∈ ad ∧
          FLCore t key c ad lv (fun t2 => scanN t2 fuel a lo hi) la) ∧
      (∀ ks cs lo hi c ad lv, scanKids t fuel ks cs lo hi = some (c, ad, lv) →
        ad.Nodup → loLE lo key = true → hiGT hi key = true →
        ∃ cj la, cs[bisect_right ks key]? = some cj ∧
          find_leaf_aux t key fuel cj = some la ∧ la ∈ ad ∧
          FLCore t key c ad lv (fun t2 => scanKids t2 fuel ks cs lo hi) la) := by
  intro fuel
  induction fuel with
  | zero =>
    constructor
    · intro a lo hi c ad lv h
      rw [scanN_zero] at h
      cases h
    · intro ks cs lo hi c ad lv h
      rcases ks with _ | ⟨k, ks'⟩ <;> rcases cs with _ | ⟨c0, cs'⟩
      · rw [scanKids_nil_nil] at h
        cases h
      · rcases cs' with _ | ⟨c2, cs''⟩
        · rw [scanKids_nil_one, scanN_zero] at h
          cases h
        · rw [scanKids_nil_big] at h
          cases h
      · rw [scanKids_cons_nil] at h
        cases h
      · rw [scanKids_cons, scanN_zero] at h
        rcases hcond : (loLT lo k && hiGT hi k) with _ | _ <;> rw [hcond] at h
        · have h' : (none : Option (List (Nat × V) × List Nat × List Nat)) =
            some (c, ad, lv) := h
          cases h'
        · have h' : (none : Option (List (Nat × V) × List Nat × List Nat)) =
            some (c, ad, lv) := h
          cases h'
  | succ f ih =>
    have hN : ∀ a lo hi c ad lv, scanN t (f + 1) a lo hi = some (c, ad, lv) →
        ad.Nodup → loLE lo key = true → hiGT hi key = true →
        ∃ la, find_leaf_aux t key (f + 1) a = some la ∧ la ∈ ad ∧
          FLCore t key c ad lv (fun t2 => scanN t2 (f + 1) a lo hi) la := by
      intro a lo hi c ad lv h hnd hlo hhi
      rcases hg : getN t a with _ | nd
      · rw [scanN_none t f a lo hi hg] at h
        cases h
      · rw [scanN_succ t f a lo hi nd hg] at h
        by_cases hl : nd.leaf = true
        · rw [if_pos hl] at h
          by_cases hck : leafCk nd lo hi = true
          · rw [if_pos hck] at h
            injection h with h'
            injection h' with hc h'
            injection h' with had hlv
            have hfla : find_leaf_aux t key (f + 1) a = some a := by
              simp only [find_leaf_aux]
              rw [hg]
              have hgoal : (if nd.leaf = true then some a
                  else match nd.children[bisect_right nd.keys key]? with
                    | none => none
                    | some c2 => find_leaf_aux t key f c2) = some a := by
                rw [if_pos hl]
              exact hgoal
            refine ⟨a, hfla, by rw [← had]; exact List.mem_cons_self _ _,
              nd, lo, hi, [], [], hg, hlo, hhi, hck, ?_, ?_, ?_, ?_⟩
            · rw [← hc]
              simp
            · intro x hx
              cases hx
            · intro x hx
              cases hx
            · intro nd' hck'
              beta_reduce
              have hga' : getN (setN t a nd') a = some nd' := getN_setN_self nd' hg
              rw [scanN_succ _ f a lo hi nd' hga']
              have hl' : nd'.leaf = true := (leafCk_dest hck').1
              rw [if_pos hl', if_pos hck']
              rw [← had, ← hlv]
              simp
          · rw [if_neg hck] at h
            cases h
        · rw [if_neg hl] at h
          rcases hk : scanKids t f nd.keys nd.children lo hi with _ | r0
          · rw [hk] at h
            have h' : (none : Option (List (Nat × V) × List Nat × List Nat)) =
              some (c, ad, lv) := h
            cases h'
          · rw [hk] at h
            have h' : some (r0.1, a :: r0.2.1, r0.2.2) = some (c, ad, lv) := h
            injection h' with h''
            injection h'' with hc h''
            injection h'' with had hlv
            rcases r0 with ⟨c0k, adk, lvk⟩
            have hndk : adk.Nodup := by
              rw [← had] at hnd
              exact (List.nodup_cons.mp hnd).2
            have hanotin : a ∉ adk := by
              rw [← had] at hnd
              exact (List.nodup_cons.mp hnd).1
            obtain ⟨cj, la, hcj, hfla, hlain, ndl, lo', hi', pre, post,
              hgl, hlo', hhi', hckl, hceq, hpre, hpost, hrepl⟩ :=
              ih.2 _ _ _ _ _ _ _ hk hndk hlo hhi
            have hfl2 : find_leaf_aux t key (f + 1) a = some la := by
              simp only [find_leaf_aux]
              rw [hg]
              have hgoal : (if nd.leaf = true then some a
                  else match nd.children[bisect_right nd.keys key]? with
                    | none => none
                    | some c2 => find_leaf_aux t key f c2) = some la := by
                rw [if_neg hl, hcj]
                exact hfla
              exact hgoal
            refine ⟨la, hfl2, by rw [← had]; exact List.mem_cons_of_mem _ hlain,
              ndl, lo', hi', pre, post, hgl, hlo', hhi', hckl, by rw [← hc]; exact hceq,
              hpre, hpost, ?_⟩
            intro nd' hck'
            beta_reduce
            have hla_ne : a ≠ la := by
              intro hcc
              rw [hcc] at hanotin
              exact hanotin hlain
            have hga2 : getN (setN t la nd') a = some nd :=
              (getN_setN_ne t la nd' hla_ne).trans hg
            rw [scanN_succ _ f a lo hi nd hga2, if_neg hl]
            have hrw := hrepl nd' hck'
            simp only at hrw
            rw [hrw]
            rw [← had, ← hlv]
    refine ⟨hN, ?_⟩
    intro ks
    induction ks with
    | nil =>
      intro cs lo hi c ad lv h hnd hlo hhi
      rcases cs with _ | ⟨c0, cs'⟩
      · rw [scanKids_nil_nil] at h
        cases h
      · rcases cs' with _ | ⟨c2, cs''⟩
        · rw [scanKids_nil_one] at h
          obtain ⟨la, hfla, hlain, ndl, lo', hi', pre, post,
            hgl, hlo', hhi', hckl, hceq, hpre, hpost, hrepl⟩ := hN _ _ _ _ _ _ h hnd hlo hhi
          refine ⟨c0, la, ?_, hfla, hlain,
            ndl, lo', hi', pre, post, hgl, hlo', hhi', hckl, hceq, hpre, hpost, ?_⟩
          · rw [bisect_nil]
            exact List.getElem?_cons_zero
          · intro nd' hck'
            beta_reduce
            rw [scanKids_nil_one]
            exact hrepl nd' hck'
        · rw [scanKids_nil_big] at h
          cases h
    | cons k ks' ihk =>
      intro cs lo hi c ad lv h hnd hlo hhi
      rcases cs with _ | ⟨c0, cs'⟩
      · rw [scanKids_cons_nil] at h
        cases h
      · rw [scanKids_cons] at h
        rcases hcond : (loLT lo k && hiGT hi k) with _ | _ <;> rw [hcond] at h
        · have h' : (none : Option (List (Nat × V) × List Nat × List Nat)) =
            some (c, ad, lv) := h
          cases h'
        · rw [if_pos rfl] at h
          have hcondT : (loLT lo k && hiGT hi k) = true := hcond
          rw [Bool.and_eq_true] at hcondT
          rcases h1 : scanN t (f + 1) c0 lo (some k) with _ | r1
          · rw [h1] at h
            have h' : (none : Option (List (Nat × V) × List Nat × List Nat)) =
              some (c, ad, lv) := h
            cases h'
          · rw [h1] at h
            have h2m : (match scanKids t (f + 1) ks' cs' (some k) hi with
                | none => none
                | some r2 => some (r1.1 ++ r2.1, r1.2.1 ++ r2.2.1, r1.2.2 ++ r2.2.2)) =
                some (c, ad, lv) := h
            rcases h2 : scanKids t (f + 1) ks' cs' (some k) hi with _ | r2
            · rw [h2] at h2m
              have h' : (none : Option (List (Nat × V) × List Nat × List Nat)) =
                some (c, ad, lv) := h2m
              cases h'
            · rw [h2] at h2m
              have h3 : some (r1.1 ++ r2.1, r1.2.1 ++ r2.2.1, r1.2.2 ++ r2.2.2) =
                some (c, ad, lv) := h2m
              injection h3 with h3'
              injection h3' with hc h3''
              injection h3'' with had hlv
              rcases r1 with ⟨c1, ad1, lv1⟩
              rcases r2 with ⟨c2c, ad2, lv2⟩
              have hndparts := List.nodup_append.mp (had ▸ hnd)
              obtain ⟨hnd1, hnd2, hdisj⟩ := hndparts
              by_cases hklt : key < k
              · -- descend into the first child
                have hhiK' : hiGT (some k) key = true := hiGT_some.mpr hklt
                obtain ⟨la, hfla, hlain, ndl, lo', hi', pre1, post1,
                  hgl, hlo', hhi', hckl, hceq, hpre, hpost, hrepl⟩ :=
                  hN _ _ _ _ _ _ h1 hnd1 hlo hhiK'
                have hbz : bisect_right (k :: ks') key = 0 := by
                  unfold bisect_right
                  rw [List.countP_eq_zero]
                  intro x hx
                  simp only [decide_eq_true_eq]
                  rcases List.mem_cons.mp hx with hxe | hxm
                  · omega
                  · have hsep := (scanKids_seps t (f + 1) ks' cs' (some k) hi _ h2 x hxm).1
                    rw [loLT_some] at hsep
                    omega
                have hfacts2 := (scan_facts t (f + 1)).2 _ _ _ _ _ _ _ h2
                refine ⟨c0, la, by rw [hbz]; exact List.getElem?_cons_zero, hfla,
                  by rw [← had]; exact List.mem_append_left _ hlain,
                  ndl, lo', hi', pre1, post1 ++ c2c, hgl, hlo', hhi', hckl, ?_, hpre, ?_, ?_⟩
                · rw [← hc, hceq]
                  simp [List.append_assoc]
                · intro x hx
                  rw [List.map_append] at hx
                  rcases List.mem_append.mp hx with hx | hx
                  · exact hpost x hx
                  · have := (hfacts2.2.1 x hx).1
                    rw [loLE_some] at this
                    omega
                · intro nd' hck'
                  beta_reduce
                  have hrw := hrepl nd' hck'
                  simp only at hrw
                  have hlanot2 : la ∉ ad2 := fun hcc => hdisj hlain hcc
                  have hfr2 : scanKids (setN t la nd') (f + 1) ks' cs' (some k) hi =
                      some (c2c, ad2, lv2) := by
                    refine (scan_frame t _ (f + 1)).2 _ _ _ _ _ _ _ h2 ?_
                    intro x hx
                    exact getN_setN_ne t la nd' (fun hcc => hlanot2 (hcc ▸ hx))
                  have hfull : scanKids (setN t la nd') (f + 1) (k :: ks') (c0 :: cs')
                      lo hi = some ((pre1 ++ nd'.keys.zip nd'.values ++ post1) ++ c2c,
                        ad1 ++ ad2, lv1 ++ lv2) := by
                    rw [scanKids_cons, hcond, if_pos rfl, hrw]
                    have hfin : (match scanKids (setN t la nd') (f + 1) ks' cs'
                          (some k) hi with
                        | none => none
                        | some r2 => some ((pre1 ++ nd'.keys.zip nd'.values ++ post1) ++
                            r2.1, ad1 ++ r2.2.1, lv1 ++ r2.2.2)) =
                        some ((pre1 ++ nd'.keys.zip nd'.values ++ post1) ++ c2c,
                          ad1 ++ ad2, lv1 ++ lv2) := by
                      rw [hfr2]
                    exact hfin
                  rw [hfull, ← had, ← hlv]
                  simp [List.append_assoc]
              · -- descend to the right of the separator
                have hloK' : loLE (some k) key = true := loLE_some.mpr (by omega)
                obtain ⟨cj, la, hcj, hfla, hlain, ndl, lo', hi', pre2, post2,
                  hgl, hlo', hhi', hckl, hceq, hpre, hpost, hrepl⟩ :=
                  ihk _ _ _ _ _ _ h2 hnd2 hloK' hhi
                have hbs : bisect_right (k :: ks') key = bisect_right ks' key + 1 := by
                  rw [bisect_cons]
                  rw [if_pos (by omega)]
                have hfacts1 := (scan_facts t (f + 1)).1 _ _ _ _ _ _ h1
                refine ⟨cj, la, ?_, hfla,
                  by rw [← had]; exact List.mem_append_right _ hlain,
                  ndl, lo', hi', c1 ++ pre2, post2, hgl, hlo', hhi', hckl, ?_, ?_, hpost, ?_⟩
                · rw [hbs, List.getElem?_cons_succ]
                  exact hcj
                · rw [← hc, hceq]
                  simp [List.append_assoc]
                · intro x hx
                  rw [List.map_append] at hx
                  rcases List.mem_append.mp hx with hx | hx
                  · have := (hfacts1.1.2.1 x hx).2
                    rw [hiGT_some] at this
                    omega
                  · exact hpre x hx
                · intro nd' hck'
                  beta_reduce
                  have hrw := hrepl nd' hck'
                  simp only at hrw
                  have hlanot1 : la ∉ ad1 := fun hcc => hdisj hcc hlain
                  have hfr1 : scanN (setN t la nd') (f + 1) c0 lo (some k) =
                      some (c1, ad1, lv1) := by
                    refine (scan_frame t _ (f + 1)).1 _ _ _ _ _ _ h1 ?_
                    intro x hx
                    exact getN_setN_ne t la nd' (fun hcc => hlanot1 (hcc ▸ hx))
                  have hfull : scanKids (setN t la nd') (f + 1) (k :: ks') (c0 :: cs')
                      lo hi = some (c1 ++ (pre2 ++ nd'.keys.zip nd'.values ++ post2),
                        ad1 ++ ad2, lv1 ++ lv2) := by
                    rw [scanKids_cons, hcond, if_pos rfl, hfr1]
                    have hfin : (match scanKids (setN t la nd') (f + 1) ks' cs'
                          (some k) hi with
                        | none => none
                        | some r2 => some (c1 ++ r2.1, ad1 ++ r2.2.1, lv1 ++ r2.2.2)) =
                        some (c1 ++ (pre2 ++ nd'.keys.zip nd'.values ++ post2),
                          ad1 ++ ad2, lv1 ++ lv2) := by
                      rw [hrw]
                    exact hfin
                  rw [hfull, ← had, ← hlv]
                  simp [List.append_assoc]

end BTree

namespace BTree

open DHTSpec

theorem insort_nil (k : Nat) : insort [] k = [k] := by
  simp [insort]

theorem insort_cons (a : Nat) (l : List Nat) (k : Nat) :
    insort (a :: l) k = if a ≤ k then a :: insort l k else k :: a :: l := by
  by_cases h : a ≤ k
  · rw [if_pos h]
    unfold insort
    rw [List.takeWhile_cons, List.dropWhile_cons]
    simp [h]
  · rw [if_neg h]
    unfold insort
    rw [List.takeWhile_cons, List.dropWhile_cons]
    simp [h]

theorem insort_mem {l : List Nat} {k x : Nat} :
    x ∈ insort l k ↔ x = k ∨ x ∈ l := by
  induction l with
  | nil =>
    rw [insort_nil]
    simp
  | cons a l ih =>
    rw [insort_cons]
    by_cases h : a ≤ k
    · rw [if_pos h]
      simp only [List.mem_cons, ih]
      tauto
    · rw [if_neg h]
      simp only [List.mem_cons]

theorem insort_length {l : List Nat} {k : Nat} :
    (insort l k).length = l.length + 1 := by
  induction l with
  | nil =>
    rw [insort_nil]
    rfl
  | cons a l ih =>
    rw [insort_cons]
    by_cases h : a ≤ k
    · rw [if_pos h]
      simp [ih]
    · rw [if_neg h]
      simp

theorem insort_pairwise {l : List Nat} {k : Nat} (hs : l.Pairwise (· < ·))
    (hnm : k ∉ l) : (insort l k).Pairwise (· < ·) := by
  induction l with
  | nil =>
    rw [insort_nil]
    exact List.pairwise_singleton _ _
  | cons a l ih =>
    rw [insort_cons]
    rw [List.pairwise_cons] at hs
    by_cases h : a ≤ k
    · rw [if_pos h]
      rw [List.pairwise_cons]
      constructor
      · intro x hx
        rcases insort_mem.mp hx with hxe | hxm
        · have hka : k ≠ a := fun hc => hnm (hc ▸ List.mem_cons_self _ _)
          omega
        · exact hs.1 x hxm
      · exact ih hs.2 (fun hc => hnm (List.mem_cons_of_mem _ hc))
    · rw [if_neg h]
      rw [List.pairwise_cons]
      constructor
      · intro x hx
        rcases List.mem_cons.mp hx with hxe | hxm
        · omega
        · have := hs.1 x hxm
          omega
      · exact List.pairwise_cons.mpr hs

theorem insort_zip_insKV {V : Type} :
    ∀ (keys : List Nat) (values : List V) (k : Nat) (v : V),
      keys.Pairwise (· < ·) → k ∉ keys → values.length = keys.length →
      (insort keys k).zip (values.insertIdx ((insort keys k).indexOf k) v) =
        insKV k v (keys.zip values) := by
  intro keys
  induction keys with
  | nil =>
    intro values k v _ _ hlen
    have hv : values = [] := List.length_eq_zero.mp (by simpa using hlen)
    subst hv
    rw [insort_nil]
    simp [insKV, List.indexOf_cons_self]
  | cons a ks ih =>
    intro values k v hs hnm hlen
    rcases values with _ | ⟨w, vs⟩
    · simp at hlen
    · have hka : a ≠ k := fun hc => hnm (hc ▸ List.mem_cons_self _ _)
      rw [insort_cons]
      by_cases h : a ≤ k
      · rw [if_pos h]
        have hidx : (a :: insort ks k).indexOf k = (insort ks k).indexOf k + 1 :=
          List.indexOf_cons_ne _ hka
        rw [hidx]
        have hstep : (w :: vs).insertIdx ((insort ks k).indexOf k + 1) v =
            w :: vs.insertIdx ((insort ks k).indexOf k) v := rfl
        rw [hstep]
        have hzip : (a :: insort ks k).zip (w :: vs.insertIdx ((insort ks k).indexOf k) v) =
            (a, w) :: (insort ks k).zip (vs.insertIdx ((insort ks k).indexOf k) v) := rfl
        rw [hzip]
        rw [ih vs k v (List.pairwise_cons.mp hs).2
          (fun hc => hnm (List.mem_cons_of_mem _ hc)) (by simpa using hlen)]
        have hzip2 : (a :: ks).zip (w :: vs) = (a, w) :: ks.zip vs := rfl
        rw [hzip2]
        simp only [insKV]
        rw [if_neg (by omega), if_neg (by omega)]
      · rw [if_neg h]
        have hidx : (k :: a :: ks).indexOf k = 0 := List.indexOf_cons_self _ _
        rw [hidx]
        have hstep : (w :: vs).insertIdx 0 v = v :: w :: vs := rfl
        rw [hstep]
        have hzip : (k :: a :: ks).zip (v :: w :: vs) = (k, v) :: (a :: ks).zip (w :: vs) := rfl
        rw [hzip]
        have hzip2 : (a :: ks).zip (w :: vs) = (a, w) :: ks.zip vs := rfl
        rw [hzip2]
        simp only [insKV]
        rw [if_pos (by omega)]

theorem set_zip_insKV {V : Type} :
    ∀ (keys : List Nat) (values : List V) (k : Nat) (v : V),
      keys.Pairwise (· < ·) → k ∈ keys → values.length = keys.length →
      keys.zip (values.set (keys.indexOf k) v) = insKV k v (keys.zip values) := by
  intro keys
  induction keys with
  | nil =>
    intro values k v _ hmem _
    cases hmem
  | cons a ks ih =>
    intro values k v hs hmem hlen
    rcases values with _ | ⟨w, vs⟩
    · simp at hlen
    · by_cases hak : a = k
      · subst hak
        rw [List.indexOf_cons_self]
        have hset : (w :: vs).set 0 v = v :: vs := rfl
        rw [hset]
        have hzip : (a :: ks).zip (v :: vs) = (a, v) :: ks.zip vs := rfl
        rw [hzip]
        have hzip2 : (a :: ks).zip (w :: vs) = (a, w) :: ks.zip vs := rfl
        rw [hzip2]
        simp only [insKV]
        simp
      · have hmem' : k ∈ ks := by
          rcases List.mem_cons.mp hmem with hc | hc
          · exact absurd hc.symm hak
          · exact hc
        have hak2 : a < k := (List.pairwise_cons.mp hs).1 k hmem'
        rw [List.indexOf_cons_ne _ hak]
        have hset : (w :: vs).set (ks.indexOf k + 1) v = w :: vs.set (ks.indexOf k) v := rfl
        rw [hset]
        have hzip : (a :: ks).zip (w :: vs.set (ks.indexOf k) v) =
            (a, w) :: ks.zip (vs.set (ks.indexOf k) v) := rfl
        rw [hzip]
        rw [ih vs k v (List.pairwise_cons.mp hs).2 hmem' (by simpa using hlen)]
        have hzip2 : (a :: ks).zip (w :: vs) = (a, w) :: ks.zip vs := rfl
        rw [hzip2]
        simp only [insKV]
        rw [if_neg (by omega), if_neg (by omega)]

theorem insKV_append_left {V : Type} (k : Nat) (v : V) :
    ∀ (A B : List (Nat × V)), (∀ x ∈ A.map Prod.fst, x < k) →
      insKV k v (A ++ B) = A ++ insKV k v B := by
  intro A
  induction A with
  | nil =>
    intro B _
    simp
  | cons p A' ih =>
    intro B hA
    have hp : p.1 < k := hA p.1 (by simp)
    rcases p with ⟨k', v'⟩
    rw [List.cons_append]
    simp only [insKV]
    rw [if_neg (by simp at hp; omega), if_neg (by simp at hp; omega)]
    rw [ih B (fun x hx => hA x (by simp at hx ⊢; exact Or.inr hx))]
    rfl

theorem insKV_append_right {V : Type} (k : Nat) (v : V) :
    ∀ (A B : List (Nat × V)), (∀ x ∈ B.map Prod.fst, k < x) →
      insKV k v (A ++ B) = insKV k v A ++ B := by
  intro A
  induction A with
  | nil =>
    intro B hB
    rcases B with _ | ⟨⟨k', v'⟩, B'⟩
    · rfl
    · have hk' : k < k' := hB k' (by simp)
      simp only [List.nil_append, insKV]
      rw [if_pos hk']
      simp [insKV]
  | cons p A' ih =>
    intro B hB
    rcases p with ⟨k', v'⟩
    rw [List.cons_append]
    simp only [insKV]
    by_cases h1 : k < k'
    · rw [if_pos h1, if_pos h1]
      rfl
    · rw [if_neg h1, if_neg h1]
      by_cases h2 : k = k'
      · rw [if_pos h2, if_pos h2]
        rfl
      · rw [if_neg h2, if_neg h2]
        rw [ih B hB]
        rfl

theorem insKV_dget {V : Type} (k : Nat) (v : V) :
    ∀ c : List (Nat × V), dget (insKV k v c) k = some v := by
  intro c
  induction c with
  | nil =>
    simp [insKV, dget, List.find?]
  | cons p c' ih =>
    rcases p with ⟨k', v'⟩
    simp only [insKV]
    by_cases h1 : k < k'
    · rw [if_pos h1]
      simp [dget, List.find?]
    · rw [if_neg h1]
      by_cases h2 : k = k'
      · rw [if_pos h2]
        simp [dget, List.find?]
      · rw [if_neg h2]
        unfold dget at ih ⊢
        rw [List.find?]
        have hne : ((k', v').1 == k) = false := beq_eq_false_iff_ne.mpr (Ne.symm h2)
        rw [hne]
        exact ih

theorem insKV_filter {V : Type} (k : Nat) (v : V) :
    ∀ c : List (Nat × V), (c.map Prod.fst).Pairwise (· < ·) →
      (insKV k v c).filter (fun kv => kv.1 == k) = [(k, v)] := by
  intro c
  induction c with
  | nil =>
    intro _
    simp [insKV, List.filter]
  | cons p c' ih =>
    rcases p with ⟨k', v'⟩
    intro hs
    rw [List.map_cons, List.pairwise_cons] at hs
    have hnone : c'.filter (fun kv => kv.1 == k) = [] ∨ True := Or.inr trivial
    simp only [insKV]
    by_cases h1 : k < k'
    · rw [if_pos h1]
      rw [List.filter_cons, List.filter_cons]
      rw [if_pos (by simp), if_neg (by simp; omega)]
      rw [List.filter_eq_nil.mpr]
      intro kv hkv
      have := hs.1 kv.1 (List.mem_map_of_mem Prod.fst hkv)
      simp
      omega
    · rw [if_neg h1]
      by_cases h2 : k = k'
      · rw [if_pos h2]
        rw [List.filter_cons]
        rw [if_pos (by simp)]
        rw [List.filter_eq_nil.mpr]
        intro kv hkv
        have := hs.1 kv.1 (List.mem_map_of_mem Prod.fst hkv)
        simp
        omega
      · rw [if_neg h2]
        rw [List.filter_cons]
        rw [if_neg (by simp; omega)]
        exact ih hs.2

theorem dget_append_skip {V : Type} (k : Nat) :
    ∀ (A B : List (Nat × V)), k ∉ A.map Prod.fst →
      dget (A ++ B) k = dget B k := by
  intro A
  induction A with
  | nil =>
    intro B _
    rfl
  | cons p A' ih =>
    intro B hA
    rcases p with ⟨k', v'⟩
    have hne : k' ≠ k := by
      intro hc
      exact hA (by simp [hc])
    rw [List.cons_append]
    unfold dget
    rw [List.find?]
    have hb : ((k', v').1 == k) = false := beq_eq_false_iff_ne.mpr hne
    rw [hb]
    exact ih B (fun hc => hA (by simp at hc ⊢; exact Or.inr hc))

theorem dget_append_found {V : Type} (k : Nat) {v : V} :
    ∀ (A B : List (Nat × V)), dget A k = some v →
      dget (A ++ B) k = some v := by
  intro A
  induction A with
  | nil =>
    intro B h
    cases h
  | cons p A' ih =>
    intro B h
    rcases p with ⟨k', v'⟩
    unfold dget at h ⊢
    rw [List.find?] at h
    rw [List.cons_append, List.find?]
    rcases hb : ((k', v').1 == k) with _ | _
    · rw [hb] at h
      exact ih B h
    · rw [hb] at h
      exact h

theorem dget_zip_found {V : Type} :
    ∀ (keys : List Nat) (values : List V) (k : Nat),
      k ∈ keys → values.length = keys.length →
      ∃ v, values[keys.indexOf k]? = some v ∧ dget (keys.zip values) k = some v := by
  intro keys
  induction keys with
  | nil =>
    intro values k hmem _
    cases hmem
  | cons a ks ih =>
    intro values k hmem hlen
    rcases values with _ | ⟨w, vs⟩
    · simp at hlen
    · by_cases hak : a = k
      · subst hak
        rw [List.indexOf_cons_self]
        refine ⟨w, List.getElem?_cons_zero, ?_⟩
        simp [dget, List.find?]
      · have hmem' : k ∈ ks := by
          rcases List.mem_cons.mp hmem with hc | hc
          · exact absurd hc.symm hak
          · exact hc
        obtain ⟨v, hv1, hv2⟩ := ih vs k hmem' (by simpa using hlen)
        rw [List.indexOf_cons_ne _ hak]
        refine ⟨v, by rw [List.getElem?_cons_succ]; exact hv1, ?_⟩
        have hzip : (a :: ks).zip (w :: vs) = (a, w) :: ks.zip vs := rfl
        rw [hzip]
        unfold dget at hv2 ⊢
        rw [List.find?]
        have hb : ((a, w).1 == k) = false := beq_eq_false_iff_ne.mpr hak
        rw [hb]
        exact hv2

end BTree

namespace BTree

theorem scanVN_zero {V : Type} (t : BPlusTree V) (ch K nb a : Nat) (lo hi : Option Nat) :
    scanVN t ch K nb 0 a lo hi = none := by
  simp only [scanVN]

theorem scanVN_none {V : Type} (t : BPlusTree V) (ch K nb f a : Nat) (lo hi : Option Nat)
    (hg : getN t a = none) : scanVN t ch K nb (f + 1) a lo hi = none := by
  simp only [scanVN]
  rw [hg]

theorem scanVN_succ {V : Type} (t : BPlusTree V) (ch K nb f a : Nat) (lo hi : Option Nat)
    (nd : BPlusTreeNode V) (hg : getN t a = some nd) :
    scanVN t ch K nb (f + 1) a lo hi =
      if nd.leaf then
        if leafCk nd lo hi then some (nd.keys.zip nd.values, [a], [a]) else none
      else
        match scanKidsV t ch K nb f nd.keys nd.children lo hi with
        | none => none
        | some r => some (r.1, a :: r.2.1, r.2.2) := by
  simp only [scanVN]
  rw [hg]

theorem scanKidsV_nil_nil {V : Type} (t : BPlusTree V) (ch K nb fuel : Nat)
    (lo hi : Option Nat) : scanKidsV t ch K nb fuel [] ([] : List Nat) lo hi = none := by
  simp only [scanKidsV]

theorem scanKidsV_nil_one {V : Type} (t : BPlusTree V) (ch K nb fuel : Nat) (c : Nat)
    (lo hi : Option Nat) :
    scanKidsV t ch K nb fuel [] [c] lo hi =
      if c == ch then scanPair t ch K nb fuel lo hi
      else scanVN t ch K nb fuel c lo hi := by
  simp only [scanKidsV]

theorem scanKidsV_nil_big {V : Type} (t : BPlusTree V) (ch K nb fuel : Nat) (c1 c2 : Nat)
    (cs : List Nat) (lo hi : Option Nat) :
    scanKidsV t ch K nb fuel [] (c1 :: c2 :: cs) lo hi = none := by
  simp only [scanKidsV]

theorem scanKidsV_cons_nil {V : Type} (t : BPlusTree V) (ch K nb fuel k : Nat)
    (ks : List Nat) (lo hi : Option Nat) :
    scanKidsV t ch K nb fuel (k :: ks) [] lo hi = none := by
  simp only [scanKidsV]

theorem scanKidsV_cons {V : Type} (t : BPlusTree V) (ch K nb fuel k : Nat) (ks' : List Nat)
    (c : Nat) (cs' : List Nat) (lo hi : Option Nat) :
    scanKidsV t ch K nb fuel (k :: ks') (c :: cs') lo hi =
      if loLT lo k && hiGT hi k then
        match (if c == ch then scanPair t ch K nb fuel lo (some k)
               else scanVN t ch K nb fuel c lo (some k)) with
        | none => none
        | some r1 =>
          match scanKidsV t ch K nb fuel ks' cs' (some k) hi with
          | none => none
          | some r2 => some (r1.1 ++ r2.1, r1.2.1 ++ r2.2.1, r1.2.2 ++ r2.2.2)
      else none := by
  simp only [scanKidsV]

end BTree

namespace BTree

theorem scan_flags_closure {V : Type} (t : BPlusTree V) :
    ∀ fuel,
      (∀ a lo hi c ad lv, scanN t fuel a lo hi = some (c, ad, lv) →
        (∀ x ∈ lv, ∃ ndx, getN t x = some ndx ∧ ndx.leaf = true) ∧
        (∀ x nx, x ∈ ad → getN t x = some nx → nx.leaf = false →
          ∀ y ∈ nx.children, y ∈ ad)) ∧
      (∀ ks cs lo hi c ad lv, scanKids t fuel ks cs lo hi = some (c, ad, lv) →
        (∀ x ∈ lv, ∃ ndx, getN t x = some ndx ∧ ndx.leaf = true) ∧
        (∀ x nx, x ∈ ad → getN t x = some nx → nx.leaf = false →
          ∀ y ∈ nx.children, y ∈ ad) ∧
        (∀ y ∈ cs, y ∈ ad)) := by
  intro fuel
  induction fuel with
  | zero =>
    constructor
    · intro a lo hi c ad lv h
      rw [scanN_zero] at h
      cases h
    · intro ks cs lo hi c ad lv h
      rcases ks with _ | ⟨k, ks'⟩ <;> rcases cs with _ | ⟨c0, cs'⟩
      · rw [scanKids_nil_nil] at h
        cases h
      · rcases cs' with _ | ⟨c2, cs''⟩
        · rw [scanKids_nil_one, scanN_zero] at h
          cases h
        · rw [scanKids_nil_big] at h
          cases h
      · rw [scanKids_cons_nil] at h
        cases h
      · rw [scanKids_cons, scanN_zero] at h
        rcases hcond : (loLT lo k && hiGT hi k) with _ | _ <;> rw [hcond] at h
        · have h' : (none : Option (List (Nat × V) × List Nat × List Nat)) =
            some (c, ad, lv) := h
          cases h'
        · have h' : (none : Option (List (Nat × V) × List Nat × List Nat)) =
            some (c, ad, lv) := h
          cases h'
  | succ f ih =>
    have hN : ∀ a lo hi c ad lv, scanN t (f + 1) a lo hi = some (c, ad, lv) →
        (∀ x ∈ lv, ∃ ndx, getN t x = some ndx ∧ ndx.leaf = true) ∧
        (∀ x nx, x ∈ ad → getN t x = some nx → nx.leaf = false →
          ∀ y ∈ nx.children, y ∈ ad) := by
      intro a lo hi c ad lv h
      rcases hg : getN t a with _ | nd
      · rw [scanN_none t f a lo hi hg] at h
        cases h
      · rw [scanN_succ t f a lo hi nd hg] at h
        by_cases hl : nd.leaf = true
        · rw [if_pos hl] at h
          by_cases hck : leafCk nd lo hi = true
          · rw [if_pos hck] at h
            injection h with h'
            injection h' with hc h'
            injection h' with had hlv
            subst had
            subst hlv
            constructor
            · intro x hx
              rw [List.mem_singleton] at hx
              subst hx
              exact ⟨nd, hg, hl⟩
            · intro x nx hx hgx hxl y hy
              rw [List.mem_singleton] at hx
              subst hx
              rw [hg] at hgx
              injection hgx with hgx
              subst hgx
              rw [hl] at hxl
              cases hxl
          · rw [if_neg hck] at h
            cases h
        · rw [if_neg hl] at h
          rcases hk : scanKids t f nd.keys nd.children lo hi with _ | r0
          · rw [hk] at h
            have h' : (none : Option (List (Nat × V) × List Nat × List Nat)) =
              some (c, ad, lv) := h
            cases h'
          · rw [hk] at h
            have h' : some (r0.1, a :: r0.2.1, r0.2.2) = some (c, ad, lv) := h
            injection h' with h''
            injection h'' with hc h''
            injection h'' with had hlv
            rcases r0 with ⟨c0, ad0, lv0⟩
            obtain ⟨hfl, hclo, hcov⟩ := ih.2 _ _ _ _ _ _ _ hk
            subst had
            subst hlv
            constructor
            · exact hfl
            · intro x nx hx hgx hxl y hy
              rcases List.mem_cons.mp hx with hx | hx
              · subst hx
                rw [hg] at hgx
                injection hgx with hgx
                subst hgx
                exact List.mem_cons_of_mem _ (hcov y hy)
              · exact List.mem_cons_of_mem _ (hclo x nx hx hgx hxl y hy)
    refine ⟨hN, ?_⟩
    intro ks
    induction ks with
    | nil =>
      intro cs lo hi c ad lv h
      rcases cs with _ | ⟨c0, cs'⟩
      · rw [scanKids_nil_nil] at h
        cases h
      · rcases cs' with _ | ⟨c2, cs''⟩
        · rw [scanKids_nil_one] at h
          obtain ⟨hfl, hclo⟩ := hN _ _ _ _ _ _ h
          obtain ⟨_, _, had⟩ := (scan_facts t (f + 1)).1 _ _ _ _ _ _ h
          refine ⟨hfl, hclo, ?_⟩
          intro y hy
          rw [List.mem_singleton] at hy
          subst hy
          rw [had]
          exact List.mem_cons_self _ _
        · rw [scanKids_nil_big] at h
          cases h
    | cons k ks' ihk =>
      intro cs lo hi c ad lv h
      rcases cs with _ | ⟨c0, cs'⟩
      · rw [scanKids_cons_nil] at h
        cases h
      · rw [scanKids_cons] at h
        rcases hcond : (loLT lo k && hiGT hi k) with _ | _ <;> rw [hcond] at h
        · have h' : (none : Option (List (Nat × V) × List Nat × List Nat)) =
            some (c, ad, lv) := h
          cases h'
        · rw [if_pos rfl] at h
          rcases h1 : scanN t (f + 1) c0 lo (some k) with _ | r1
          · rw [h1] at h
            have h' : (none : Option (List (Nat × V) × List Nat × List Nat)) =
              some (c, ad, lv) := h
            cases h'
          · rw [h1] at h
            have h2m : (match scanKids t (f + 1) ks' cs' (some k) hi with
                | none => none
                | some r2 => some (r1.1 ++ r2.1, r1.2.1 ++ r2.2.1, r1.2.2 ++ r2.2.2)) =
                some (c, ad, lv) := h
            rcases h2 : scanKids t (f + 1) ks' cs' (some k) hi with _ | r2
            · rw [h2] at h2m
              have h' : (none : Option (List (Nat × V) × List Nat × List Nat)) =
                some (c, ad, lv) := h2m
              cases h'
            · rw [h2] at h2m
              have h3 : some (r1.1 ++ r2.1, r1.2.1 ++ r2.2.1, r1.2.2 ++ r2.2.2) =
                some (c, ad, lv) := h2m
              injection h3 with h3'
              injection h3' with hc h3''
              injection h3'' with had hlv
              rcases r1 with ⟨c1, ad1, lv1⟩
              rcases r2 with ⟨c2, ad2, lv2⟩
              obtain ⟨hfl1, hclo1⟩ := hN _ _ _ _ _ _ h1
              obtain ⟨_, _, had1⟩ := (scan_facts t (f + 1)).1 _ _ _ _ _ _ h1
              obtain ⟨hfl2, hclo2, hcov2⟩ := ihk _ _ _ _ _ _ h2
              subst had
              subst hlv
              refine ⟨?_, ?_, ?_⟩
              · intro x hx
                rcases List.mem_append.mp hx with hx | hx
                · exact hfl1 x hx
                · exact hfl2 x hx
              · intro x nx hx hgx hxl y hy
                rcases List.mem_append.mp hx with hx | hx
                · exact List.mem_append_left _ (hclo1 x nx hx hgx hxl y hy)
                · exact List.mem_append_right _ (hclo2 x nx hx hgx hxl y hy)
              · intro y hy
                rcases List.mem_cons.mp hy with hy | hy
                · subst hy
                  apply List.mem_append_left
                  rw [had1]
                  exact List.mem_cons_self _ _
                · exact List.mem_append_right _ (hcov2 y hy)

end BTree

namespace BTree

theorem scanPair_dest {V : Type} {t : BPlusTree V} {ch K nb fuel : Nat} {lo hi : Option Nat}
    {c : List (Nat × V)} {ad lv : List Nat}
    (h : scanPair t ch K nb fuel lo hi = some (c, ad, lv)) :
    ∃ r1c r1a r1l r2c r2a r2l,
      scanN t fuel ch lo (some K) = some (r1c, r1a, r1l) ∧
      scanN t fuel nb (some K) hi = some (r2c, r2a, r2l) ∧
      c = r1c ++ r2c ∧ ad = r1a ++ r2a ∧ lv = r1l ++ r2l ∧
      (loLT lo K && hiGT hi K) = true := by
  unfold scanPair at h
  rcases hcond : (loLT lo K && hiGT hi K) with _ | _ <;> rw [hcond] at h
  · have h' : (none : Option (List (Nat × V) × List Nat × List Nat)) =
      some (c, ad, lv) := h
    cases h'
  · rw [if_pos rfl] at h
    rcases h1 : scanN t fuel ch lo (some K) with _ | r1
    · rw [h1] at h
      have h' : (none : Option (List (Nat × V) × List Nat × List Nat)) =
        some (c, ad, lv) := h
      cases h'
    · rw [h1] at h
      have h2m : (match scanN t fuel nb (some K) hi with
          | none => none
          | some r2 => some (r1.1 ++ r2.1, r1.2.1 ++ r2.2.1, r1.2.2 ++ r2.2.2)) =
          some (c, ad, lv) := h
      rcases h2 : scanN t fuel nb (some K) hi with _ | r2
      · rw [h2] at h2m
        have h' : (none : Option (List (Nat × V) × List Nat × List Nat)) =
          some (c, ad, lv) := h2m
        cases h'
      · rw [h2] at h2m
        have h3 : some (r1.1 ++ r2.1, r1.2.1 ++ r2.2.1, r1.2.2 ++ r2.2.2) =
          some (c, ad, lv) := h2m
        injection h3 with h3'
        injection h3' with hc h3''
        injection h3'' with had hlv
        rcases r1 with ⟨c1, ad1, lv1⟩
        rcases r2 with ⟨c2, ad2, lv2⟩
        exact ⟨c1, ad1, lv1, c2, ad2, lv2, rfl, rfl, hc.symm, had.symm, hlv.symm, rfl⟩

theorem scanV_agree {V : Type} (t : BPlusTree V) (ch K nb : Nat) :
    ∀ fuel,
      (∀ a lo hi c ad lv, scanN t fuel a lo hi = some (c, ad, lv) → ch ∉ ad →
        scanVN t ch K nb fuel a lo hi = some (c, ad, lv)) ∧
      (∀ ks cs lo hi c ad lv, scanKids t fuel ks cs lo hi = some (c, ad, lv) → ch ∉ ad →
        scanKidsV t ch K nb fuel ks cs lo hi = some (c, ad, lv)) := by
  intro fuel
  induction fuel with
  | zero =>
    constructor
    · intro a lo hi c ad lv h _
      rw [scanN_zero] at h
      cases h
    · intro ks cs lo hi c ad lv h hch
      rcases ks with _ | ⟨k, ks'⟩ <;> rcases cs with _ | ⟨c0, cs'⟩
      · rw [scanKids_nil_nil] at h
        cases h
      · rcases cs' with _ | ⟨c2, cs''⟩
        · rw [scanKids_nil_one, scanN_zero] at h
          cases h
        · rw [scanKids_nil_big] at h
          cases h
      · rw [scanKids_cons_nil] at h
        cases h
      · rw [scanKids_cons, scanN_zero] at h
        rcases hcond : (loLT lo k && hiGT hi k) with _ | _ <;> rw [hcond] at h
        · have h' : (none : Option (List (Nat × V) × List Nat × List Nat)) =
            some (c, ad, lv) := h
          cases h'
        · have h' : (none : Option (List (Nat × V) × List Nat × List Nat)) =
            some (c, ad, lv) := h
          cases h'
  | succ f ih =>
    have hN : ∀ a lo hi c ad lv, scanN t (f + 1) a lo hi = some (c, ad, lv) → ch ∉ ad →
        scanVN t ch K nb (f + 1) a lo hi = some (c, ad, lv) := by
      intro a lo hi c ad lv h hch
      rcases hg : getN t a with _ | nd
      · rw [scanN_none t f a lo hi hg] at h
        cases h
      · rw [scanN_succ t f a lo hi nd hg] at h
        rw [scanVN_succ t ch K nb f a lo hi nd hg]
        by_cases hl : nd.leaf = true
        · rw [if_pos hl] at h ⊢
          exact h
        · rw [if_neg hl] at h ⊢
          rcases hk : scanKids t f nd.keys nd.children lo hi with _ | r0
          · rw [hk] at h
            have h' : (none : Option (List (Nat × V) × List Nat × List Nat)) =
              some (c, ad, lv) := h
            cases h'
          · rw [hk] at h
            have h' : some (r0.1, a :: r0.2.1, r0.2.2) = some (c, ad, lv) := h
            injection h' with h''
            injection h'' with hc h''
            injection h'' with had hlv
            rcases r0 with ⟨c0, ad0, lv0⟩
            have hch0 : ch ∉ ad0 := by
              intro hin
              apply hch
              rw [← had]
              exact List.mem_cons_of_mem _ hin
            rw [ih.2 _ _ _ _ _ _ _ hk hch0]
            rw [← hc, ← had, ← hlv]
    refine ⟨hN, ?_⟩
    intro ks
    induction ks with
    | nil =>
      intro cs lo hi c ad lv h hch
      rcases cs with _ | ⟨c0, cs'⟩
      · rw [scanKids_nil_nil] at h
        cases h
      · rcases cs' with _ | ⟨c2, cs''⟩
        · rw [scanKids_nil_one] at h
          obtain ⟨_, _, had⟩ := (scan_facts t (f + 1)).1 _ _ _ _ _ _ h
          have hne : (c0 == ch) = false := by
            apply beq_eq_false_iff_ne.mpr
            intro he
            apply hch
            rw [had, he]
            exact List.mem_cons_self _ _
          rw [scanKidsV_nil_one, hne]
          exact hN _ _ _ _ _ _ h hch
        · rw [scanKids_nil_big] at h
          cases h
    | cons k ks' ihk =>
      intro cs lo hi c ad lv h hch
      rcases cs with _ | ⟨c0, cs'⟩
      · rw [scanKids_cons_nil] at h
        cases h
      · rw [scanKids_cons] at h
        rw [scanKidsV_cons]
        rcases hcond : (loLT lo k && hiGT hi k) with _ | _ <;> rw [hcond] at h
        · have h' : (none : Option (List (Nat × V) × List Nat × List Nat)) =
            some (c, ad, lv) := h
          cases h'
        · rw [if_pos rfl] at h ⊢
          rcases h1 : scanN t (f + 1) c0 lo (some k) with _ | r1
          · rw [h1] at h
            have h' : (none : Option (List (Nat × V) × List Nat × List Nat)) =
              some (c, ad, lv) := h
            cases h'
          · rw [h1] at h
            have h2m : (match scanKids t (f + 1) ks' cs' (some k) hi with
                | none => none
                | some r2 => some (r1.1 ++ r2.1, r1.2.1 ++ r2.2.1, r1.2.2 ++ r2.2.2)) =
                some (c, ad, lv) := h
            rcases h2 : scanKids t (f + 1) ks' cs' (some k) hi with _ | r2
            · rw [h2] at h2m
              have h' : (none : Option (List (Nat × V) × List Nat × List Nat)) =
                some (c, ad, lv) := h2m
              cases h'
            · rw [h2] at h2m
              have h3 : some (r1.1 ++ r2.1, r1.2.1 ++ r2.2.1, r1.2.2 ++ r2.2.2) =
                some (c, ad, lv) := h2m
              injection h3 with h3'
              injection h3' with hc h3''
              injection h3'' with had hlv
              rcases r1 with ⟨c1, ad1, lv1⟩
              rcases r2 with ⟨c2, ad2, lv2⟩
              obtain ⟨_, _, had1⟩ := (scan_facts t (f + 1)).1 _ _ _ _ _ _ h1
              have hch1 : ch ∉ ad1 := by
                intro hin
                apply hch
                rw [← had]
                exact List.mem_append_left _ hin
              have hch2 : ch ∉ ad2 := by
                intro hin
                apply hch
                rw [← had]
                exact List.mem_append_right _ hin
              have hne : (c0 == ch) = false := by
                apply beq_eq_false_iff_ne.mpr
                intro he
                apply hch1
                rw [had1, ← he]
                exact List.mem_cons_self _ _
              rw [hne]
              have hv1 : scanVN t ch K nb (f + 1) c0 lo (some k) = some (c1, ad1, lv1) :=
                hN _ _ _ _ _ _ h1 hch1
              have hv1' : (if (false = true) then scanPair t ch K nb (f + 1) lo (some k)
                  else scanVN t ch K nb (f + 1) c0 lo (some k)) = some (c1, ad1, lv1) := by
                rw [if_neg]
                · exact hv1
                · intro hfa
                  cases hfa
              rw [hv1']
              rw [ihk _ _ _ _ _ _ h2 hch2]
              rw [← hc, ← had, ← hlv]

end BTree

namespace BTree

theorem scanV_agree_rev {V : Type} (t : BPlusTree V) (ch K nb : Nat) :
    ∀ fuel,
      (∀ a lo hi c ad lv, scanVN t ch K nb fuel a lo hi = some (c, ad, lv) → nb ∉ ad →
        scanN t fuel a lo hi = some (c, ad, lv)) ∧
      (∀ ks cs lo hi c ad lv, scanKidsV t ch K nb fuel ks cs lo hi = some (c, ad, lv) →
        nb ∉ ad → scanKids t fuel ks cs lo hi = some (c, ad, lv)) := by
  intro fuel
  induction fuel with
  | zero =>
    constructor
    · intro a lo hi c ad lv h _
      rw [scanVN_zero] at h
      cases h
    · intro ks cs lo hi c ad lv h hnb
      rcases ks with _ | ⟨k, ks'⟩ <;> rcases cs with _ | ⟨c0, cs'⟩
      · rw [scanKidsV_nil_nil] at h
        cases h
      · rcases cs' with _ | ⟨c2, cs''⟩
        · rw [scanKidsV_nil_one] at h
          rcases he : (c0 == ch) with _ | _ <;> rw [he] at h
          · rw [if_neg (by intro hfa; cases hfa)] at h
            rw [scanVN_zero] at h
            cases h
          · rw [if_pos rfl] at h
            obtain ⟨r1c, r1a, r1l, r2c, r2a, r2l, h1, h2, _, _, _, _⟩ := scanPair_dest h
            rw [scanN_zero] at h1
            cases h1
        · rw [scanKidsV_nil_big] at h
          cases h
      · rw [scanKidsV_cons_nil] at h
        cases h
      · rw [scanKidsV_cons] at h
        rcases hcond : (loLT lo k && hiGT hi k) with _ | _ <;> rw [hcond] at h
        · have h' : (none : Option (List (Nat × V) × List Nat × List Nat)) =
            some (c, ad, lv) := h
          cases h'
        · rw [if_pos rfl] at h
          rcases he : (c0 == ch) with _ | _ <;> rw [he] at h
          · rw [if_neg (by intro hfa; cases hfa)] at h
            rw [scanVN_zero] at h
            have h' : (none : Option (List (Nat × V) × List Nat × List Nat)) =
              some (c, ad, lv) := h
            cases h'
          · rw [if_pos rfl] at h
            rcases hp : scanPair t ch K nb 0 lo (some k) with _ | r1
            · rw [hp] at h
              have h' : (none : Option (List (Nat × V) × List Nat × List Nat)) =
                some (c, ad, lv) := h
              cases h'
            · obtain ⟨r1c, r1a, r1l, r2c, r2a, r2l, h1, h2, _, _, _, _⟩ := scanPair_dest hp
              rw [scanN_zero] at h1
              cases h1
  | succ f ih =>
    have hN : ∀ a lo hi c ad lv, scanVN t ch K nb (f + 1) a lo hi = some (c, ad, lv) →
        nb ∉ ad → scanN t (f + 1) a lo hi = some (c, ad, lv) := by
      intro a lo hi c ad lv h hnb
      rcases hg : getN t a with _ | nd
      · rw [scanVN_none t ch K nb f a lo hi hg] at h
        cases h
      · rw [scanVN_succ t ch K nb f a lo hi nd hg] at h
        rw [scanN_succ t f a lo hi nd hg]
        by_cases hl : nd.leaf = true
        · rw [if_pos hl] at h ⊢
          exact h
        · rw [if_neg hl] at h ⊢
          rcases hk : scanKidsV t ch K nb f nd.keys nd.children lo hi with _ | r0
          · rw [hk] at h
            have h' : (none : Option (List (Nat × V) × List Nat × List Nat)) =
              some (c, ad, lv) := h
            cases h'
          · rw [hk] at h
            have h' : some (r0.1, a :: r0.2.1, r0.2.2) = some (c, ad, lv) := h
            injection h' with h''
            injection h'' with hc h''
            injection h'' with had hlv
            rcases r0 with ⟨c0, ad0, lv0⟩
            have hnb0 : nb ∉ ad0 := by
              intro hin
              apply hnb
              rw [← had]
              exact List.mem_cons_of_mem _ hin
            rw [ih.2 _ _ _ _ _ _ _ hk hnb0]
            rw [← hc, ← had, ← hlv]
    refine ⟨hN, ?_⟩
    intro ks
    induction ks with
    | nil =>
      intro cs lo hi c ad lv h hnb
      rcases cs with _ | ⟨c0, cs'⟩
      · rw [scanKidsV_nil_nil] at h
        cases h
      · rcases cs' with _ | ⟨c2, cs''⟩
        · rw [scanKidsV_nil_one] at h
          rcases he : (c0 == ch) with _ | _ <;> rw [he] at h
          · rw [if_neg (by intro hfa; cases hfa)] at h
            rw [scanKids_nil_one]
            exact hN _ _ _ _ _ _ h hnb
          · rw [if_pos rfl] at h
            obtain ⟨r1c, r1a, r1l, r2c, r2a, r2l, h1, h2, hc, had, hlv, _⟩ :=
              scanPair_dest h
            exfalso
            apply hnb
            obtain ⟨_, _, had2⟩ := (scan_facts t (f + 1)).1 _ _ _ _ _ _ h2
            rw [had, had2]
            exact List.mem_append_right _ (List.mem_cons_self _ _)
        · rw [scanKidsV_nil_big] at h
          cases h
    | cons k ks' ihk =>
      intro cs lo hi c ad lv h hnb
      rcases cs with _ | ⟨c0, cs'⟩
      · rw [scanKidsV_cons_nil] at h
        cases h
      · rw [scanKidsV_cons] at h
        rw [scanKids_cons]
        rcases hcond : (loLT lo k && hiGT hi k) with _ | _ <;> rw [hcond] at h
        · have h' : (none : Option (List (Nat × V) × List Nat × List Nat)) =
            some (c, ad, lv) := h
          cases h'
        · rw [if_pos rfl] at h ⊢
          rcases hr1m : (if (c0 == ch) = true then scanPair t ch K nb (f + 1) lo (some k)
              else scanVN t ch K nb (f + 1) c0 lo (some k)) with _ | r1
          · rw [hr1m] at h
            have h' : (none : Option (List (Nat × V) × List Nat × List Nat)) =
              some (c, ad, lv) := h
            cases h'
          · rw [hr1m] at h
            have h2m : (match scanKidsV t ch K nb (f + 1) ks' cs' (some k) hi with
                | none => none
                | some r2 => some (r1.1 ++ r2.1, r1.2.1 ++ r2.2.1, r1.2.2 ++ r2.2.2)) =
                some (c, ad, lv) := h
            rcases h2 : scanKidsV t ch K nb (f + 1) ks' cs' (some k) hi with _ | r2
            · rw [h2] at h2m
              have h' : (none : Option (List (Nat × V) × List Nat × List Nat)) =
                some (c, ad, lv) := h2m
              cases h'
            · rw [h2] at h2m
              have h3 : some (r1.1 ++ r2.1, r1.2.1 ++ r2.2.1, r1.2.2 ++ r2.2.2) =
                some (c, ad, lv) := h2m
              injection h3 with h3'
              injection h3' with hc h3''
              injection h3'' with had hlv
              rcases r1 with ⟨c1, ad1, lv1⟩
              rcases r2 with ⟨c2, ad2, lv2⟩
              have hnb1 : nb ∉ ad1 := by
                intro hin
                apply hnb
                rw [← had]
                exact List.mem_append_left _ hin
              have hnb2 : nb ∉ ad2 := by
                intro hin
                apply hnb
                rw [← had]
                exact List.mem_append_right _ hin
              have hr1 : scanVN t ch K nb (f + 1) c0 lo (some k) = some (c1, ad1, lv1) := by
                rcases he : (c0 == ch) with _ | _ <;> rw [he] at hr1m
                · rw [if_neg (by intro hfa; cases hfa)] at hr1m
                  exact hr1m
                · rw [if_pos rfl] at hr1m
                  obtain ⟨r1c, r1a, r1l, r2c, r2a, r2l, hs1, hs2, hcx, hax, hlx, _⟩ :=
                    scanPair_dest hr1m
                  exfalso
                  apply hnb1
                  obtain ⟨_, _, had2⟩ := (scan_facts t (f + 1)).1 _ _ _ _ _ _ hs2
                  rw [hax, had2]
                  exact List.mem_append_right _ (List.mem_cons_self _ _)
              rw [hN _ _ _ _ _ _ hr1 hnb1]
              rw [ihk _ _ _ _ _ _ h2 hnb2]
              rw [← hc, ← had, ← hlv]

end BTree

namespace BTree

theorem scanV_facts {V : Type} (t : BPlusTree V) (ch K nb : Nat) :
    ∀ fuel,
      (∀ a lo hi c ad lv, scanVN t ch K nb fuel a lo hi = some (c, ad, lv) →
        ((∀ x ∈ ad, x < t.arena.length) ∧
         (∀ x ∈ lv, ∃ ndx, getN t x = some ndx ∧ ndx.leaf = true) ∧
         (∀ x ∈ lv, x ∈ ad) ∧
         (∀ x nx, x ∈ ad → getN t x = some nx → nx.leaf = false →
           ∀ y ∈ nx.children, y ∈ ad)) ∧
        ∃ ad', ad = a :: ad') ∧
      (∀ ks cs lo hi c ad lv, scanKidsV t ch K nb fuel ks cs lo hi = some (c, ad, lv) →
        (∀ x ∈ ad, x < t.arena.length) ∧
        (∀ x ∈ lv, ∃ ndx, getN t x = some ndx ∧ ndx.leaf = true) ∧
        (∀ x ∈ lv, x ∈ ad) ∧
        (∀ x nx, x ∈ ad → getN t x = some nx → nx.leaf = false →
          ∀ y ∈ nx.children, y ∈ ad) ∧
        (∀ y ∈ cs, y ∈ ad)) := by
  have hpair : ∀ fuel lo hi (c : List (Nat × V)) (ad lv : List Nat),
      scanPair t ch K nb fuel lo hi = some (c, ad, lv) →
      (∀ x ∈ ad, x < t.arena.length) ∧
      (∀ x ∈ lv, ∃ ndx, getN t x = some ndx ∧ ndx.leaf = true) ∧
      (∀ x ∈ lv, x ∈ ad) ∧
      (∀ x nx, x ∈ ad → getN t x = some nx → nx.leaf = false →
        ∀ y ∈ nx.children, y ∈ ad) ∧
      ch ∈ ad := by
    intro fuel lo hi c ad lv h
    obtain ⟨r1c, r1a, r1l, r2c, r2a, r2l, h1, h2, hc, had, hlv, _⟩ := scanPair_dest h
    obtain ⟨⟨_, _, harena1, _, hsub1, _⟩, _, had1⟩ := (scan_facts t fuel).1 _ _ _ _ _ _ h1
    obtain ⟨⟨_, _, harena2, _, hsub2, _⟩, _, had2⟩ := (scan_facts t fuel).1 _ _ _ _ _ _ h2
    obtain ⟨hfl1, hclo1⟩ := (scan_flags_closure t fuel).1 _ _ _ _ _ _ h1
    obtain ⟨hfl2, hclo2⟩ := (scan_flags_closure t fuel).1 _ _ _ _ _ _ h2
    subst had
    subst hlv
    refine ⟨?_, ?_, ?_, ?_, ?_⟩
    · intro x hx
      rcases List.mem_append.mp hx with hx | hx
      · exact harena1 x hx
      · exact harena2 x hx
    · intro x hx
      rcases List.mem_append.mp hx with hx | hx
      · exact hfl1 x hx
      · exact hfl2 x hx
    · intro x hx
      rcases List.mem_append.mp hx with hx | hx
      · exact List.mem_append_left _ (hsub1.mem hx)
      · exact List.mem_append_right _ (hsub2.mem hx)
    · intro x nx hx hgx hxl y hy
      rcases List.mem_append.mp hx with hx | hx
      · exact List.mem_append_left _ (hclo1 x nx hx hgx hxl y hy)
      · exact List.mem_append_right _ (hclo2 x nx hx hgx hxl y hy)
    · apply List.mem_append_left
      rw [had1]
      exact List.mem_cons_self _ _
  intro fuel
  induction fuel with
  | zero =>
    constructor
    · intro a lo hi c ad lv h
      rw [scanVN_zero] at h
      cases h
    · intro ks cs lo hi c ad lv h
      rcases ks with _ | ⟨k, ks'⟩ <;> rcases cs with _ | ⟨c0, cs'⟩
      · rw [scanKidsV_nil_nil] at h
        cases h
      · rcases cs' with _ | ⟨c2, cs''⟩
        · rw [scanKidsV_nil_one] at h
          rcases he : (c0 == ch) with _ | _ <;> rw [he] at h
          · rw [if_neg (by intro hfa; cases hfa)] at h
            rw [scanVN_zero] at h
            cases h
          · rw [if_pos rfl] at h
            obtain ⟨r1c, r1a, r1l, r2c, r2a, r2l, h1, _, _, _, _, _⟩ := scanPair_dest h
            rw [scanN_zero] at h1
            cases h1
        · rw [scanKidsV_nil_big] at h
          cases h
      · rw [scanKidsV_cons_nil] at h
        cases h
      · rw [scanKidsV_cons] at h
        rcases hcond : (loLT lo k && hiGT hi k) with _ | _ <;> rw [hcond] at h
        · have h' : (none : Option (List (Nat × V) × List Nat × List Nat)) =
            some (c, ad, lv) := h
          cases h'
        · rw [if_pos rfl] at h
          rcases he : (c0 == ch) with _ | _ <;> rw [he] at h
          · rw [if_neg (by intro hfa; cases hfa)] at h
            rw [scanVN_zero] at h
            have h' : (none : Option (List (Nat × V) × List Nat × List Nat)) =
              some (c, ad, lv) := h
            cases h'
          · rw [if_pos rfl] at h
            rcases hp : scanPair t ch K nb 0 lo (some k) with _ | r1
            · rw [hp] at h
              have h' : (none : Option (List (Nat × V) × List Nat × List Nat)) =
                some (c, ad, lv) := h
              cases h'
            · obtain ⟨r1c, r1a, r1l, r2c, r2a, r2l, h1, _, _, _, _, _⟩ := scanPair_dest hp
              rw [scanN_zero] at h1
              cases h1
  | succ f ih =>
    have hN : ∀ a lo hi c ad lv, scanVN t ch K nb (f + 1) a lo hi = some (c, ad, lv) →
        ((∀ x ∈ ad, x < t.arena.length) ∧
         (∀ x ∈ lv, ∃ ndx, getN t x = some ndx ∧ ndx.leaf = true) ∧
         (∀ x ∈ lv, x ∈ ad) ∧
         (∀ x nx, x ∈ ad → getN t x = some nx → nx.leaf = false →
           ∀ y ∈ nx.children, y ∈ ad)) ∧
        ∃ ad', ad = a :: ad' := by
      intro a lo hi c ad lv h
      rcases hg : getN t a with _ | nd
      · rw [scanVN_none t ch K nb f a lo hi hg] at h
        cases h
      · rw [scanVN_succ t ch K nb f a lo hi nd hg] at h
        by_cases hl : nd.leaf = true
        · rw [if_pos hl] at h
          by_cases hck : leafCk nd lo hi = true
          · rw [if_pos hck] at h
            injection h with h'
            injection h' with hc h'
            injection h' with had hlv
            subst had
            subst hlv
            refine ⟨⟨?_, ?_, ?_, ?_⟩, [], rfl⟩
            · intro x hx
              rw [List.mem_singleton] at hx
              subst hx
              exact getN_lt hg
            · intro x hx
              rw [List.mem_singleton] at hx
              subst hx
              exact ⟨nd, hg, hl⟩
            · intro x hx
              exact hx
            · intro x nx hx hgx hxl y hy
              rw [List.mem_singleton] at hx
              subst hx
              rw [hg] at hgx
              injection hgx with hgx
              subst hgx
              rw [hl] at hxl
              cases hxl
          · rw [if_neg hck] at h
            cases h
        · rw [if_neg hl] at h
          rcases hk : scanKidsV t ch K nb f nd.keys nd.children lo hi with _ | r0
          · rw [hk] at h
            have h' : (none : Option (List (Nat × V) × List Nat × List Nat)) =
              some (c, ad, lv) := h
            cases h'
          · rw [hk] at h
            have h' : some (r0.1, a :: r0.2.1, r0.2.2) = some (c, ad, lv) := h
            injection h' with h''
            injection h'' with hc h''
            injection h'' with had hlv
            rcases r0 with ⟨c0, ad0, lv0⟩
            obtain ⟨harena, hfl, hlvm, hclo, hcov⟩ := ih.2 _ _ _ _ _ _ _ hk
            subst had
            subst hlv
            refine ⟨⟨?_, hfl, ?_, ?_⟩, _, rfl⟩
            · intro x hx
              rcases List.mem_cons.mp hx with hx | hx
              · subst hx
                exact getN_lt hg
              · exact harena x hx
            · intro x hx
              exact List.mem_cons_of_mem _ (hlvm x hx)
            · intro x nx hx hgx hxl y hy
              rcases List.mem_cons.mp hx with hx | hx
              · subst hx
                rw [hg] at hgx
                injection hgx with hgx
                subst hgx
                exact List.mem_cons_of_mem _ (hcov y hy)
              · exact List.mem_cons_of_mem _ (hclo x nx hx hgx hxl y hy)
    refine ⟨hN, ?_⟩
    intro ks
    induction ks with
    | nil =>
      intro cs lo hi c ad lv h
      rcases cs with _ | ⟨c0, cs'⟩
      · rw [scanKidsV_nil_nil] at h
        cases h
      · rcases cs' with _ | ⟨c2, cs''⟩
        · rw [scanKidsV_nil_one] at h
          rcases he : (c0 == ch) with _ | _ <;> rw [he] at h
          · rw [if_neg (by intro hfa; cases hfa)] at h
            obtain ⟨⟨harena, hfl, hlvm, hclo⟩, _, had⟩ := hN _ _ _ _ _ _ h
            refine ⟨harena, hfl, hlvm, hclo, ?_⟩
            intro y hy
            rw [List.mem_singleton] at hy
            subst hy
            rw [had]
            exact List.mem_cons_self _ _
          · rw [if_pos rfl] at h
            obtain ⟨harena, hfl, hlvm, hclo, hchm⟩ := hpair _ _ _ _ _ _ h
            refine ⟨harena, hfl, hlvm, hclo, ?_⟩
            intro y hy
            rw [List.mem_singleton] at hy
            subst hy
            rw [eq_of_beq he]
            exact hchm
        · rw [scanKidsV_nil_big] at h
          cases h
    | cons k ks' ihk =>
      intro cs lo hi c ad lv h
      rcases cs with _ | ⟨c0, cs'⟩
      · rw [scanKidsV_cons_nil] at h
        cases h
      · rw [scanKidsV_cons] at h
        rcases hcond : (loLT lo k && hiGT hi k) with _ | _ <;> rw [hcond] at h
        · have h' : (none : Option (List (Nat × V) × List Nat × List Nat)) =
            some (c, ad, lv) := h
          cases h'
        · rw [if_pos rfl] at h
          rcases hr1m : (if (c0 == ch) = true then scanPair t ch K nb (f + 1) lo (some k)
              else scanVN t ch K nb (f + 1) c0 lo (some k)) with _ | r1
          · rw [hr1m] at h
            have h' : (none : Option (List (Nat × V) × List Nat × List Nat)) =
              some (c, ad, lv) := h
            cases h'
          · rw [hr1m] at h
            have h2m : (match scanKidsV t ch K nb (f + 1) ks' cs' (some k) hi with
                | none => none
                | some r2 => some (r1.1 ++ r2.1, r1.2.1 ++ r2.2.1, r1.2.2 ++ r2.2.2)) =
                some (c, ad, lv) := h
            rcases h2 : scanKidsV t ch K nb (f + 1) ks' cs' (some k) hi with _ | r2
            · rw [h2] at h2m
              have h' : (none : Option (List (Nat × V) × List Nat × List Nat)) =
                some (c, ad, lv) := h2m
              cases h'
            · rw [h2] at h2m
              have h3 : some (r1.1 ++ r2.1, r1.2.1 ++ r2.2.1, r1.2.2 ++ r2.2.2) =
                some (c, ad, lv) := h2m
              injection h3 with h3'
              injection h3' with hc h3''
              injection h3'' with had hlv
              rcases r1 with ⟨c1, ad1, lv1⟩
              rcases r2 with ⟨c2, ad2, lv2⟩
              obtain ⟨harena2, hfl2, hlvm2, hclo2, hcov2⟩ := ihk _ _ _ _ _ _ h2
              have hfirst : (∀ x ∈ ad1, x < t.arena.length) ∧
                  (∀ x ∈ lv1, ∃ ndx, getN t x = some ndx ∧ ndx.leaf = true) ∧
                  (∀ x ∈ lv1, x ∈ ad1) ∧
                  (∀ x nx, x ∈ ad1 → getN t x = some nx → nx.leaf = false →
                    ∀ y ∈ nx.children, y ∈ ad1) ∧
                  c0 ∈ ad1 := by
                rcases he : (c0 == ch) with _ | _ <;> rw [he] at hr1m
                · rw [if_neg (by intro hfa; cases hfa)] at hr1m
                  obtain ⟨⟨harena1, hfl1, hlvm1, hclo1⟩, _, had1⟩ := hN _ _ _ _ _ _ hr1m
                  refine ⟨harena1, hfl1, hlvm1, hclo1, ?_⟩
                  rw [had1]
                  exact List.mem_cons_self _ _
                · rw [if_pos rfl] at hr1m
                  obtain ⟨harena1, hfl1, hlvm1, hclo1, hchm⟩ := hpair _ _ _ _ _ _ hr1m
                  refine ⟨harena1, hfl1, hlvm1, hclo1, ?_⟩
                  rw [eq_of_beq he]
                  exact hchm
              obtain ⟨harena1, hfl1, hlvm1, hclo1, hc0m⟩ := hfirst
              subst had
              subst hlv
              refine ⟨?_, ?_, ?_, ?_, ?_⟩
              · intro x hx
                rcases List.mem_append.mp hx with hx | hx
                · exact harena1 x hx
                · exact harena2 x hx
              · intro x hx
                rcases List.mem_append.mp hx with hx | hx
                · exact hfl1 x hx
                · exact hfl2 x hx
              · intro x hx
                rcases List.mem_append.mp hx with hx | hx
                · exact List.mem_append_left _ (hlvm1 x hx)
                · exact List.mem_append_right _ (hlvm2 x hx)
              · intro x nx hx hgx hxl y hy
                rcases List.mem_append.mp hx with hx | hx
                · exact List.mem_append_left _ (hclo1 x nx hx hgx hxl y hy)
                · exact List.mem_append_right _ (hclo2 x nx hx hgx hxl y hy)
              · intro y hy
                rcases List.mem_cons.mp hy with hy | hy
                · subst hy
                  exact List.mem_append_left _ hc0m
                · exact List.mem_append_right _ (hcov2 y hy)

end BTree

namespace BTree

theorem scan_find_pair {V : Type} (t : BPlusTree V) (key : Nat) :
    ∀ fuel,
      (∀ a lo hi c ad lv, scanN t fuel a lo hi = some (c, ad, lv) →
        ad.Nodup → loLE lo key = true → hiGT hi key = true →
        ∃ la nd lo' hi' pre post adU adW lvU lvW,
          find_leaf_aux t key fuel a = some la ∧
          getN t la = some nd ∧
          loLE lo' key = true ∧ hiGT hi' key = true ∧ leafCk nd lo' hi' = true ∧
          c = pre ++ nd.keys.zip nd.values ++ post ∧
          ad = adU ++ la :: adW ∧ lv = lvU ++ la :: lvW ∧
          (∀ x ∈ pre.map Prod.fst, x < key) ∧
          (∀ x ∈ post.map Prod.fst, key < x) ∧
          ((la = a ∧ lo' = lo ∧ hi' = hi ∧ pre = [] ∧ post = [] ∧ adU = [] ∧ adW = [] ∧
              lvU = [] ∧ lvW = []) ∨
            (a ≠ la ∧ ∀ (f0 : Nat) (t' : BPlusTree V) (K nb : Nat)
                (r1c r2c : List (Nat × V)) (r1a r1l r2a r2l : List Nat),
              (∀ x, x ∈ ad → x ≠ la → getN t' x = getN t x) →
              nb ∉ ad →
              loLT lo' K = true → hiGT hi' K = true →
              scanN t' f0 la lo' (some K) = some (r1c, r1a, r1l) →
              scanN t' f0 nb (some K) hi' = some (r2c, r2a, r2l) →
              scanVN t' la K nb (f0 + fuel) a lo hi =
                some (pre ++ (r1c ++ r2c) ++ post, adU ++ (r1a ++ r2a) ++ adW,
                  lvU ++ (r1l ++ r2l) ++ lvW)))) ∧
      (∀ ks cs lo hi c ad lv, scanKids t fuel ks cs lo hi = some (c, ad, lv) →
        ad.Nodup → loLE lo key = true → hiGT hi key = true →
        ∃ cj la nd lo' hi' pre post adU adW lvU lvW,
          cs[bisect_right ks key]? = some cj ∧
          find_leaf_aux t key fuel cj = some la ∧
          getN t la = some nd ∧
          loLE lo' key = true ∧ hiGT hi' key = true ∧ leafCk nd lo' hi' = true ∧
          c = pre ++ nd.keys.zip nd.values ++ post ∧
          ad = adU ++ la :: adW ∧ lv = lvU ++ la :: lvW ∧
          (∀ x ∈ pre.map Prod.fst, x < key) ∧
          (∀ x ∈ post.map Prod.fst, key < x) ∧
          ∀ (f0 : Nat) (t' : BPlusTree V) (K nb : Nat)
              (r1c r2c : List (Nat × V)) (r1a r1l r2a r2l : List Nat),
            (∀ x, x ∈ ad → x ≠ la → getN t' x = getN t x) →
            nb ∉ ad →
            loLT lo' K = true → hiGT hi' K = true →
            scanN t' f0 la lo' (some K) = some (r1c, r1a, r1l) →
            scanN t' f0 nb (some K) hi' = some (r2c, r2a, r2l) →
            scanKidsV t' la K nb (f0 + fuel) ks cs lo hi =
              some (pre ++ (r1c ++ r2c) ++ post, adU ++ (r1a ++ r2a) ++ adW,
                lvU ++ (r1l ++ r2l) ++ lvW)) := by
  intro fuel
  induction fuel with
  | zero =>
    constructor
    · intro a lo hi c ad lv h
      rw [scanN_zero] at h
      cases h
    · intro ks cs lo hi c ad lv h
      rcases ks with _ | ⟨k, ks'⟩ <;> rcases cs with _ | ⟨c0, cs'⟩
      · rw [scanKids_nil_nil] at h
        cases h
      · rcases cs' with _ | ⟨c2, cs''⟩
        · rw [scanKids_nil_one, scanN_zero] at h
          cases h
        · rw [scanKids_nil_big] at h
          cases h
      · rw [scanKids_cons_nil] at h
        cases h
      · rw [scanKids_cons, scanN_zero] at h
        rcases hcond : (loLT lo k && hiGT hi k) with _ | _ <;> rw [hcond] at h
        · have h' : (none : Option (List (Nat × V) × List Nat × List Nat)) =
            some (c, ad, lv) := h
          cases h'
        · have h' : (none : Option (List (Nat × V) × List Nat × List Nat)) =
            some (c, ad, lv) := h
          cases h'
  | succ f ih =>
    have hN : ∀ a lo hi c ad lv, scanN t (f + 1) a lo hi = some (c, ad, lv) →
        ad.Nodup → loLE lo key = true → hiGT hi key = true →
        ∃ la nd lo' hi' pre post adU adW lvU lvW,
          find_leaf_aux t key (f + 1) a = some la ∧
          getN t la = some nd ∧
          loLE lo' key = true ∧ hiGT hi' key = true ∧ leafCk nd lo' hi' = true ∧
          c = pre ++ nd.keys.zip nd.values ++ post ∧
          ad = adU ++ la :: adW ∧ lv = lvU ++ la :: lvW ∧
          (∀ x ∈ pre.map Prod.fst, x < key) ∧
          (∀ x ∈ post.map Prod.fst, key < x) ∧
          ((la = a ∧ lo' = lo ∧ hi' = hi ∧ pre = [] ∧ post = [] ∧ adU = [] ∧ adW = [] ∧
              lvU = [] ∧ lvW = []) ∨
            (a ≠ la ∧ ∀ (f0 : Nat) (t' : BPlusTree V) (K nb : Nat)
                (r1c r2c : List (Nat × V)) (r1a r1l r2a r2l : List Nat),
              (∀ x, x ∈ ad → x ≠ la → getN t' x = getN t x) →
              nb ∉ ad →
              loLT lo' K = true → hiGT hi' K = true →
              scanN t' f0 la lo' (some K) = some (r1c, r1a, r1l) →
              scanN t' f0 nb (some K) hi' = some (r2c, r2a, r2l) →
              scanVN t' la K nb (f0 + (f + 1)) a lo hi =
                some (pre ++ (r1c ++ r2c) ++ post, adU ++ (r1a ++ r2a) ++ adW,
                  lvU ++ (r1l ++ r2l) ++ lvW))) := by
      intro a lo hi c ad lv h hnd hlo hhi
      rcases hg : getN t a with _ | nd
      · rw [scanN_none t f a lo hi hg] at h
        cases h
      · rw [scanN_succ t f a lo hi nd hg] at h
        by_cases hl : nd.leaf = true
        · rw [if_pos hl] at h
          by_cases hck : leafCk nd lo hi = true
          · rw [if_pos hck] at h
            injection h with h'
            injection h' with hc h'
            injection h' with had hlv
            have hfla : find_leaf_aux t key (f + 1) a = some a := by
              simp only [find_leaf_aux]
              rw [hg]
              have hgoal : (if nd.leaf = true then some a
                  else match nd.children[bisect_right nd.keys key]? with
                    | none => none
                    | some c2 => find_leaf_aux t key f c2) = some a := by
                rw [if_pos hl]
              exact hgoal
            refine ⟨a, nd, lo, hi, [], [], [], [], [], [], hfla, hg, hlo, hhi, hck,
              ?_, ?_, ?_, ?_, ?_, Or.inl ⟨rfl, rfl, rfl, rfl, rfl, rfl, rfl, rfl, rfl⟩⟩
            · rw [← hc]
              simp
            · rw [← had]
              rfl
            · rw [← hlv]
              rfl
            · intro x hx
              cases hx
            · intro x hx
              cases hx
          · rw [if_neg hck] at h
            cases h
        · rw [if_neg hl] at h
          rcases hk : scanKids t f nd.keys nd.children lo hi with _ | r0
          · rw [hk] at h
            have h' : (none : Option (List (Nat × V) × List Nat × List Nat)) =
              some (c, ad, lv) := h
            cases h'
          · rw [hk] at h
            have h' : some (r0.1, a :: r0.2.1, r0.2.2) = some (c, ad, lv) := h
            injection h' with h''
            injection h'' with hc h''
            injection h'' with had hlv
            rcases r0 with ⟨c0k, adk, lvk⟩
            have hndk : adk.Nodup := by
              rw [← had] at hnd
              exact (List.nodup_cons.mp hnd).2
            have hanotin : a ∉ adk := by
              rw [← had] at hnd
              exact (List.nodup_cons.mp hnd).1
            obtain ⟨cj, la, ndl, lo', hi', pre, post, adU, adW, lvU, lvW,
              hcj, hfla, hgl, hlo', hhi', hckl, hceq, hadeq, hlveq, hpre, hpost, hpack⟩ :=
              ih.2 _ _ _ _ _ _ _ hk hndk hlo hhi
            have hfl2 : find_leaf_aux t key (f + 1) a = some la := by
              simp only [find_leaf_aux]
              rw [hg]
              have hgoal : (if nd.leaf = true then some a
                  else match nd.children[bisect_right nd.keys key]? with
                    | none => none
                    | some c2 => find_leaf_aux t key f c2) = some la := by
                rw [if_neg hl, hcj]
                exact hfla
              exact hgoal
            have hlaink : la ∈ adk := by
              rw [hadeq]
              exact List.mem_append_right _ (List.mem_cons_self _ _)
            have hane : a ≠ la := by
              intro hcc
              rw [hcc] at hanotin
              exact hanotin hlaink
            refine ⟨la, ndl, lo', hi', pre, post, a :: adU, adW, lvU, lvW,
              hfl2, hgl, hlo', hhi', hckl, by rw [← hc]; exact hceq, ?_, ?_, hpre, hpost,
              Or.inr ⟨hane, ?_⟩⟩
            · rw [← had, hadeq]
              rfl
            · rw [← hlv]
              exact hlveq
            · intro f0 t' K nb r1c r2c r1a r1l r2a r2l hfr hnb hloK hhiK hs1 hs2
              have heq : f0 + (f + 1) = (f0 + f) + 1 := by omega
              rw [heq]
              have hamem : a ∈ ad := by
                rw [← had]
                exact List.mem_cons_self _ _
              have hga' : getN t' a = some nd := (hfr a hamem hane).trans hg
              rw [scanVN_succ t' la K nb (f0 + f) a lo hi nd hga']
              rw [if_neg hl]
              have hfrk : ∀ x, x ∈ adk → x ≠ la → getN t' x = getN t x := by
                intro x hx hxne
                exact hfr x (by rw [← had]; exact List.mem_cons_of_mem _ hx) hxne
              have hnbk : nb ∉ adk := by
                intro hx
                apply hnb
                rw [← had]
                exact List.mem_cons_of_mem _ hx
              have hkid := hpack f0 t' K nb r1c r2c r1a r1l r2a r2l hfrk hnbk
                hloK hhiK hs1 hs2
              rw [hkid]
              rfl
    refine ⟨hN, ?_⟩
    intro ks
    induction ks with
    | nil =>
      intro cs lo hi c ad lv h hnd hlo hhi
      rcases cs with _ | ⟨c0, cs'⟩
      · rw [scanKids_nil_nil] at h
        cases h
      · rcases cs' with _ | ⟨c2, cs''⟩
        · rw [scanKids_nil_one] at h
          obtain ⟨la, ndl, lo', hi', pre, post, adU, adW, lvU, lvW,
            hfla, hgl, hlo', hhi', hckl, hceq, hadeq, hlveq, hpre, hpost, hdisj⟩ :=
            hN _ _ _ _ _ _ h hnd hlo hhi
          refine ⟨c0, la, ndl, lo', hi', pre, post, adU, adW, lvU, lvW,
            by rw [bisect_nil]; exact List.getElem?_cons_zero, hfla, hgl,
            hlo', hhi', hckl, hceq, hadeq, hlveq, hpre, hpost, ?_⟩
          intro f0 t' K nb r1c r2c r1a r1l r2a r2l hfr hnb hloK hhiK hs1 hs2
          rw [scanKidsV_nil_one]
          rcases hdisj with ⟨hla, hloe, hhie, hpree, hposte, hadUe, hadWe, hlvUe, hlvWe⟩ |
            ⟨hane, hpack⟩
          · have htr : (c0 == la) = true := by
              rw [hla]
              exact beq_self_eq_true c0
            rw [htr]
            have hgoal2 : scanPair t' la K nb (f0 + (f + 1)) lo hi =
                some (pre ++ (r1c ++ r2c) ++ post, adU ++ (r1a ++ r2a) ++ adW,
                  lvU ++ (r1l ++ r2l) ++ lvW) := by
              unfold scanPair
              have hcondp : (loLT lo K && hiGT hi K) = true := by
                rw [Bool.and_eq_true]
                constructor
                · rw [← hloe]
                  exact hloK
                · rw [← hhie]
                  exact hhiK
              rw [hcondp, if_pos rfl]
              have hs1x : scanN t' f0 la lo (some K) = some (r1c, r1a, r1l) := by
                rw [← hloe]
                exact hs1
              have hs1' : scanN t' (f0 + (f + 1)) la lo (some K) = some (r1c, r1a, r1l) :=
                scanN_mono_le t' (Nat.le_add_right f0 (f + 1)) hs1x
              have hs2x : scanN t' f0 nb (some K) hi = some (r2c, r2a, r2l) := by
                rw [← hhie]
                exact hs2
              have hs2' : scanN t' (f0 + (f + 1)) nb (some K) hi = some (r2c, r2a, r2l) :=
                scanN_mono_le t' (Nat.le_add_right f0 (f + 1)) hs2x
              rw [hs1', hs2']
              rw [hpree, hposte, hadUe, hadWe, hlvUe, hlvWe]
              simp
            have hgoal3 : (if (c0 == la) = true then scanPair t' la K nb (f0 + (f + 1)) lo hi
                else scanVN t' la K nb (f0 + (f + 1)) c0 lo hi) =
                some (pre ++ (r1c ++ r2c) ++ post, adU ++ (r1a ++ r2a) ++ adW,
                  lvU ++ (r1l ++ r2l) ++ lvW) := by
              rw [htr, if_pos rfl]
              exact hgoal2
            rw [htr] at hgoal3
            exact hgoal3
          · have htr : (c0 == la) = false := beq_eq_false_iff_ne.mpr hane
            rw [htr]
            have hgoal3 : (if (false = true) then scanPair t' la K nb (f0 + (f + 1)) lo hi
                else scanVN t' la K nb (f0 + (f + 1)) c0 lo hi) =
                some (pre ++ (r1c ++ r2c) ++ post, adU ++ (r1a ++ r2a) ++ adW,
                  lvU ++ (r1l ++ r2l) ++ lvW) := by
              rw [if_neg (by intro hfa; cases hfa)]
              exact hpack f0 t' K nb r1c r2c r1a r1l r2a r2l hfr hnb hloK hhiK hs1 hs2
            exact hgoal3
        · rw [scanKids_nil_big] at h
          cases h
    | cons k ks' ihk =>
      intro cs lo hi c ad lv h hnd hlo hhi
      rcases cs with _ | ⟨c0, cs'⟩
      · rw [scanKids_cons_nil] at h
        cases h
      · rw [scanKids_cons] at h
        rcases hcond : (loLT lo k && hiGT hi k) with _ | _ <;> rw [hcond] at h
        · have h' : (none : Option (List (Nat × V) × List Nat × List Nat)) =
            some (c, ad, lv) := h
          cases h'
        · rw [if_pos rfl] at h
          have hcondT : (loLT lo k && hiGT hi k) = true := hcond
          rw [Bool.and_eq_true] at hcondT
          rcases h1 : scanN t (f + 1) c0 lo (some k) with _ | r1
          · rw [h1] at h
            have h' : (none : Option (List (Nat × V) × List Nat × List Nat)) =
              some (c, ad, lv) := h
            cases h'
          · rw [h1] at h
            have h2m : (match scanKids t (f + 1) ks' cs' (some k) hi with
                | none => none
                | some r2 => some (r1.1 ++ r2.1, r1.2.1 ++ r2.2.1, r1.2.2 ++ r2.2.2)) =
                some (c, ad, lv) := h
            rcases h2 : scanKids t (f + 1) ks' cs' (some k) hi with _ | r2
            · rw [h2] at h2m
              have h' : (none : Option (List (Nat × V) × List Nat × List Nat)) =
                some (c, ad, lv) := h2m
              cases h'
            · rw [h2] at h2m
              have h3 : some (r1.1 ++ r2.1, r1.2.1 ++ r2.2.1, r1.2.2 ++ r2.2.2) =
                some (c, ad, lv) := h2m
              injection h3 with h3'
              injection h3' with hc h3''
              injection h3'' with had hlv
              rcases r1 with ⟨c1, ad1, lv1⟩
              rcases r2 with ⟨c2c, ad2, lv2⟩
              have hndparts := List.nodup_append.mp (had ▸ hnd)
              obtain ⟨hnd1, hnd2, hdisj⟩ := hndparts
              by_cases hklt : key < k
              · have hhiK' : hiGT (some k) key = true := hiGT_some.mpr hklt
                obtain ⟨la, ndl, lo', hi', pre1, post1, adU1, adW1, lvU1, lvW1,
                  hfla, hgl, hlo', hhi', hckl, hceq, hadeq, hlveq, hpre, hpost, hdisj1⟩ :=
                  hN _ _ _ _ _ _ h1 hnd1 hlo hhiK'
                have hbz : bisect_right (k :: ks') key = 0 := by
                  unfold bisect_right
                  rw [List.countP_eq_zero]
                  intro x hx
                  simp only [decide_eq_true_eq]
                  rcases List.mem_cons.mp hx with hxe | hxm
                  · omega
                  · have hsep := (scanKids_seps t (f + 1) ks' cs' (some k) hi _ h2 x hxm).1
                    rw [loLT_some] at hsep
                    omega
                have hfacts2 := (scan_facts t (f + 1)).2 _ _ _ _ _ _ _ h2
                have hlain1 : la ∈ ad1 := by
                  rw [hadeq]
                  exact List.mem_append_right _ (List.mem_cons_self _ _)
                refine ⟨c0, la, ndl, lo', hi', pre1, post1 ++ c2c, adU1, adW1 ++ ad2,
                  lvU1, lvW1 ++ lv2,
                  by rw [hbz]; exact List.getElem?_cons_zero, hfla, hgl,
                  hlo', hhi', hckl, ?_, ?_, ?_, hpre, ?_, ?_⟩
                · rw [← hc, hceq]
                  simp [List.append_assoc]
                · rw [← had, hadeq]
                  simp [List.append_assoc]
                · rw [← hlv, hlveq]
                  simp [List.append_assoc]
                · intro x hx
                  rw [List.map_append] at hx
                  rcases List.mem_append.mp hx with hx | hx
                  · exact hpost x hx
                  · have := (hfacts2.2.1 x hx).1
                    rw [loLE_some] at this
                    omega
                · intro f0 t' K nb r1c r2c r1a r1l r2a r2l hfr hnb hloK hhiK hs1 hs2
                  have hfr2 : ∀ x ∈ ad2, getN t' x = getN t x := by
                    intro x hx
                    refine hfr x (by rw [← had]; exact List.mem_append_right _ hx) ?_
                    intro hcc
                    exact hdisj hlain1 (hcc ▸ hx)
                  have hlanot2 : la ∉ ad2 := fun hcc => hdisj hlain1 hcc
                  have h2big : scanKids t' (f0 + (f + 1)) ks' cs' (some k) hi =
                      some (c2c, ad2, lv2) := by
                    apply (scan_frame t t' _).2 _ _ _ _ _ _ _ ?_ hfr2
                    exact scanKids_mono_le t (by omega) h2
                  have h2v : scanKidsV t' la K nb (f0 + (f + 1)) ks' cs' (some k) hi =
                      some (c2c, ad2, lv2) :=
                    (scanV_agree t' la K nb _).2 _ _ _ _ _ _ _ h2big hlanot2
                  have hfirst : (if (c0 == la) = true
                      then scanPair t' la K nb (f0 + (f + 1)) lo (some k)
                      else scanVN t' la K nb (f0 + (f + 1)) c0 lo (some k)) =
                      some (pre1 ++ (r1c ++ r2c) ++ post1, adU1 ++ (r1a ++ r2a) ++ adW1,
                        lvU1 ++ (r1l ++ r2l) ++ lvW1) := by
                    rcases hdisj1 with ⟨hla, hloe, hhie, hpree, hposte, hadUe, hadWe,
                      hlvUe, hlvWe⟩ | ⟨hane, hpack⟩
                    · have htr : (c0 == la) = true := by
                        rw [hla]
                        exact beq_self_eq_true c0
                      rw [htr, if_pos rfl]
                      unfold scanPair
                      have hcondp : (loLT lo K && hiGT (some k) K) = true := by
                        rw [Bool.and_eq_true]
                        constructor
                        · rw [← hloe]
                          exact hloK
                        · rw [← hhie]
                          exact hhiK
                      rw [hcondp, if_pos rfl]
                      have hs1x : scanN t' f0 la lo (some K) = some (r1c, r1a, r1l) := by
                        rw [← hloe]
                        exact hs1
                      have hs1' : scanN t' (f0 + (f + 1)) la lo (some K) =
                          some (r1c, r1a, r1l) :=
                        scanN_mono_le t' (Nat.le_add_right f0 (f + 1)) hs1x
                      have hs2x : scanN t' f0 nb (some K) (some k) =
                          some (r2c, r2a, r2l) := by
                        rw [← hhie]
                        exact hs2
                      have hs2' : scanN t' (f0 + (f + 1)) nb (some K) (some k) =
                          some (r2c, r2a, r2l) :=
                        scanN_mono_le t' (Nat.le_add_right f0 (f + 1)) hs2x
                      rw [hs1', hs2']
                      rw [hpree, hposte, hadUe, hadWe, hlvUe, hlvWe]
                      simp
                    · have htr : (c0 == la) = false := beq_eq_false_iff_ne.mpr hane
                      rw [htr]
                      rw [if_neg (by intro hfa; cases hfa)]
                      have hfr1 : ∀ x, x ∈ ad1 → x ≠ la → getN t' x = getN t x := by
                        intro x hx hxne
                        exact hfr x (by rw [← had]; exact List.mem_append_left _ hx) hxne
                      have hnb1 : nb ∉ ad1 := by
                        intro hx
                        apply hnb
                        rw [← had]
                        exact List.mem_append_left _ hx
                      exact hpack f0 t' K nb r1c r2c r1a r1l r2a r2l hfr1 hnb1
                        hloK hhiK hs1 hs2
                  rw [scanKidsV_cons, hcond, if_pos rfl, hfirst]
                  have hfin : (match scanKidsV t' la K nb (f0 + (f + 1)) ks' cs'
                        (some k) hi with
                      | none => none
                      | some r2 => some ((pre1 ++ (r1c ++ r2c) ++ post1) ++ r2.1,
                          (adU1 ++ (r1a ++ r2a) ++ adW1) ++ r2.2.1,
                          (lvU1 ++ (r1l ++ r2l) ++ lvW1) ++ r2.2.2)) =
                      some (pre1 ++ (r1c ++ r2c) ++ (post1 ++ c2c),
                        adU1 ++ (r1a ++ r2a) ++ (adW1 ++ ad2),
                        lvU1 ++ (r1l ++ r2l) ++ (lvW1 ++ lv2)) := by
                    rw [h2v]
                    simp [List.append_assoc]
                  exact hfin
              · have hloK' : loLE (some k) key = true := loLE_some.mpr (by omega)
                obtain ⟨cj, la, ndl, lo', hi', pre2, post2, adU2, adW2, lvU2, lvW2,
                  hcj, hfla, hgl, hlo', hhi', hckl, hceq, hadeq, hlveq, hpre, hpost, hpack⟩ :=
                  ihk _ _ _ _ _ _ h2 hnd2 hloK' hhi
                have hbs : bisect_right (k :: ks') key = bisect_right ks' key + 1 := by
                  rw [bisect_cons]
                  rw [if_pos (by omega)]
                have hfacts1 := (scan_facts t (f + 1)).1 _ _ _ _ _ _ h1
                have hlain2 : la ∈ ad2 := by
                  rw [hadeq]
                  exact List.mem_append_right _ (List.mem_cons_self _ _)
                have hc0in1 : c0 ∈ ad1 := by
                  obtain ⟨_, _, had1⟩ := hfacts1
                  rw [had1]
                  exact List.mem_cons_self _ _
                refine ⟨cj, la, ndl, lo', hi', c1 ++ pre2, post2, ad1 ++ adU2, adW2,
                  lv1 ++ lvU2, lvW2, ?_, hfla, hgl, hlo', hhi', hckl, ?_, ?_, ?_, ?_,
                  hpost, ?_⟩
                · rw [hbs, List.getElem?_cons_succ]
                  exact hcj
                · rw [← hc, hceq]
                  simp [List.append_assoc]
                · rw [← had, hadeq]
                  simp [List.append_assoc]
                · rw [← hlv, hlveq]
                  simp [List.append_assoc]
                · intro x hx
                  rw [List.map_append] at hx
                  rcases List.mem_append.mp hx with hx | hx
                  · have := (hfacts1.1.2.1 x hx).2
                    rw [hiGT_some] at this
                    omega
                  · exact hpre x hx
                · intro f0 t' K nb r1c r2c r1a r1l r2a r2l hfr hnb hloK hhiK hs1 hs2
                  have hlanot1 : la ∉ ad1 := fun hcc => hdisj hcc hlain2
                  have hfr1 : ∀ x ∈ ad1, getN t' x = getN t x := by
                    intro x hx
                    refine hfr x (by rw [← had]; exact List.mem_append_left _ hx) ?_
                    intro hcc
                    exact hlanot1 (hcc ▸ hx)
                  have h1big : scanN t' (f0 + (f + 1)) c0 lo (some k) =
                      some (c1, ad1, lv1) := by
                    apply (scan_frame t t' _).1 _ _ _ _ _ _ ?_ hfr1
                    exact scanN_mono_le t (by omega) h1
                  have h1v : scanVN t' la K nb (f0 + (f + 1)) c0 lo (some k) =
                      some (c1, ad1, lv1) :=
                    (scanV_agree t' la K nb _).1 _ _ _ _ _ _ h1big hlanot1
                  have htr : (c0 == la) = false := by
                    apply beq_eq_false_iff_ne.mpr
                    intro hcc
                    exact hlanot1 (hcc ▸ hc0in1)
                  have hfr2 : ∀ x, x ∈ ad2 → x ≠ la → getN t' x = getN t x := by
                    intro x hx hxne
                    exact hfr x (by rw [← had]; exact List.mem_append_right _ hx) hxne
                  have hnb2 : nb ∉ ad2 := by
                    intro hx
                    apply hnb
                    rw [← had]
                    exact List.mem_append_right _ hx
                  have h2v := hpack f0 t' K nb r1c r2c r1a r1l r2a r2l hfr2 hnb2
                    hloK hhiK hs1 hs2
                  rw [scanKidsV_cons, hcond, if_pos rfl]
                  have hfirst : (if (c0 == la) = true
                      then scanPair t' la K nb (f0 + (f + 1)) lo (some k)
                      else scanVN t' la K nb (f0 + (f + 1)) c0 lo (some k)) =
                      some (c1, ad1, lv1) := by
                    rw [htr]
                    rw [if_neg (by intro hfa; cases hfa)]
                    exact h1v
                  rw [hfirst]
                  have hfin : (match scanKidsV t' la K nb (f0 + (f + 1)) ks' cs'
                        (some k) hi with
                      | none => none
                      | some r2 => some (c1 ++ r2.1, ad1 ++ r2.2.1, lv1 ++ r2.2.2)) =
                      some ((c1 ++ pre2) ++ (r1c ++ r2c) ++ post2,
                        (ad1 ++ adU2) ++ (r1a ++ r2a) ++ adW2,
                        (lv1 ++ lvU2) ++ (r1l ++ r2l) ++ lvW2) := by
                    rw [h2v]
                    simp [List.append_assoc]
                  exact hfin

end BTree

namespace BTree

theorem find_parent_zero {V : Type} (t : BPlusTree V) (ch a : Nat) :
    find_parent t ch 0 a = none := by
  simp only [find_parent]

theorem find_parent_succ {V : Type} (t : BPlusTree V) (ch G a : Nat) :
    find_parent t ch (G + 1) a =
      match getN t a with
      | none => none
      | some nd => if nd.leaf then none else find_parent_scan t ch G a nd.children := by
  simp only [find_parent]

theorem fps_nil {V : Type} (t : BPlusTree V) (ch G a : Nat) :
    find_parent_scan t ch G a [] = none := by
  simp only [find_parent_scan]

theorem fps_cons {V : Type} (t : BPlusTree V) (ch G a c : Nat) (rest : List Nat) :
    find_parent_scan t ch G a (c :: rest) =
      if c == ch then some a
      else
        match find_parent t ch G c with
        | some r => some r
        | none => find_parent_scan t ch G a rest := by
  simp only [find_parent_scan]

theorem find_parent_sound {V : Type} (t : BPlusTree V) (ch : Nat) :
    ∀ G a pa, find_parent t ch G a = some pa →
      ∃ P, getN t pa = some P ∧ P.leaf = false ∧ ch ∈ P.children ∧ ReachChild t a pa := by
  intro G
  induction G with
  | zero =>
    intro a pa h
    rw [find_parent_zero] at h
    cases h
  | succ G' ih =>
    have hscan : ∀ cs a nd, getN t a = some nd → nd.leaf = false →
        (∀ x ∈ cs, x ∈ nd.children) → ∀ pa, find_parent_scan t ch G' a cs = some pa →
        ∃ P, getN t pa = some P ∧ P.leaf = false ∧ ch ∈ P.children ∧ ReachChild t a pa := by
      intro cs
      induction cs with
      | nil =>
        intro a nd hg hl hsub pa h
        rw [fps_nil] at h
        cases h
      | cons c rest ihc =>
        intro a nd hg hl hsub pa h
        rw [fps_cons] at h
        rcases he : (c == ch) with _ | _ <;> rw [he] at h
        · rw [if_neg (by intro hfa; cases hfa)] at h
          rcases hf : find_parent t ch G' c with _ | r
          · rw [hf] at h
            exact ihc a nd hg hl (fun x hx => hsub x (List.mem_cons_of_mem _ hx)) pa h
          · rw [hf] at h
            injection h with h'
            obtain ⟨P, hgp, hpl, hchp, hre⟩ := ih c pa (h' ▸ hf)
            exact ⟨P, hgp, hpl, hchp,
              ReachChild.step hg hl (hsub c (List.mem_cons_self _ _)) hre⟩
        · rw [if_pos rfl] at h
          injection h with h'
          subst h'
          exact ⟨nd, hg, hl, eq_of_beq he ▸ hsub c (List.mem_cons_self _ _),
            ReachChild.refl a⟩
    intro a pa h
    rw [find_parent_succ] at h
    rcases hg : getN t a with _ | nd
    · rw [hg] at h
      cases h
    · rw [hg] at h
      have h' : (if nd.leaf = true then none else find_parent_scan t ch G' a nd.children) =
        some pa := h
      by_cases hl : nd.leaf = true
      · rw [if_pos hl] at h'
        cases h'
      · rw [if_neg hl] at h'
        exact hscan nd.children a nd hg (Bool.not_eq_true _ ▸ hl) (fun x hx => hx) pa h'

theorem reach_closed {V : Type} {t : BPlusTree V} {S : List Nat}
    (hclo : ∀ x nx, x ∈ S → getN t x = some nx → nx.leaf = false →
      ∀ y ∈ nx.children, y ∈ S) :
    ∀ {x y : Nat}, ReachChild t x y → x ∈ S → y ∈ S := by
  intro x y hr
  induction hr with
  | refl a => exact fun h => h
  | step hg hl hc _ ihr => exact fun hx => ihr (hclo _ _ hx hg hl _ hc)

theorem scanKidsV_seps {V : Type} (t : BPlusTree V) (ch K nb fuel : Nat) :
    ∀ ks cs lo hi r, scanKidsV t ch K nb fuel ks cs lo hi = some r →
      ∀ s ∈ ks, loLT lo s = true ∧ hiGT hi s = true := by
  intro ks
  induction ks with
  | nil =>
    intro cs lo hi r _ s hs
    cases hs
  | cons k ks' ihk =>
    intro cs lo hi r h s hs
    rcases cs with _ | ⟨c0, cs'⟩
    · rw [scanKidsV_cons_nil] at h
      cases h
    · rw [scanKidsV_cons] at h
      rcases hcond : (loLT lo k && hiGT hi k) with _ | _ <;> rw [hcond] at h
      · have h' : (none : Option (List (Nat × V) × List Nat × List Nat)) = some r := h
        cases h'
      · rw [if_pos rfl] at h
        have hcondT : (loLT lo k && hiGT hi k) = true := hcond
        rw [Bool.and_eq_true] at hcondT
        rcases hr1m : (if (c0 == ch) = true then scanPair t ch K nb fuel lo (some k)
            else scanVN t ch K nb fuel c0 lo (some k)) with _ | r1
        · rw [hr1m] at h
          have h' : (none : Option (List (Nat × V) × List Nat × List Nat)) = some r := h
          cases h'
        · rw [hr1m] at h
          rcases h2 : scanKidsV t ch K nb fuel ks' cs' (some k) hi with _ | r2
          · rw [h2] at h
            have h' : (none : Option (List (Nat × V) × List Nat × List Nat)) = some r := h
            cases h'
          · rcases List.mem_cons.mp hs with hse | hsm
            · subst hse
              exact hcondT
            · obtain ⟨hl1, hh1⟩ := ihk cs' (some k) hi r2 h2 s hsm
              refine ⟨?_, hh1⟩
              rw [loLT_some] at hl1
              exact loLT_lt hcondT.1 hl1

theorem scanKids_shape {V : Type} (t : BPlusTree V) (fuel : Nat) :
    ∀ ks cs lo hi r, scanKids t fuel ks cs lo hi = some r →
      cs.length = ks.length + 1 := by
  intro ks
  induction ks with
  | nil =>
    intro cs lo hi r h
    rcases cs with _ | ⟨c0, cs'⟩
    · rw [scanKids_nil_nil] at h
      cases h
    · rcases cs' with _ | ⟨c2, cs''⟩
      · rfl
      · rw [scanKids_nil_big] at h
        cases h
  | cons k ks' ihk =>
    intro cs lo hi r h
    rcases cs with _ | ⟨c0, cs'⟩
    · rw [scanKids_cons_nil] at h
      cases h
    · rw [scanKids_cons] at h
      rcases hcond : (loLT lo k && hiGT hi k) with _ | _ <;> rw [hcond] at h
      · have h' : (none : Option (List (Nat × V) × List Nat × List Nat)) = some r := h
        cases h'
      · rw [if_pos rfl] at h
        rcases h1 : scanN t fuel c0 lo (some k) with _ | r1
        · rw [h1] at h
          have h' : (none : Option (List (Nat × V) × List Nat × List Nat)) = some r := h
          cases h'
        · rw [h1] at h
          rcases h2 : scanKids t fuel ks' cs' (some k) hi with _ | r2
          · rw [h2] at h
            have h' : (none : Option (List (Nat × V) × List Nat × List Nat)) = some r := h
            cases h'
          · simp only [List.length_cons]
            rw [ihk cs' (some k) hi r2 h2]

theorem scanKids_split {V : Type} (t : BPlusTree V) (fuel : Nat) :
    ∀ (A : List Nat) (m : Nat) (B CA CB : List Nat) lo hi c ad lv,
      scanKids t fuel (A ++ m :: B) (CA ++ CB) lo hi = some (c, ad, lv) →
      CA.length = A.length + 1 →
      ∃ c1 ad1 lv1 c2 ad2 lv2,
        scanKids t fuel A CA lo (some m) = some (c1, ad1, lv1) ∧
        scanKids t fuel B CB (some m) hi = some (c2, ad2, lv2) ∧
        c = c1 ++ c2 ∧ ad = ad1 ++ ad2 ∧ lv = lv1 ++ lv2 ∧
        loLT lo m = true ∧ hiGT hi m = true := by
  intro A
  induction A with
  | nil =>
    intro m B CA CB lo hi c ad lv h hlen
    rcases CA with _ | ⟨c0, CA'⟩
    · cases hlen
    · rcases CA' with _ | ⟨c1', CA''⟩
      · rw [List.nil_append, List.cons_append] at h
        simp only [List.nil_append] at h
        rw [scanKids_cons] at h
        rcases hcond : (loLT lo m && hiGT hi m) with _ | _ <;> rw [hcond] at h
        · have h' : (none : Option (List (Nat × V) × List Nat × List Nat)) =
            some (c, ad, lv) := h
          cases h'
        · rw [if_pos rfl] at h
          have hcondT : (loLT lo m && hiGT hi m) = true := hcond
          rw [Bool.and_eq_true] at hcondT
          rcases h1 : scanN t fuel c0 lo (some m) with _ | r1
          · rw [h1] at h
            have h' : (none : Option (List (Nat × V) × List Nat × List Nat)) =
              some (c, ad, lv) := h
            cases h'
          · rw [h1] at h
            rcases h2 : scanKids t fuel B CB (some m) hi with _ | r2
            · rw [h2] at h
              have h' : (none : Option (List (Nat × V) × List Nat × List Nat)) =
                some (c, ad, lv) := h
              cases h'
            · rw [h2] at h
              have h3 : some (r1.1 ++ r2.1, r1.2.1 ++ r2.2.1, r1.2.2 ++ r2.2.2) =
                some (c, ad, lv) := h
              injection h3 with h3'
              injection h3' with hc h3''
              injection h3'' with had hlv
              rcases r1 with ⟨c1r, ad1, lv1⟩
              rcases r2 with ⟨c2r, ad2, lv2⟩
              refine ⟨c1r, ad1, lv1, c2r, ad2, lv2, ?_, rfl, hc.symm, had.symm, hlv.symm,
                hcondT.1, hcondT.2⟩
              rw [scanKids_nil_one]
              exact h1
      · simp only [List.length_cons, List.length_nil] at hlen
        omega
  | cons a A' ihA =>
    intro m B CA CB lo hi c ad lv h hlen
    rcases CA with _ | ⟨c0, CA'⟩
    · cases hlen
    · rw [List.cons_append, List.cons_append] at h
      rw [scanKids_cons] at h
      rcases hcond : (loLT lo a && hiGT hi a) with _ | _ <;> rw [hcond] at h
      · have h' : (none : Option (List (Nat × V) × List Nat × List Nat)) =
          some (c, ad, lv) := h
        cases h'
      · rw [if_pos rfl] at h
        have hcondT : (loLT lo a && hiGT hi a) = true := hcond
        rw [Bool.and_eq_true] at hcondT
        rcases h1 : scanN t fuel c0 lo (some a) with _ | r1
        · rw [h1] at h
          have h' : (none : Option (List (Nat × V) × List Nat × List Nat)) =
            some (c, ad, lv) := h
          cases h'
        · rw [h1] at h
          rcases h2 : scanKids t fuel (A' ++ m :: B) (CA' ++ CB) (some a) hi with _ | r2
          · rw [h2] at h
            have h' : (none : Option (List (Nat × V) × List Nat × List Nat)) =
              some (c, ad, lv) := h
            cases h'
          · rw [h2] at h
            have h3 : some (r1.1 ++ r2.1, r1.2.1 ++ r2.2.1, r1.2.2 ++ r2.2.2) =
              some (c, ad, lv) := h
            injection h3 with h3'
            injection h3' with hc h3''
            injection h3'' with had hlv
            rcases r1 with ⟨c1r, ad1r, lv1r⟩
            rcases r2 with ⟨c2r, ad2r, lv2r⟩
            have hlen' : CA'.length = A'.length + 1 := by
              simp only [List.length_cons] at hlen
              omega
            obtain ⟨cx1, adx1, lvx1, cx2, adx2, lvx2, hA, hB, hceq, hadeq, hlveq,
              hlom, hhim⟩ := ihA m B CA' CB (some a) hi _ _ _ h2 hlen'
            refine ⟨c1r ++ cx1, ad1r ++ adx1, lv1r ++ lvx1, cx2, adx2, lvx2, ?_, hB,
              ?_, ?_, ?_, loLT_lt hcondT.1 (loLT_some.mp hlom), hhim⟩
            · rw [scanKids_cons]
              have hconda : (loLT lo a && hiGT (some m) a) = true := by
                rw [Bool.and_eq_true]
                refine ⟨hcondT.1, ?_⟩
                rw [hiGT_some]
                exact loLT_some.mp hlom
              rw [hconda, if_pos rfl, h1, hA]
            · rw [← hc, hceq]
              simp [List.append_assoc]
            · rw [← had, hadeq]
              simp [List.append_assoc]
            · rw [← hlv, hlveq]
              simp [List.append_assoc]

end BTree
